import Mathlib

/-!
Verification development for the dynamic bit vector and the dynamic
balanced-parenthesis tree of the repository advanced-datastructures-st22.

The definitions below are shallow embeddings of the C++ sources:

* src/bv/simple_bitvector.hpp   (class SimpleBitVector, struct SearchResult)
* src/bv/dynamic_bitvector.hpp  (class DynamicBitVector)
* src/bp/dynamic_bp_tree.hpp    (MinExcessNodeData, MinExcessBlockData,
                                 class DynamicBPTree)

Machine blocks of the template parameter BlockType are modelled as natural
numbers kept below 2 ^ W, where W is the block width in bits
(BLOCK_SIZE = 8 * sizeof(BlockType) in the source).  Signed excess values
are modelled as integers.  Fallible or undefined behaviour (out-of-bounds
vector accesses, never-terminating scans) is modelled with Option.
-/

set_option autoImplicit false

namespace AdsVerify

/-! ## Bits and excess values

In the BP convention of the source, the bit 0 (Lean: false) is an opening
parenthesis (LEFT) and 1 (true) a closing parenthesis (RIGHT); see
MinExcessNodeData::LEFT / RIGHT in src/bp/dynamic_bp_tree.hpp.  A LEFT bit
contributes +1 to the running excess and a RIGHT bit -1.  -/

/-- Excess contribution of one bit: LEFT (false) counts +1, RIGHT (true) -1. -/
def delta (b : Bool) : ℤ := if b then -1 else 1

/-- Prefix excess of the first n bits of a bit sequence. -/
def exc (s : List Bool) (n : ℕ) : ℤ := ((s.take n).map delta).sum

@[simp] theorem exc_zero (s : List Bool) : exc s 0 = 0 := rfl

theorem exc_succ (s : List Bool) (n : ℕ) (h : n < s.length) :
    exc s (n + 1) = exc s n + delta (s.getD n false) := by
  unfold exc
  have h1 : s.take (n + 1) = s.take n ++ [s[n]] := by
    rw [List.take_succ, List.getElem?_eq_getElem h]
    rfl
  rw [h1, List.map_append, List.sum_append]
  simp [List.getD, List.getElem?_eq_getElem h]

theorem exc_of_length_le (s : List Bool) {n : ℕ} (h : s.length ≤ n) :
    exc s n = exc s s.length := by
  unfold exc
  rw [List.take_of_length_le h, List.take_length]

theorem delta_eq_one_or (b : Bool) : delta b = 1 ∨ delta b = -1 := by
  cases b <;> simp [delta]

/-- Each step of the prefix excess changes it by exactly one. -/
theorem exc_step_abs (s : List Bool) (n : ℕ) (h : n < s.length) :
    exc s (n + 1) = exc s n + 1 ∨ exc s (n + 1) = exc s n - 1 := by
  rw [exc_succ s n h]
  rcases delta_eq_one_or (s.getD n false) with h1 | h1 <;> rw [h1]
  · exact Or.inl rfl
  · exact Or.inr (by ring)

/-- Discrete intermediate value property for the prefix excess walk:
on the way from a value above d to a value at most d the walk lands on d,
and it does so at the first position where it is no longer above d. -/
theorem exc_ivt (s : List Bool) (d : ℤ) {a b : ℕ} (hab : a ≤ b)
    (hb : b ≤ s.length) (ha : d < exc s a) (hbv : exc s b ≤ d) :
    ∃ t, a < t ∧ t ≤ b ∧ exc s t = d ∧ ∀ u, a ≤ u → u < t → d < exc s u := by
  have hex : ∃ t, a < t ∧ t ≤ b ∧ exc s t ≤ d := by
    refine ⟨b, ?_, le_rfl, hbv⟩
    rcases Nat.lt_or_ge a b with h | h
    · exact h
    · exfalso
      have : a = b := le_antisymm hab h
      subst this; omega
  classical
  have ht := Nat.find_spec hex
  have hmin : ∀ u, u < Nat.find hex → ¬(a < u ∧ u ≤ b ∧ exc s u ≤ d) :=
    fun u hu => Nat.find_min hex hu
  obtain ⟨hat, htb, htd⟩ := ht
  set t := Nat.find hex with htdef
  have ht0 : 0 < t := lt_of_le_of_lt (Nat.zero_le a) hat
  have hprev : d < exc s (t - 1) := by
    rcases Nat.lt_or_ge a (t - 1) with h | h
    · by_contra hcon
      push_neg at hcon
      exact (hmin (t - 1) (Nat.sub_lt ht0 Nat.one_pos))
        ⟨h, Nat.le_trans (Nat.sub_le t 1) htb, hcon⟩
    · have : t - 1 = a := by omega
      rw [this]; exact ha
  have hstep := exc_step_abs s (t - 1) (by omega)
  have htt : t - 1 + 1 = t := by omega
  rw [htt] at hstep
  have htd' : exc s t = d := by omega
  refine ⟨t, hat, htb, htd', fun u hau hut => ?_⟩
  rcases Nat.lt_or_ge a u with h | h
  · by_contra hcon
    push_neg at hcon
    exact absurd ⟨h, by omega, hcon⟩ (hmin u hut)
  · have : u = a := by omega
    rw [this]; exact ha

/-! ## The SimpleBitVector embedding

Shallow embedding of class SimpleBitVector from src/bv/simple_bitvector.hpp.
Blocks are natural numbers below 2 ^ W where W = BLOCK_SIZE = 8*sizeof(BlockType).
The template parameter BLOCKS_PER_CHUNK of the excess sidecar is C, and the
template flag ExcessQuerySupport is the parameter exq: when it is false the
chunk bookkeeping statements are skipped, exactly like the if-constexpr
branches of the source.  The C++ literal (unsigned 64-bit) appearing in the
bit manipulations as a mask source is modelled by ones64; narrowing
assignments to BlockType are modelled by reduction mod 2 ^ W. -/

/-- Fuel-driven halving loop behind popcount; the fuel only makes the
recursion structural, the value never depends on it (popcountAux_fuel). -/
def popcountAux : ℕ → ℕ → ℕ
  | 0, _ => 0
  | fuel + 1, n => if n = 0 then 0 else popcountAux fuel (n / 2) + n % 2

/-- Number of one bits of a machine word (the builtin popcount). -/
def popcount (n : ℕ) : ℕ := popcountAux n n

/-- The all-ones 64-bit constant, the value of the C++ expression with all
bits set that the source uses to build masks. -/
def ones64 : ℕ := 2 ^ 64 - 1

/-- Per-chunk excess data: struct MinExcessNodeData of
src/bp/dynamic_bp_tree.hpp (fields block_excess and min_excess_in_block,
default-initialised to 0 and 2). -/
structure Chunk where
  block_excess : ℤ
  min_excess_in_block : ℤ
deriving DecidableEq, Repr

instance : Inhabited Chunk := ⟨⟨0, 2⟩⟩

/-- The raw state of class SimpleBitVector: the bit length, the block data
and the optional chunk array of the excess sidecar (empty when the
ExcessQuerySupport flag is off). -/
structure SimpleBitVector where
  current_size_bits : ℕ
  blocks : List ℕ
  chunk_array : List Chunk
deriving DecidableEq, Repr

/-- Result record of forward_search / backward_search
(struct SearchResult of src/bv/simple_bitvector.hpp). -/
structure SearchResult where
  position : ℕ
  excess : ℤ
  found : Bool
deriving DecidableEq, Repr

namespace SimpleBitVector

section Ops

variable (W C : ℕ) (exq : Bool)

/-- Truncation of an unsigned intermediate value on assignment to BlockType. -/
def truncW (x : ℕ) : ℕ := x % 2 ^ W

/-- Bitwise complement of a BlockType value. -/
def notW (x : ℕ) : ℕ := (2 ^ W - 1) ^^^ x

/-- SimpleBitVector::access_bit: (block >> i) & 1. -/
def access_bit (block i : ℕ) : Bool := block.testBit i

/-- SimpleBitVector::get_required_blocks: (num_bits - 1) / BLOCK_SIZE + 1. -/
def get_required_blocks (num_bits : ℕ) : ℕ := (num_bits - 1) / W + 1

/-- SimpleBitVector::size. -/
def size (v : SimpleBitVector) : ℕ := v.current_size_bits

/-- SimpleBitVector::size_in_blocks. -/
def size_in_blocks (v : SimpleBitVector) : ℕ := v.blocks.length

/-- SimpleBitVector::operator[]. -/
def get (v : SimpleBitVector) (i : ℕ) : Bool :=
  access_bit (v.blocks.getD (i / W) 0) (i % W)

/-- Inner bit loop of MinExcessNodeData::compute_block_excess: updates the
running block excess and minimum over cnt bits of one block starting at
bit index i. -/
def chunkScanBits (block : ℕ) : ℕ → ℕ → Chunk → Chunk
  | _, 0, st => st
  | i, cnt + 1, st =>
    let be := st.block_excess + delta (access_bit block i)
    let mn := if be < st.min_excess_in_block then be else st.min_excess_in_block
    chunkScanBits block (i + 1) cnt ⟨be, mn⟩

/-- Outer block loop of MinExcessNodeData::compute_block_excess: b is the
current block index, cnt the number of blocks left to scan, remaining the
number of bits of the chunk not yet consumed. -/
def chunkScanBlocks (blocks : List ℕ) : ℕ → ℕ → ℕ → Chunk → Chunk
  | _, 0, _, st => st
  | b, cnt + 1, remaining, st =>
    let st' := chunkScanBits (blocks.getD b 0) 0 (min W remaining) st
    chunkScanBlocks blocks (b + 1) cnt (remaining - W) st'

/-- MinExcessNodeData::compute_block_excess of src/bp/dynamic_bp_tree.hpp:
recomputes the excess summary of one chunk from the raw blocks. -/
def compute_block_excess (blocks : List ℕ) (chunk_idx current_size : ℕ) : Chunk :=
  let start_block := chunk_idx * C
  let end_block := (chunk_idx + 1) * C
  chunkScanBlocks W blocks start_block (min end_block blocks.length - start_block)
    (current_size - start_block * W) ⟨0, 2⟩

/-- SimpleBitVector::update_excess_chunk: recompute the chunk containing
bit i. -/
def update_excess_chunk (v : SimpleBitVector) (i : ℕ) : SimpleBitVector :=
  let chunk_idx := i / (W * C)
  let ch := compute_block_excess W C v.blocks chunk_idx v.current_size_bits
  { v with chunk_array := v.chunk_array.set chunk_idx ch }

/-- SimpleBitVector::set(i) (set the bit to one). -/
def setTrue (v : SimpleBitVector) (i : ℕ) : SimpleBitVector :=
  let nb := v.blocks.set (i / W) ((v.blocks.getD (i / W) 0) ||| (1 <<< (i % W)))
  let v' := { v with blocks := nb }
  if exq then update_excess_chunk W C v' i else v'

/-- SimpleBitVector::reset(i) (clear the bit). -/
def reset (v : SimpleBitVector) (i : ℕ) : SimpleBitVector :=
  let nb := v.blocks.set (i / W)
    ((v.blocks.getD (i / W) 0) &&& (ones64 ^^^ (1 <<< (i % W))))
  let v' := { v with blocks := nb }
  if exq then update_excess_chunk W C v' i else v'

/-- SimpleBitVector::set(i, value). -/
def set (v : SimpleBitVector) (i : ℕ) (value : Bool) : SimpleBitVector :=
  if value then setTrue W C exq v i else reset W C exq v i

/-- SimpleBitVector::flip(i). -/
def flip (v : SimpleBitVector) (i : ℕ) : SimpleBitVector :=
  let nb := v.blocks.set (i / W) ((v.blocks.getD (i / W) 0) ^^^ (1 <<< (i % W)))
  let v' := { v with blocks := nb }
  if exq then update_excess_chunk W C v' i else v'

/-- Loop of SimpleBitVector::insert shifting all blocks after the block of
the inserted bit by one position; cnt is the number of blocks remaining. -/
def insertShiftLoop (v : SimpleBitVector) (block : ℕ) (last : Bool) :
    ℕ → SimpleBitVector
  | 0 => v
  | cnt + 1 =>
    let new_last := get W v (block * W + W - 1)
    let nb := v.blocks.set block
      (truncW W (((v.blocks.getD block 0) <<< 1) &&& (ones64 ^^^ 1)))
    let v' := set W C exq { v with blocks := nb } (block * W) last
    insertShiftLoop v' (block + 1) new_last cnt

/-- Body of SimpleBitVector::insert(i, value) for an interior position
(the branch taken when current_size_bits++ != i): in-block shuffle, set the
bit, then shift all later blocks. -/
def insertTail (v : SimpleBitVector) (i : ℕ) (value : Bool) : SimpleBitVector :=
  let block_num := i / W
  let block_pos := i % W
  let last_block_value := get W v (block_num * W + W - 1)
  let v :=
    if (block_pos + 1) % W ≠ 0 then
      let blk := v.blocks.getD block_num 0
      let values := truncW W (((ones64 <<< block_pos) &&& blk) <<< 1)
      let mask := truncW W (ones64 <<< (block_pos + 1))
      { v with blocks := v.blocks.set block_num ((blk &&& notW W mask) ||| (values &&& mask)) }
    else v
  let v := set W C exq v i value
  insertShiftLoop W C exq v (block_num + 1) last_block_value
    (v.blocks.length - (block_num + 1))

/-- SimpleBitVector::insert(i, value). -/
def insert (v : SimpleBitVector) (i : ℕ) (value : Bool) : SimpleBitVector :=
  -- grow by one block (and, with excess support, possibly one chunk)
  let v :=
    if v.current_size_bits = W * v.blocks.length then
      let v :=
        if exq ∧ v.chunk_array.length * C = v.blocks.length then
          { v with chunk_array := v.chunk_array ++ [default] }
        else v
      { v with blocks := v.blocks ++ [0] }
    else v
  -- current_size_bits++ == i : compare against the old size, then increment
  let oldSize := v.current_size_bits
  let v := { v with current_size_bits := oldSize + 1 }
  if oldSize = i then set W C exq v i value
  else insertTail W C exq v i value

/-- Loop of SimpleBitVector::delete_element moving the first bit of every
later block into the previous block and shifting; returns the state and
the final value of last_block_pos. -/
def deleteShiftLoop (v : SimpleBitVector) (block last_block_pos : ℕ) :
    ℕ → SimpleBitVector × ℕ
  | 0 => (v, last_block_pos)
  | cnt + 1 =>
    let v := set W C exq v last_block_pos (get W v (block * W))
    let lbp := last_block_pos + W
    let v := { v with blocks := v.blocks.set block ((v.blocks.getD block 0) >>> 1) }
    deleteShiftLoop v (block + 1) lbp cnt

/-- Body of SimpleBitVector::delete_element(i) for an interior position
(the branch taken when i != --current_size_bits): in-block shuffle, then
move the first bit of every later block back across the block boundary. -/
def deleteTail (v : SimpleBitVector) (i : ℕ) : SimpleBitVector :=
  let block_num := i / W
  let block_pos := i % W
  let blk := v.blocks.getD block_num 0
  let values := ((ones64 <<< (block_pos + 1)) &&& blk) >>> 1
  let mask := truncW W (ones64 <<< block_pos)
  let v := { v with blocks := v.blocks.set block_num ((blk &&& notW W mask) ||| (values &&& mask)) }
  let r := deleteShiftLoop W C exq v (block_num + 1) (block_num * W + W - 1)
    (v.blocks.length - (block_num + 1))
  reset W C exq r.1 r.2

/-- SimpleBitVector::delete_element(i). -/
def delete_element (v : SimpleBitVector) (i : ℕ) : SimpleBitVector :=
  let v := { v with current_size_bits := v.current_size_bits - 1 }
  let v :=
    if i = v.current_size_bits then reset W C exq v i
    else deleteTail W C exq v i
  -- pop the tail block when it became empty
  if v.blocks.length ≠ 0 ∧ v.current_size_bits = W * (v.blocks.length - 1) then
    let v' := { v with blocks := v.blocks.dropLast }
    if exq ∧ (v'.chunk_array.length - 1) * C = v'.blocks.length then
      { v' with chunk_array := v'.chunk_array.dropLast }
    else v'
  else v

/-- SimpleBitVector::rank_one(i): ones in positions [0, i). -/
def rank_one (v : SimpleBitVector) (i : ℕ) : ℕ :=
  popcount ((v.blocks.getD (i / W) 0) &&& ((1 <<< (i % W)) - 1)) +
    ((v.blocks.take (i / W)).map popcount).sum

/-- SimpleBitVector::rank_zero(i). -/
def rank_zero (v : SimpleBitVector) (i : ℕ) : ℕ := i - rank_one W v i

/-- SimpleBitVector::rank(rank_one, i). -/
def rank (v : SimpleBitVector) (one : Bool) (i : ℕ) : ℕ :=
  if one then rank_one W v i else rank_zero W v i

/-- SimpleBitVector::num_ones. -/
def num_ones (v : SimpleBitVector) : ℕ := (v.blocks.map popcount).sum

/-- Block-finding loop of select_one / select_zero: consume the popcount
budget block by block; idx is the block index, fuel the number of blocks
left, sel the remaining budget.  Returns the stopping block index and the
remaining budget. -/
def selFindLoop (one : Bool) (blocks : List ℕ) : ℕ → ℕ → ℕ → ℕ × ℕ
  | idx, 0, sel => (idx, sel)
  | idx, fuel + 1, sel =>
    let cnt := if one then popcount (blocks.getD idx 0)
               else W - popcount (blocks.getD idx 0)
    if sel > cnt then selFindLoop one blocks (idx + 1) fuel (sel - cnt) else (idx, sel)

/-- Final in-block scan of select_one.  The C++ loop has no bound: it only
stops when the budget hits zero at a one bit, so the case of a zero block
with positive budget (where the C++ loop never terminates) is modelled as
none. -/
def selScanOne (block pos sel : ℕ) : Option ℕ :=
  if h : block = 0 then none
  else if block % 2 = 1 then
    (if sel = 1 then some pos else selScanOne (block / 2) (pos + 1) (sel - 1))
  else selScanOne (block / 2) (pos + 1) sel
termination_by block
decreasing_by
  all_goals exact Nat.div_lt_self (Nat.pos_of_ne_zero h) one_lt_two

/-- Final in-block scan of select_zero.  Past the highest one bit every bit
reads as zero, so the budget always runs out eventually except when it was
zero at a zero block (the wrap-around of the unsigned budget in the C++
source, modelled as none). -/
def selScanZero (block pos sel : ℕ) : Option ℕ :=
  if block % 2 = 0 then
    (if sel = 1 then some pos
     else if block = 0 ∧ sel = 0 then none
     else selScanZero (block / 2) (pos + 1) (sel - 1))
  else selScanZero (block / 2) (pos + 1) sel
termination_by block + sel
decreasing_by all_goals omega

/-- SimpleBitVector::select_one(i) (one-based budget i). -/
def select_one (v : SimpleBitVector) (i : ℕ) : Option ℕ :=
  let r := selFindLoop W true v.blocks 0 v.blocks.length i
  selScanOne (v.blocks.getD r.1 0) (W * r.1) r.2

/-- SimpleBitVector::select_zero(i) (one-based budget i). -/
def select_zero (v : SimpleBitVector) (i : ℕ) : Option ℕ :=
  let r := selFindLoop W false v.blocks 0 v.blocks.length i
  selScanZero (v.blocks.getD r.1 0) (W * r.1) r.2

/-- SimpleBitVector::select(select_one, i). -/
def select (v : SimpleBitVector) (one : Bool) (i : ℕ) : Option ℕ :=
  if one then select_one W v i else select_zero W v i

/-- SimpleBitVector::push_back. -/
def push_back (v : SimpleBitVector) (value : Bool) : SimpleBitVector :=
  insert W C exq v v.current_size_bits value

/-- SimpleBitVector::pop_back. -/
def pop_back (v : SimpleBitVector) : SimpleBitVector :=
  delete_element W C exq v (v.current_size_bits - 1)

/-- Chunk fill loop of the SimpleBitVector(initial_size) constructor in
excess mode: each chunk starts out all LEFT bits, so its excess is its bit
count and its minimum prefix excess is 1.  (The source also writes a field
num_occ_min_excess here that does not exist in MinExcessNodeData of
src/bp/dynamic_bp_tree.hpp; that stale assignment is dropped.) -/
def constructorChunkFill : ℕ → ℕ → List Chunk
  | 0, _ => []
  | n + 1, remaining =>
    let be : ℤ := if remaining < C * W then (remaining : ℤ) else ((C * W : ℕ) : ℤ)
    ⟨be, 1⟩ :: constructorChunkFill n (remaining - C * W)

/-- The constructor SimpleBitVector(initial_size): zeroed blocks, and in
excess mode a chunk array describing the all-zero content. -/
def mkSBV (initial_size : ℕ) : SimpleBitVector :=
  let nblocks := if initial_size = 0 then 0 else get_required_blocks W initial_size
  let nchunks := if exq then (if nblocks = 0 then 0 else (nblocks - 1) / C + 1) else 0
  { current_size_bits := initial_size
    blocks := List.replicate nblocks 0
    chunk_array := constructorChunkFill W C nchunks initial_size }

/-- Overwrite the prefix of dst with src (the element-wise copy loops of
split and copy_to_back; an out-of-range write, impossible for well-formed
sizes, keeps src). -/
def listOverwrite {α : Type} (dst src : List α) : List α :=
  if src.length ≤ dst.length then src ++ dst.drop src.length else src

/-- SimpleBitVector::split: keeps the first half of the blocks in the first
component and moves the rest into a freshly constructed vector. -/
def split (v : SimpleBitVector) : SimpleBitVector × SimpleBitVector :=
  let moved_blocks := v.blocks.length / 2
  let outInit := mkSBV W C exq (v.current_size_bits - moved_blocks * W)
  let outBlocks := listOverwrite outInit.blocks (v.blocks.drop moved_blocks)
  if exq then
    let moved_chunks := moved_blocks / C
    let outChunks := listOverwrite outInit.chunk_array (v.chunk_array.drop moved_chunks)
    (⟨moved_blocks * W, v.blocks.take moved_blocks, v.chunk_array.take moved_chunks⟩,
     ⟨outInit.current_size_bits, outBlocks, outChunks⟩)
  else
    (⟨moved_blocks * W, v.blocks.take moved_blocks, v.chunk_array⟩,
     ⟨outInit.current_size_bits, outBlocks, outInit.chunk_array⟩)

/-- Shifted block-by-block copy loop of copy_to_back (the unaligned case);
first is the first block index written, i the current one. -/
def copyShiftLoop (insert_pos : ℕ) (other_blocks : List ℕ) (first : ℕ) :
    List ℕ → ℕ → ℕ → ℕ → ℕ → ℕ → List ℕ
  | blocks, _, 0, _, _, _ => blocks
  | blocks, i, fuel + 1, last, next, ntc =>
    let mask := truncW W (ones64 <<< insert_pos)
    let shift := if i = first then 0 else W - insert_pos
    let nb := blocks.set i (((last >>> shift) &&& notW W mask) ||| ((next <<< insert_pos) &&& mask))
    let next' := if ntc < other_blocks.length then other_blocks.getD ntc 0 else 0
    copyShiftLoop insert_pos other_blocks first nb (i + 1) fuel next next' (ntc + 1)

/-- SimpleBitVector::copy_to_back(other): append the contents of the other
vector behind the current bits. -/
def copy_to_back (v other : SimpleBitVector) : SimpleBitVector :=
  if other.blocks.length = 0 then v
  else
    let required := get_required_blocks W (v.current_size_bits + other.current_size_bits)
    let old := v.blocks.length
    let insert_pos := v.current_size_bits % W
    let v' :=
      if insert_pos ≠ 0 then
        let grown := v.blocks ++ List.replicate (required - old) 0
        let fuel := if old = 0 then 0 else grown.length - (old - 1)
        let nb := copyShiftLoop W insert_pos other.blocks (old - 1) grown (old - 1)
          fuel (grown.getD (old - 1) 0) (other.blocks.getD 0 0) 1
        { v with blocks := nb }
      else
        let v2 := { v with blocks := v.blocks ++ other.blocks.take (required - old) }
        if exq then
          let required_chunks := (required - 1) / C + 1
          let oldc := v.chunk_array.length
          { v2 with chunk_array := v.chunk_array ++ other.chunk_array.take (required_chunks - oldc) }
        else v2
    { v' with current_size_bits := v.current_size_bits + other.current_size_bits }

/-- Linear scan of forward_search over cnt bit positions starting at i with
running excess cur: the first position where the excess reaches d, or the
accumulated excess. -/
def fwdScan (v : SimpleBitVector) (d : ℤ) : ℕ → ℕ → ℤ → ℤ ⊕ ℕ
  | _, 0, cur => Sum.inl cur
  | i, cnt + 1, cur =>
    let cur' := cur + delta (get W v i)
    if cur' = d then Sum.inr i else fwdScan v d (i + 1) cnt cur'

/-- Chunk-summary loop of forward_search: skip chunks that cannot contain
the target excess.  Returns the stopping chunk index and the accumulated
excess. -/
def fwdChunkLoop (chunks : List Chunk) (d : ℤ) : ℕ → ℕ → ℤ → ℕ × ℤ
  | c, 0, cur => (c, cur)
  | c, fuel + 1, cur =>
    let ch := chunks.getD c default
    if cur + ch.min_excess_in_block ≤ d then (c, cur)
    else fwdChunkLoop chunks d (c + 1) fuel (cur + ch.block_excess)

/-- SimpleBitVector::forward_search(pos, d). -/
def forward_search (v : SimpleBitVector) (pos : ℕ) (d : ℤ) : SearchResult :=
  let BITS := C * W
  let chunk_idx := pos / BITS
  let chunk_pos := pos % BITS
  let r1 := if chunk_pos ≠ 0 then
      fwdScan W v d pos (min ((chunk_idx + 1) * BITS) v.current_size_bits - pos) 0
    else Sum.inl 0
  match r1 with
  | Sum.inr p => ⟨p, d, true⟩
  | Sum.inl cur =>
    let c0 := if chunk_pos ≠ 0 then chunk_idx + 1 else chunk_idx
    let r2 := fwdChunkLoop v.chunk_array d c0 (v.chunk_array.length - c0) cur
    let c := r2.1
    let r3 := fwdScan W v d (c * BITS) (min ((c + 1) * BITS) v.current_size_bits - c * BITS) r2.2
    match r3 with
    | Sum.inr p => ⟨p, d, true⟩
    | Sum.inl cur' => ⟨0, cur', false⟩

/-- Linear backward scan of backward_search over cnt bit positions ending
just below j, with the backward excess convention (LEFT counts -1). -/
def bwdScan (v : SimpleBitVector) (d : ℤ) : ℕ → ℕ → ℤ → ℤ ⊕ ℕ
  | _, 0, cur => Sum.inl cur
  | j, cnt + 1, cur =>
    let cur' := cur - delta (get W v (j - 1))
    if cur' = d then Sum.inr (j - 1) else bwdScan v d (j - 1) cnt cur'

/-- Chunk-summary loop of backward_search, walking the chunks below the
start chunk downwards; n is the number of chunks left, so chunk n-1 is
inspected next.  Left value: stopping chunk (none when all chunks were
consumed) and accumulated excess; right value: a hit at a chunk boundary. -/
def bwdChunkLoop (chunks : List Chunk) (d : ℤ) (BITS : ℕ) :
    ℕ → ℤ → (Option ℕ × ℤ) ⊕ ℕ
  | 0, cur => Sum.inl (none, cur)
  | n + 1, cur =>
    let c := n
    let ch := chunks.getD c default
    if cur - ch.block_excess + ch.min_excess_in_block ≤ d then Sum.inl (some c, cur)
    else
      let cur' := cur - ch.block_excess
      if cur' = d then Sum.inr (c * BITS) else bwdChunkLoop chunks d BITS n cur'

/-- SimpleBitVector::backward_search(pos, d). -/
def backward_search (v : SimpleBitVector) (pos : ℕ) (d : ℤ) : SearchResult :=
  let BITS := C * W
  let chunk_idx := pos / BITS
  let r1 := bwdScan W v d pos (pos - chunk_idx * BITS) 0
  match r1 with
  | Sum.inr p => ⟨p, d, true⟩
  | Sum.inl cur =>
    match bwdChunkLoop v.chunk_array d BITS chunk_idx cur with
    | Sum.inr p => ⟨p, d, true⟩
    | Sum.inl (none, cur) => ⟨0, cur, false⟩
    | Sum.inl (some c, cur) =>
      match bwdScan W v d ((c + 1) * BITS) BITS cur with
      | Sum.inr p => ⟨p, d, true⟩
      | Sum.inl cur' => ⟨0, cur', false⟩

end Ops

end SimpleBitVector

/-! ## Bit-list semantics of a leaf

toBits reads the stored bit sequence of a leaf; the functional-correctness
statements about leaf operations are phrased against it. -/

namespace SimpleBitVector

/-- The stored bit sequence of a leaf. -/
def toBits (W : ℕ) (v : SimpleBitVector) : List Bool :=
  (List.range v.current_size_bits).map (fun i => get W v i)

theorem toBits_length (W : ℕ) (v : SimpleBitVector) :
    (toBits W v).length = v.current_size_bits := by
  simp [toBits]

theorem toBits_getD (W : ℕ) (v : SimpleBitVector) {i : ℕ}
    (h : i < v.current_size_bits) :
    (toBits W v).getD i false = get W v i := by
  simp [toBits, List.getD, List.getElem?_map, List.getElem?_range, h]

theorem exc_toBits_succ (W : ℕ) (v : SimpleBitVector) {i : ℕ}
    (h : i < v.current_size_bits) :
    exc (toBits W v) (i + 1) = exc (toBits W v) i + delta (get W v i) := by
  rw [exc_succ (toBits W v) i (by simpa [toBits_length] using h),
    toBits_getD W v h]

/-! ### Characterisation of the linear scans of forward_search -/

section ScanSpec

variable (W : ℕ) (v : SimpleBitVector) (d : ℤ)

theorem fwdScan_inl_spec :
    ∀ (cnt i : ℕ) (cur : ℤ), i + cnt ≤ v.current_size_bits →
    ∀ r, fwdScan W v d i cnt cur = Sum.inl r →
      r = cur + (exc (toBits W v) (i + cnt) - exc (toBits W v) i) ∧
      ∀ t, i ≤ t → t < i + cnt →
        cur + (exc (toBits W v) (t + 1) - exc (toBits W v) i) ≠ d := by
  intro cnt
  induction cnt with
  | zero =>
    intro i cur _ r hr
    simp only [fwdScan] at hr
    cases hr
    constructor
    · simp
    · intro t h1 h2; omega
  | succ n ih =>
    intro i cur hle r hr
    simp only [fwdScan] at hr
    by_cases hd : cur + delta (get W v i) = d
    · simp [hd] at hr
    · rw [if_neg hd] at hr
      have hstep := exc_toBits_succ W v (show i < v.current_size_bits by omega)
      obtain ⟨h1, h2⟩ := ih (i + 1) (cur + delta (get W v i)) (by omega) r hr
      constructor
      · rw [h1, hstep]; ring_nf
      · intro t ht1 ht2
        rcases Nat.eq_or_lt_of_le ht1 with he | hlt
        · subst he
          rw [hstep]
          intro hcon
          exact hd (by omega)
        · have h5 := h2 t hlt (by omega)
          intro hcon
          exact h5 (by omega)

theorem fwdScan_inr_spec :
    ∀ (cnt i : ℕ) (cur : ℤ), i + cnt ≤ v.current_size_bits →
    ∀ p, fwdScan W v d i cnt cur = Sum.inr p →
      i ≤ p ∧ p < i + cnt ∧
      cur + (exc (toBits W v) (p + 1) - exc (toBits W v) i) = d ∧
      ∀ t, i ≤ t → t < p →
        cur + (exc (toBits W v) (t + 1) - exc (toBits W v) i) ≠ d := by
  intro cnt
  induction cnt with
  | zero =>
    intro i cur _ p hp
    simp only [fwdScan] at hp
    exact absurd hp (by simp)
  | succ n ih =>
    intro i cur hle p hp
    simp only [fwdScan] at hp
    have hstep := exc_toBits_succ W v (show i < v.current_size_bits by omega)
    by_cases hd : cur + delta (get W v i) = d
    · rw [if_pos hd] at hp
      cases hp
      refine ⟨le_rfl, by omega, by rw [hstep]; omega, ?_⟩
      intro t h1 h2; omega
    · rw [if_neg hd] at hp
      obtain ⟨h1, h2, h3, h4⟩ := ih (i + 1) (cur + delta (get W v i)) (by omega) p hp
      refine ⟨by omega, by omega, by omega, ?_⟩
      intro t ht1 ht2
      rcases Nat.eq_or_lt_of_le ht1 with he | hlt
      · subst he
        rw [hstep]
        intro hcon
        exact hd (by omega)
      · have h5 := h4 t hlt ht2
        intro hcon
        exact h5 (by omega)

end ScanSpec

/-! ### Characterisation of compute_block_excess -/

/-- The per-bit state update of compute_block_excess as a list fold. -/
def excessFold (l : List Bool) (st : Chunk) : Chunk :=
  l.foldl (fun st b =>
    let be := st.block_excess + delta b
    ⟨be, if be < st.min_excess_in_block then be else st.min_excess_in_block⟩) st

theorem excessFold_nil (st : Chunk) : excessFold [] st = st := rfl

theorem excessFold_cons (b : Bool) (l : List Bool) (st : Chunk) :
    excessFold (b :: l) st =
      excessFold l ⟨st.block_excess + delta b,
        if st.block_excess + delta b < st.min_excess_in_block then
          st.block_excess + delta b else st.min_excess_in_block⟩ := rfl

theorem excessFold_append (l1 l2 : List Bool) (st : Chunk) :
    excessFold (l1 ++ l2) st = excessFold l2 (excessFold l1 st) := by
  unfold excessFold
  exact List.foldl_append ..

/-- Joint characterisation of the fold: resulting block excess is the
total, and the resulting minimum is the least among the starting minimum
and all partial excess values. -/
theorem excessFold_spec (l : List Bool) : ∀ st : Chunk,
    (excessFold l st).block_excess = st.block_excess + (l.map delta).sum ∧
    (excessFold l st).min_excess_in_block ≤ st.min_excess_in_block ∧
    (∀ t, 1 ≤ t → t ≤ l.length →
      (excessFold l st).min_excess_in_block ≤ st.block_excess + exc l t) ∧
    ((excessFold l st).min_excess_in_block = st.min_excess_in_block ∨
      ∃ t, 1 ≤ t ∧ t ≤ l.length ∧
        (excessFold l st).min_excess_in_block = st.block_excess + exc l t) := by
  induction l with
  | nil =>
    intro st
    refine ⟨by simp [excessFold_nil], le_rfl, ?_, Or.inl rfl⟩
    intro t h1 h2; simp at h2; omega
  | cons b l ih =>
    intro st
    rw [excessFold_cons]
    obtain ⟨i1, i2, i3, i4⟩ := ih ⟨st.block_excess + delta b,
      if st.block_excess + delta b < st.min_excess_in_block then
        st.block_excess + delta b else st.min_excess_in_block⟩
    dsimp only at i1 i2 i3 i4
    have hexc1 : exc (b :: l) 1 = delta b := by
      simp [exc, List.take_succ_cons]
    have hexcs : ∀ t, exc (b :: l) (t + 1) = delta b + exc l t := by
      intro t
      simp [exc, List.take_succ_cons]
    constructor
    · rw [i1]; simp; ring
    refine ⟨?_, ?_, ?_⟩
    · refine le_trans i2 ?_
      split <;> omega
    · intro t h1 h2
      rcases Nat.eq_or_lt_of_le h1 with he | hlt
      · rw [← he, hexc1]
        refine le_trans i2 ?_
        split <;> omega
      · have h3 := i3 (t - 1) (by omega) (by simp at h2 ⊢; omega)
        have ht : t - 1 + 1 = t := by omega
        rw [← ht, hexcs]
        omega
    · rcases i4 with h | ⟨t, h1, h2, h3⟩
      · rw [h]
        by_cases hc : st.block_excess + delta b < st.min_excess_in_block
        · rw [if_pos hc]
          refine Or.inr ⟨1, le_rfl, by simp, ?_⟩
          rw [hexc1]
        · rw [if_neg hc]
          exact Or.inl rfl
      · refine Or.inr ⟨t + 1, by omega, by simp; omega, ?_⟩
        rw [h3, hexcs]
        ring

section ChunkSpec

variable (W C : ℕ)

theorem chunkScanBits_eq_fold (block : ℕ) : ∀ (cnt i : ℕ) (st : Chunk),
    chunkScanBits block i cnt st =
      excessFold ((List.range cnt).map (fun t => access_bit block (i + t))) st := by
  intro cnt
  induction cnt with
  | zero => intro i st; rfl
  | succ n ih =>
    intro i st
    have hl : (List.range (n + 1)).map (fun t => access_bit block (i + t)) =
        access_bit block i ::
          (List.range n).map (fun t => access_bit block (i + 1 + t)) := by
      rw [List.range_succ_eq_map]
      simp only [List.map_cons, Nat.add_zero, List.map_map]
      have hfun : ((fun t => access_bit block (i + t)) ∘ Nat.succ) =
          (fun t => access_bit block (i + 1 + t)) := by
        funext t
        simp only [Function.comp_apply]
        congr 1
        omega
      rw [hfun]
    rw [hl, excessFold_cons]
    show chunkScanBits block (i + 1) n _ = _
    exact ih (i + 1) _

/-- The list of bits visited by the outer loop of compute_block_excess:
for cnt blocks starting at block b, from each block the first
min W remaining bits, with remaining decreasing by W per block. -/
def segBits (blocks : List ℕ) : ℕ → ℕ → ℕ → List Bool
  | _, 0, _ => []
  | b, cnt + 1, remaining =>
    (List.range (min W remaining)).map (fun t => access_bit (blocks.getD b 0) t) ++
      segBits blocks (b + 1) cnt (remaining - W)

theorem chunkScanBlocks_eq_fold (blocks : List ℕ) :
    ∀ (cnt b remaining : ℕ) (st : Chunk),
    chunkScanBlocks W blocks b cnt remaining st =
      excessFold (segBits W blocks b cnt remaining) st := by
  intro cnt
  induction cnt with
  | zero => intro b remaining st; rfl
  | succ n ih =>
    intro b remaining st
    show chunkScanBlocks W blocks (b + 1) n (remaining - W) _ = _
    rw [ih, segBits, excessFold_append, chunkScanBits_eq_fold]
    have hfun : (fun t => access_bit (blocks.getD b 0) (0 + t)) =
        (fun t => access_bit (blocks.getD b 0) t) := by
      funext t
      rw [Nat.zero_add]
    rw [hfun]

theorem get_block_bit (v : SimpleBitVector) (hW : 0 < W) (b t : ℕ) (ht : t < W) :
    get W v (b * W + t) = access_bit (v.blocks.getD b 0) t := by
  unfold get
  congr 1
  · congr 1
    rw [Nat.mul_comm b W, Nat.mul_add_div hW, Nat.div_eq_of_lt ht]
    omega
  · rw [Nat.mul_comm b W, Nat.mul_add_mod]
    exact Nat.mod_eq_of_lt ht

theorem segBits_eq_map (v : SimpleBitVector) (hW : 0 < W) :
    ∀ (cnt b : ℕ),
    segBits W v.blocks b cnt (v.current_size_bits - b * W) =
      (List.range' (b * W)
        (min ((b + cnt) * W) v.current_size_bits - b * W)).map (get W v) := by
  intro cnt
  induction cnt with
  | zero =>
    intro b
    have e : (b + 0) * W = b * W := by ring
    rw [segBits, e, Nat.sub_eq_zero_of_le (Nat.min_le_left _ _)]
    simp
  | succ n ih =>
    intro b
    rw [segBits]
    have hrem : v.current_size_bits - b * W - W = v.current_size_bits - (b + 1) * W := by
      have e1 : (b + 1) * W = b * W + W := by ring
      omega
    rw [hrem, ih (b + 1)]
    rcases le_or_lt ((b + 1) * W) v.current_size_bits with hc | hc
    · -- block b is fully used
      have hm : min W (v.current_size_bits - b * W) = W := by
        apply min_eq_left
        have e1 : (b + 1) * W = b * W + W := by ring
        omega
      rw [hm]
      have hlen2 : min ((b + (n + 1)) * W) v.current_size_bits - b * W =
          (min ((b + 1 + n) * W) v.current_size_bits - (b + 1) * W) + W := by
        have e1 : (b + 1) * W = b * W + W := by ring
        have e23 : (b + 1 + n) * W = (b + (n + 1)) * W := by ring
        rw [e23]
        have e5 : (b + (n + 1)) * W = b * W + W + n * W := by ring
        have hXmin : min ((b + (n + 1)) * W) v.current_size_bits = (b + (n + 1)) * W ∨
            min ((b + (n + 1)) * W) v.current_size_bits = v.current_size_bits := by
          rcases le_total ((b + (n + 1)) * W) v.current_size_bits with h | h
          · exact Or.inl (min_eq_left h)
          · exact Or.inr (min_eq_right h)
        have hX1 := Nat.min_le_left ((b + (n + 1)) * W) v.current_size_bits
        have hX2 := Nat.min_le_right ((b + (n + 1)) * W) v.current_size_bits
        rcases hXmin with h | h <;> omega
      rw [hlen2]
      have happ := List.range'_append (b * W) W
        (min ((b + 1 + n) * W) v.current_size_bits - (b + 1) * W) 1
      rw [show b * W + 1 * W = (b + 1) * W by ring] at happ
      rw [← happ, List.map_append]
      congr 1
      apply List.ext_getElem
      · simp
      · intro j h1 h2
        simp only [List.getElem_map, List.getElem_range, List.getElem_range']
        have hjW : j < W := by simpa using h1
        rw [show b * W + 1 * j = b * W + j by ring, get_block_bit W v hW b j hjW]
    · -- block b is the last one touched; the tail contributes nothing
      have hzero : min ((b + 1 + n) * W) v.current_size_bits - (b + 1) * W = 0 := by
        have h2 := Nat.min_le_right ((b + 1 + n) * W) v.current_size_bits
        omega
      rw [hzero]
      simp only [List.range'_zero, List.map_nil, List.append_nil]
      have hlen2 : min ((b + (n + 1)) * W) v.current_size_bits - b * W =
          min W (v.current_size_bits - b * W) := by
        have e1 : (b + 1) * W = b * W + W := by ring
        have e5 : (b + (n + 1)) * W = b * W + W + n * W := by ring
        rw [min_eq_right (show v.current_size_bits ≤ (b + (n + 1)) * W by omega),
          min_eq_right (show v.current_size_bits - b * W ≤ W by omega)]
      rw [hlen2]
      apply List.ext_getElem
      · simp
      · intro j h1 h2
        simp only [List.getElem_map, List.getElem_range, List.getElem_range']
        have hjW : j < W := by
          simp at h1
          omega
        rw [show b * W + 1 * j = b * W + j by ring, get_block_bit W v hW b j hjW]

theorem size_le_blocks_mul (v : SimpleBitVector) (hW : 0 < W)
    (hlen : v.blocks.length = get_required_blocks W v.current_size_bits) :
    v.current_size_bits ≤ v.blocks.length * W := by
  rw [hlen]
  unfold get_required_blocks
  rw [Nat.succ_mul]
  have h1 := Nat.div_add_mod (v.current_size_bits - 1) W
  have h2 : (v.current_size_bits - 1) % W < W := Nat.mod_lt _ hW
  have e : (v.current_size_bits - 1) / W * W = W * ((v.current_size_bits - 1) / W) :=
    Nat.mul_comm _ _
  omega

/-- compute_block_excess characterised as the excess fold over the bit
positions of chunk c that lie below the size, assuming the canonical block
count. -/
theorem compute_block_excess_eq_fold (v : SimpleBitVector) (hW : 0 < W)
    (hlen : v.blocks.length = get_required_blocks W v.current_size_bits) (c : ℕ) :
    compute_block_excess W C v.blocks c v.current_size_bits =
      excessFold ((List.range' (c * C * W)
        (min ((c + 1) * C * W) v.current_size_bits - c * C * W)).map (get W v))
        ⟨0, 2⟩ := by
  have hlenW := size_le_blocks_mul W v hW hlen
  unfold compute_block_excess
  rw [chunkScanBlocks_eq_fold, segBits_eq_map W v hW]
  have hcut : min ((c * C + (min ((c + 1) * C) v.blocks.length - c * C)) * W)
      v.current_size_bits = min ((c + 1) * C * W) v.current_size_bits := by
    rcases le_or_lt ((c + 1) * C) v.blocks.length with h | h
    · rw [min_eq_left h]
      have e1 : (c + 1) * C = c * C + C := by ring
      have e4 : c * C + ((c + 1) * C - c * C) = (c + 1) * C := by omega
      rw [e4]
    · rcases le_or_lt (c * C) v.blocks.length with h2 | h2
      · rw [min_eq_right h.le]
        have e4 : c * C + (v.blocks.length - c * C) = v.blocks.length := by omega
        rw [e4]
        have hLW : v.blocks.length * W + W ≤ (c + 1) * C * W := by
          have hL1 : v.blocks.length + 1 ≤ (c + 1) * C := h
          calc v.blocks.length * W + W = (v.blocks.length + 1) * W := by ring
          _ ≤ (c + 1) * C * W := Nat.mul_le_mul_right W hL1
        rw [min_eq_right hlenW, min_eq_right (by omega)]
      · rw [min_eq_right h.le]
        have e4 : c * C + (v.blocks.length - c * C) = c * C := by omega
        rw [e4]
        have h3 : v.blocks.length * W ≤ c * C * W := Nat.mul_le_mul_right W h2.le
        have h4 : c * C * W ≤ (c + 1) * C * W := by
          apply Nat.mul_le_mul_right
          exact Nat.mul_le_mul_right C (Nat.le_succ c)
        rw [min_eq_right (by omega), min_eq_right (by omega)]
  rw [hcut]

end ChunkSpec


/-! ### Correctness of forward_search on well-formed excess leaves -/

theorem exc_eq_sum (s : List Bool) : exc s s.length = (s.map delta).sum := by
  unfold exc
  rw [List.take_length]

theorem exc_map_get_range (W : ℕ) (v : SimpleBitVector) (a L : ℕ)
    (hle : a + L ≤ v.current_size_bits) :
    ∀ t, t ≤ L →
      exc ((List.range' a L).map (get W v)) t =
        exc (toBits W v) (a + t) - exc (toBits W v) a := by
  intro t
  induction t with
  | zero => intro _; simp
  | succ n ih =>
    intro h
    have hn := ih (by omega)
    have hlt : n < ((List.range' a L).map (get W v)).length := by
      simp
      omega
    have hgd : ((List.range' a L).map (get W v)).getD n false = get W v (a + n) := by
      rw [List.getD_eq_getElem _ _ hlt]
      simp [List.getElem_map, List.getElem_range']
    have hstep := exc_toBits_succ W v (show a + n < v.current_size_bits by omega)
    have he : a + (n + 1) = (a + n) + 1 := rfl
    rw [exc_succ _ n (by omega), hgd, hn, he, hstep]
    ring

/-- Contract of a forward search result r for a search from pos with
target d over a bit sequence s: on found, the position is the least hit of
the target excess at or after pos; otherwise no hit exists in the leaf and
the excess field carries the total accumulated excess from pos to the end. -/
def FwdResultOk (s : List Bool) (pos : ℕ) (d : ℤ) (r : SearchResult) : Prop :=
  (r.found = true →
    pos ≤ r.position ∧ r.position < s.length ∧
    exc s (r.position + 1) - exc s pos = d ∧
    ∀ t, pos ≤ t → t < r.position → exc s (t + 1) - exc s pos ≠ d) ∧
  (r.found = false →
    r.excess = exc s s.length - exc s pos ∧
    ∀ t, pos ≤ t → t < s.length → exc s (t + 1) - exc s pos ≠ d)

section SearchProof

variable (W C : ℕ) (v : SimpleBitVector) (d : ℤ)

theorem clen_mul_ge (hW : 0 < W) (hC : 0 < C)
    (hlen : v.blocks.length = get_required_blocks W v.current_size_bits)
    (hclen : v.chunk_array.length = (v.blocks.length - 1) / C + 1) :
    v.current_size_bits ≤ v.chunk_array.length * (C * W) := by
  have h1 := size_le_blocks_mul W v hW hlen
  have h2 : v.blocks.length ≤ v.chunk_array.length * C := by
    rw [hclen, Nat.succ_mul]
    have h3 := Nat.div_add_mod (v.blocks.length - 1) C
    have h4 : (v.blocks.length - 1) % C < C := Nat.mod_lt _ hC
    have e : (v.blocks.length - 1) / C * C = C * ((v.blocks.length - 1) / C) :=
      Nat.mul_comm _ _
    omega
  calc v.current_size_bits ≤ v.blocks.length * W := h1
  _ ≤ v.chunk_array.length * C * W := Nat.mul_le_mul_right W h2
  _ = v.chunk_array.length * (C * W) := by ring

theorem chunk_getD_eq_fold (hW : 0 < W) (hC : 0 < C)
    (hlen : v.blocks.length = get_required_blocks W v.current_size_bits)
    (hclen : v.chunk_array.length = (v.blocks.length - 1) / C + 1)
    (hcons : ∀ c, c < v.chunk_array.length → v.chunk_array.getD c default =
      compute_block_excess W C v.blocks c v.current_size_bits) (c : ℕ) :
    v.chunk_array.getD c default =
      excessFold ((List.range' (c * (C * W))
        (min ((c + 1) * (C * W)) v.current_size_bits - c * (C * W))).map (get W v))
        ⟨0, 2⟩ := by
  have e1 : c * C * W = c * (C * W) := by ring
  have e2 : (c + 1) * C * W = (c + 1) * (C * W) := by ring
  rcases Nat.lt_or_ge c v.chunk_array.length with h | h
  · rw [hcons c h, compute_block_excess_eq_fold W C v hW hlen c, e1, e2]
  · have hsz : v.current_size_bits ≤ c * (C * W) := by
      calc v.current_size_bits ≤ v.chunk_array.length * (C * W) :=
        clen_mul_ge W C v hW hC hlen hclen
      _ ≤ c * (C * W) := Nat.mul_le_mul_right _ h
    have hz : min ((c + 1) * (C * W)) v.current_size_bits - c * (C * W) = 0 := by
      have := Nat.min_le_right ((c + 1) * (C * W)) v.current_size_bits
      omega
    rw [hz, List.getD_eq_default _ _ h]
    rfl

theorem chunk_summary (hW : 0 < W) (hC : 0 < C)
    (hlen : v.blocks.length = get_required_blocks W v.current_size_bits)
    (hclen : v.chunk_array.length = (v.blocks.length - 1) / C + 1)
    (hcons : ∀ c, c < v.chunk_array.length → v.chunk_array.getD c default =
      compute_block_excess W C v.blocks c v.current_size_bits)
    (c : ℕ) (hc : c * (C * W) ≤ v.current_size_bits) :
    (v.chunk_array.getD c default).block_excess =
      exc (toBits W v) (min ((c + 1) * (C * W)) v.current_size_bits) -
        exc (toBits W v) (c * (C * W)) ∧
    (∀ u, 1 ≤ u → u ≤ min ((c + 1) * (C * W)) v.current_size_bits - c * (C * W) →
      (v.chunk_array.getD c default).min_excess_in_block ≤
        exc (toBits W v) (c * (C * W) + u) - exc (toBits W v) (c * (C * W))) ∧
    ((v.chunk_array.getD c default).min_excess_in_block = 2 ∨
      ∃ u, 1 ≤ u ∧ u ≤ min ((c + 1) * (C * W)) v.current_size_bits - c * (C * W) ∧
        (v.chunk_array.getD c default).min_excess_in_block =
          exc (toBits W v) (c * (C * W) + u) - exc (toBits W v) (c * (C * W))) := by
  have hgd := chunk_getD_eq_fold W C v hW hC hlen hclen hcons c
  set a := c * (C * W) with ha
  set L := min ((c + 1) * (C * W)) v.current_size_bits - a with hL
  have haX : a ≤ (c + 1) * (C * W) := by
    rw [ha]
    exact Nat.mul_le_mul_right _ (Nat.le_succ c)
  have hXs := Nat.min_le_right ((c + 1) * (C * W)) v.current_size_bits
  have hXa := Nat.min_le_left ((c + 1) * (C * W)) v.current_size_bits
  have haL : a + L = min ((c + 1) * (C * W)) v.current_size_bits := by
    have := le_min haX hc
    omega
  have haLs : a + L ≤ v.current_size_bits := by omega
  obtain ⟨s1, s2, s3, s4⟩ := excessFold_spec ((List.range' a L).map (get W v)) ⟨0, 2⟩
  rw [← hgd] at s1 s3 s4
  dsimp only at s1 s3 s4
  have hlfull : ((List.range' a L).map (get W v)).length = L := by simp
  have hsum : (((List.range' a L).map (get W v)).map delta).sum =
      exc (toBits W v) (a + L) - exc (toBits W v) a := by
    calc (((List.range' a L).map (get W v)).map delta).sum
        = exc ((List.range' a L).map (get W v))
            ((List.range' a L).map (get W v)).length := (exc_eq_sum _).symm
    _ = exc ((List.range' a L).map (get W v)) L := by rw [hlfull]
    _ = exc (toBits W v) (a + L) - exc (toBits W v) a :=
        exc_map_get_range W v a L haLs L le_rfl
  refine ⟨?_, ?_, ?_⟩
  · rw [s1, hsum, haL]
    ring
  · intro u h1 h2
    have h3 := s3 u h1 (by rw [hlfull]; exact h2)
    rw [exc_map_get_range W v a L haLs u h2] at h3
    omega
  · rcases s4 with h | ⟨t, h1, h2, h3⟩
    · exact Or.inl h
    · rw [hlfull] at h2
      rw [exc_map_get_range W v a L haLs t h2] at h3
      exact Or.inr ⟨t, h1, h2, by omega⟩

theorem noHit_gt (hd : d < 0) (pos b : ℕ) (hb : b ≤ v.current_size_bits)
    (hnh : ∀ t, pos ≤ t → t < b →
      exc (toBits W v) (t + 1) - exc (toBits W v) pos ≠ d) :
    ∀ t, pos ≤ t → t ≤ b →
      d < exc (toBits W v) t - exc (toBits W v) pos := by
  intro t h1 h2
  by_contra hcon
  push_neg at hcon
  have ha : d + exc (toBits W v) pos < exc (toBits W v) pos := by omega
  have hbv : exc (toBits W v) t ≤ d + exc (toBits W v) pos := by omega
  obtain ⟨u, hu1, hu2, hu3, _⟩ := exc_ivt (toBits W v) (d + exc (toBits W v) pos)
    h1 (by rw [toBits_length]; omega) ha hbv
  have h4 := hnh (u - 1) (by omega) (by omega)
  apply h4
  have he : u - 1 + 1 = u := by omega
  rw [he]
  omega

/-- Invariant of the chunk-skipping loop of forward_search: the accumulated
excess always equals the prefix excess at the current chunk boundary
(capped at the size), no position scanned so far hits the target, and the
loop either exhausts its fuel or stops at a chunk whose summary admits the
target. -/
theorem fwdChunkLoop_spec (hW : 0 < W) (hC : 0 < C)
    (hlen : v.blocks.length = get_required_blocks W v.current_size_bits)
    (hclen : v.chunk_array.length = (v.blocks.length - 1) / C + 1)
    (hcons : ∀ c, c < v.chunk_array.length → v.chunk_array.getD c default =
      compute_block_excess W C v.blocks c v.current_size_bits)
    (pos : ℕ) :
    ∀ (fuel c : ℕ) (cur : ℤ),
    pos ≤ c * (C * W) →
    cur = exc (toBits W v) (min (c * (C * W)) v.current_size_bits) -
      exc (toBits W v) pos →
    (∀ t, pos ≤ t → t < min (c * (C * W)) v.current_size_bits →
      exc (toBits W v) (t + 1) - exc (toBits W v) pos ≠ d) →
    c ≤ (fwdChunkLoop v.chunk_array d c fuel cur).1 ∧
    (fwdChunkLoop v.chunk_array d c fuel cur).1 ≤ c + fuel ∧
    pos ≤ (fwdChunkLoop v.chunk_array d c fuel cur).1 * (C * W) ∧
    (fwdChunkLoop v.chunk_array d c fuel cur).2 =
      exc (toBits W v)
        (min ((fwdChunkLoop v.chunk_array d c fuel cur).1 * (C * W))
          v.current_size_bits) - exc (toBits W v) pos ∧
    (∀ t, pos ≤ t →
      t < min ((fwdChunkLoop v.chunk_array d c fuel cur).1 * (C * W))
        v.current_size_bits →
      exc (toBits W v) (t + 1) - exc (toBits W v) pos ≠ d) ∧
    ((fwdChunkLoop v.chunk_array d c fuel cur).1 = c + fuel ∨
      (fwdChunkLoop v.chunk_array d c fuel cur).2 +
        (v.chunk_array.getD (fwdChunkLoop v.chunk_array d c fuel cur).1
          default).min_excess_in_block ≤ d) := by
  intro fuel
  induction fuel with
  | zero =>
    intro c cur h0 h1 h2
    simp only [fwdChunkLoop]
    exact ⟨le_rfl, by omega, h0, h1, h2, Or.inl rfl⟩
  | succ n ih =>
    intro c cur h0 h1 h2
    by_cases hcond :
        cur + (v.chunk_array.getD c default).min_excess_in_block ≤ d
    · simp only [fwdChunkLoop, if_pos hcond]
      exact ⟨le_rfl, by omega, h0, h1, h2, Or.inr hcond⟩
    · simp only [fwdChunkLoop, if_neg hcond]
      have hstepc : c * (C * W) ≤ (c + 1) * (C * W) :=
        Nat.mul_le_mul_right _ (Nat.le_succ c)
      rcases le_or_lt (c * (C * W)) v.current_size_bits with hcs | hcs
      · obtain ⟨b1, b2, _⟩ :=
          chunk_summary W C v hW hC hlen hclen hcons c hcs
        have hmin_c : min (c * (C * W)) v.current_size_bits = c * (C * W) :=
          min_eq_left hcs
        have h1' : cur + (v.chunk_array.getD c default).block_excess =
            exc (toBits W v) (min ((c + 1) * (C * W)) v.current_size_bits) -
              exc (toBits W v) pos := by
          rw [h1, hmin_c, b1]
          ring
        have h2' : ∀ t, pos ≤ t →
            t < min ((c + 1) * (C * W)) v.current_size_bits →
            exc (toBits W v) (t + 1) - exc (toBits W v) pos ≠ d := by
          intro t ht1 ht2
          rcases Nat.lt_or_ge t (c * (C * W)) with h | h
          · exact h2 t ht1 (by rw [hmin_c]; exact h)
          · have hX := Nat.min_le_right ((c + 1) * (C * W)) v.current_size_bits
            have hu := b2 (t + 1 - c * (C * W)) (by omega) (by omega)
            have he : c * (C * W) + (t + 1 - c * (C * W)) = t + 1 := by omega
            rw [he] at hu
            push_neg at hcond
            have hc2 : cur =
                exc (toBits W v) (c * (C * W)) - exc (toBits W v) pos := by
              rw [h1, hmin_c]
            intro hcon
            omega
        obtain ⟨g1, g2, g3, g4, g5, g6⟩ :=
          ih (c + 1) (cur + (v.chunk_array.getD c default).block_excess)
            (by omega) h1' h2'
        refine ⟨by omega, by omega, g3, g4, g5, ?_⟩
        rcases g6 with h | h
        · exact Or.inl (by omega)
        · exact Or.inr h
      · have hchz : v.chunk_array.getD c default = ⟨0, 2⟩ := by
          rw [chunk_getD_eq_fold W C v hW hC hlen hclen hcons c]
          have hz : min ((c + 1) * (C * W)) v.current_size_bits -
              c * (C * W) = 0 := by
            have := Nat.min_le_right ((c + 1) * (C * W)) v.current_size_bits
            omega
          rw [hz]
          rfl
        have hbz : (v.chunk_array.getD c default).block_excess = 0 := by
          rw [hchz]
        have hmin_c : min (c * (C * W)) v.current_size_bits =
            v.current_size_bits := min_eq_right hcs.le
        have hmin_c1 : min ((c + 1) * (C * W)) v.current_size_bits =
            v.current_size_bits := min_eq_right (by omega)
        have h1' : cur + (v.chunk_array.getD c default).block_excess =
            exc (toBits W v) (min ((c + 1) * (C * W)) v.current_size_bits) -
              exc (toBits W v) pos := by
          rw [hbz, hmin_c1, h1, hmin_c]
          ring
        have h2' : ∀ t, pos ≤ t →
            t < min ((c + 1) * (C * W)) v.current_size_bits →
            exc (toBits W v) (t + 1) - exc (toBits W v) pos ≠ d := by
          intro t ht1 ht2
          rw [hmin_c1] at ht2
          exact h2 t ht1 (by rw [hmin_c]; exact ht2)
        obtain ⟨g1, g2, g3, g4, g5, g6⟩ :=
          ih (c + 1) (cur + (v.chunk_array.getD c default).block_excess)
            (by omega) h1' h2'
        refine ⟨by omega, by omega, g3, g4, g5, ?_⟩
        rcases g6 with h | h
        · exact Or.inl (by omega)
        · exact Or.inr h

/-- The chunk loop followed by the final in-chunk scan of forward_search
satisfies the search contract, given the state invariants established by
the initial partial-chunk scan. -/
theorem fwd_tail_spec (hW : 0 < W) (hC : 0 < C)
    (hlen : v.blocks.length = get_required_blocks W v.current_size_bits)
    (hclen : v.chunk_array.length = (v.blocks.length - 1) / C + 1)
    (hcons : ∀ c, c < v.chunk_array.length → v.chunk_array.getD c default =
      compute_block_excess W C v.blocks c v.current_size_bits)
    (hd : d < 0) (pos : ℕ) (hpos : pos ≤ v.current_size_bits)
    (c0 : ℕ) (cur : ℤ)
    (hc0len : c0 ≤ v.chunk_array.length)
    (hc00 : pos ≤ c0 * (C * W))
    (hcur : cur = exc (toBits W v) (min (c0 * (C * W)) v.current_size_bits) -
      exc (toBits W v) pos)
    (hnh : ∀ t, pos ≤ t → t < min (c0 * (C * W)) v.current_size_bits →
      exc (toBits W v) (t + 1) - exc (toBits W v) pos ≠ d) :
    FwdResultOk (toBits W v) pos d
      (match fwdScan W v d
          ((fwdChunkLoop v.chunk_array d c0 (v.chunk_array.length - c0) cur).1 *
            (C * W))
          (min (((fwdChunkLoop v.chunk_array d c0
                (v.chunk_array.length - c0) cur).1 + 1) * (C * W))
              v.current_size_bits -
            (fwdChunkLoop v.chunk_array d c0 (v.chunk_array.length - c0) cur).1 *
              (C * W))
          (fwdChunkLoop v.chunk_array d c0 (v.chunk_array.length - c0) cur).2 with
        | Sum.inr p => (⟨p, d, true⟩ : SearchResult)
        | Sum.inl cur' => ⟨0, cur', false⟩) := by
  obtain ⟨g1, g2, g3, g4, g5, g6⟩ :=
    fwdChunkLoop_spec W C v d hW hC hlen hclen hcons pos
      (v.chunk_array.length - c0) c0 cur hc00 hcur hnh
  set r2 := fwdChunkLoop v.chunk_array d c0 (v.chunk_array.length - c0) cur
    with hr2
  set c := r2.1 with hc
  rcases le_or_lt (c * (C * W)) v.current_size_bits with hcs | hcs
  · have hmin_c : min (c * (C * W)) v.current_size_bits = c * (C * W) :=
      min_eq_left hcs
    rw [hmin_c] at g4 g5
    have hXs := Nat.min_le_right ((c + 1) * (C * W)) v.current_size_bits
    have hXa := Nat.min_le_left ((c + 1) * (C * W)) v.current_size_bits
    have hstepc : c * (C * W) ≤ (c + 1) * (C * W) :=
      Nat.mul_le_mul_right _ (Nat.le_succ c)
    have hcnt : c * (C * W) +
        (min ((c + 1) * (C * W)) v.current_size_bits - c * (C * W)) ≤
        v.current_size_bits := by omega
    rcases hscan : fwdScan W v d (c * (C * W))
        (min ((c + 1) * (C * W)) v.current_size_bits - c * (C * W)) r2.2
      with cur' | p
    · obtain ⟨l1, l2⟩ := fwdScan_inl_spec W v d _ _ _ hcnt cur' hscan
      have hnh2 : ∀ t, pos ≤ t →
          t < min ((c + 1) * (C * W)) v.current_size_bits →
          exc (toBits W v) (t + 1) - exc (toBits W v) pos ≠ d := by
        intro t ht1 ht2
        rcases Nat.lt_or_ge t (c * (C * W)) with h | h
        · exact g5 t ht1 h
        · have h5 := l2 t h (by omega)
          intro hcon
          apply h5
          rw [g4]
          omega
      have hcfull : c = v.chunk_array.length := by
        rcases g6 with hfuel | hstop
        · omega
        · exfalso
          obtain ⟨_, b2, b3⟩ :=
            chunk_summary W C v hW hC hlen hclen hcons c hcs
          have hcurgt : d < exc (toBits W v) (c * (C * W)) -
              exc (toBits W v) pos := by
            refine noHit_gt W v d hd pos (c * (C * W)) hcs ?_ (c * (C * W))
              g3 le_rfl
            intro t h1 h2
            exact g5 t h1 h2
          rcases b3 with hb | ⟨u, hu1, hu2, hu3⟩
          · rw [hb] at hstop
            omega
          · have hle : exc (toBits W v) (c * (C * W) + u) -
                exc (toBits W v) pos ≤ d := by
              rw [g4] at hstop
              omega
            have := noHit_gt W v d hd pos
              (min ((c + 1) * (C * W)) v.current_size_bits) hXs hnh2
              (c * (C * W) + u) (by omega) (by omega)
            omega
      have hsz : v.current_size_bits ≤ c * (C * W) := by
        rw [hcfull]
        exact clen_mul_ge W C v hW hC hlen hclen
      have hszeq : c * (C * W) = v.current_size_bits := by omega
      have hmm : min ((c + 1) * (C * W)) v.current_size_bits =
          v.current_size_bits := min_eq_right (by omega)
      constructor
      · intro hfound
        simp at hfound
      · intro _
        constructor
        · show cur' = _
          rw [l1, g4, toBits_length]
          have e : c * (C * W) +
              (min ((c + 1) * (C * W)) v.current_size_bits - c * (C * W)) =
              v.current_size_bits := by omega
          rw [e, hszeq]
          ring
        · intro t h1 h2
          rw [toBits_length] at h2
          exact hnh2 t h1 (by omega)
    · obtain ⟨p1, p2, p3, p4⟩ := fwdScan_inr_spec W v d _ _ _ hcnt p hscan
      show FwdResultOk (toBits W v) pos d ⟨p, d, true⟩
      constructor
      · intro _
        refine ⟨?_, ?_, ?_, ?_⟩
        · show pos ≤ p
          omega
        · show p < (toBits W v).length
          rw [toBits_length]
          omega
        · show exc (toBits W v) (p + 1) - exc (toBits W v) pos = d
          rw [g4] at p3
          omega
        · intro t h1 h2
          show exc (toBits W v) (t + 1) - exc (toBits W v) pos ≠ d
          rcases Nat.lt_or_ge t (c * (C * W)) with h | h
          · exact g5 t h1 h
          · have h5 := p4 t h h2
            intro hcon
            apply h5
            rw [g4]
            omega
      · intro hfound
        simp at hfound
  · have hcnt0 : min ((c + 1) * (C * W)) v.current_size_bits -
        c * (C * W) = 0 := by
      have := Nat.min_le_right ((c + 1) * (C * W)) v.current_size_bits
      omega
    rw [hcnt0]
    have hmin_c : min (c * (C * W)) v.current_size_bits =
        v.current_size_bits := min_eq_right hcs.le
    rw [hmin_c] at g4 g5
    show FwdResultOk (toBits W v) pos d ⟨0, r2.2, false⟩
    constructor
    · intro hfound
      simp at hfound
    · intro _
      constructor
      · show r2.2 = _
        rw [g4, toBits_length]
      · intro t h1 h2
        rw [toBits_length] at h2
        exact g5 t h1 h2

/-- C2 (amended): for every excess-enabled leaf whose block count and chunk
summaries are consistent with its bits, every starting position pos within
the leaf, and every negative target d, forward_search(pos, d) returns
found=true with position equal to the smallest p ≥ pos at which the running
excess of the bits from pos through p equals d, and when no such p exists
it returns found=false with the excess field equal to the running excess
accumulated from pos to the end of the leaf.  (The original claim, without
the restriction on the sign of d, is refuted by c2_counterexample.) -/
theorem c2 (hW : 0 < W) (hC : 0 < C)
    (hlen : v.blocks.length = get_required_blocks W v.current_size_bits)
    (hclen : v.chunk_array.length = (v.blocks.length - 1) / C + 1)
    (hcons : ∀ c, c < v.chunk_array.length → v.chunk_array.getD c default =
      compute_block_excess W C v.blocks c v.current_size_bits)
    (pos : ℕ) (hpos : pos ≤ v.current_size_bits) (hd : d < 0) :
    FwdResultOk (toBits W v) pos d (forward_search W C v pos d) := by
  have hBpos : 0 < C * W := Nat.mul_pos hC hW
  have hdiv0 := Nat.div_add_mod pos (C * W)
  have hmod : pos % (C * W) < C * W := Nat.mod_lt pos hBpos
  have hmcd : pos / (C * W) * (C * W) = (C * W) * (pos / (C * W)) :=
    Nat.mul_comm _ _
  have hexp : (pos / (C * W) + 1) * (C * W) =
      pos / (C * W) * (C * W) + (C * W) := by ring
  have hsizebound := clen_mul_ge W C v hW hC hlen hclen
  by_cases hch : pos % (C * W) = 0
  · have hdvd : pos / (C * W) * (C * W) = pos := by omega
    have hc0len : pos / (C * W) ≤ v.chunk_array.length := by
      by_contra hcon
      push_neg at hcon
      have h1 : (v.chunk_array.length + 1) * (C * W) ≤
          pos / (C * W) * (C * W) := Nat.mul_le_mul_right _ (by omega)
      have h2 : v.chunk_array.length * (C * W) + (C * W) =
          (v.chunk_array.length + 1) * (C * W) := by ring
      omega
    have hminp : min (pos / (C * W) * (C * W)) v.current_size_bits = pos := by
      rw [hdvd]
      exact min_eq_left hpos
    unfold forward_search
    simp only [if_neg (not_not_intro hch)]
    exact fwd_tail_spec W C v d hW hC hlen hclen hcons hd pos hpos
      (pos / (C * W)) 0 hc0len (by omega)
      (by rw [hminp]; ring)
      (by intro t h1 h2; rw [hminp] at h2; omega)
  · have hch' : pos % (C * W) ≠ 0 := hch
    have hposlt : pos < (pos / (C * W) + 1) * (C * W) := by omega
    have hminge : pos ≤
        min ((pos / (C * W) + 1) * (C * W)) v.current_size_bits :=
      le_min hposlt.le hpos
    have hminle :=
      Nat.min_le_right ((pos / (C * W) + 1) * (C * W)) v.current_size_bits
    have hcnt1 : pos +
        (min ((pos / (C * W) + 1) * (C * W)) v.current_size_bits - pos) ≤
        v.current_size_bits := by omega
    have he : pos +
        (min ((pos / (C * W) + 1) * (C * W)) v.current_size_bits - pos) =
        min ((pos / (C * W) + 1) * (C * W)) v.current_size_bits := by omega
    unfold forward_search
    simp only [if_pos hch']
    rcases hscan1 : fwdScan W v d pos
        (min ((pos / (C * W) + 1) * (C * W)) v.current_size_bits - pos) 0
      with cur | p
    · obtain ⟨l1, l2⟩ := fwdScan_inl_spec W v d _ pos 0 hcnt1 cur hscan1
      have hc0len : pos / (C * W) + 1 ≤ v.chunk_array.length := by
        by_contra hcon
        push_neg at hcon
        have h1 : v.chunk_array.length * (C * W) ≤
            pos / (C * W) * (C * W) := Nat.mul_le_mul_right _ (by omega)
        omega
      exact fwd_tail_spec W C v d hW hC hlen hclen hcons hd pos hpos
        (pos / (C * W) + 1) cur hc0len hposlt.le
        (by rw [l1, he]; ring)
        (by intro t h1 h2
            have h5 := l2 t h1 (by omega)
            intro hcon
            apply h5
            omega)
    · show FwdResultOk (toBits W v) pos d ⟨p, d, true⟩
      obtain ⟨p1, p2, p3, p4⟩ := fwdScan_inr_spec W v d _ pos 0 hcnt1 p hscan1
      constructor
      · intro _
        refine ⟨p1, ?_, ?_, ?_⟩
        · show p < (toBits W v).length
          rw [toBits_length]
          omega
        · show exc (toBits W v) (p + 1) - exc (toBits W v) pos = d
          omega
        · intro t h1 h2
          have h5 := p4 t h1 h2
          intro hcon
          apply h5
          omega
      · intro hf
        simp at hf

end SearchProof

/-- Witness for c2: a two-bit leaf 01 (one LEFT then one RIGHT bit) with a
single consistent chunk, searched from position 0 for d = -1; all
hypotheses of c2 hold for it and the contract follows by c2. -/
theorem c2_witness :
    0 < 8 ∧ 0 < 1 ∧
    (⟨2, [2], [⟨0, 0⟩]⟩ : SimpleBitVector).blocks.length =
      get_required_blocks 8 (⟨2, [2], [⟨0, 0⟩]⟩ : SimpleBitVector).current_size_bits ∧
    (⟨2, [2], [⟨0, 0⟩]⟩ : SimpleBitVector).chunk_array.length =
      ((⟨2, [2], [⟨0, 0⟩]⟩ : SimpleBitVector).blocks.length - 1) / 1 + 1 ∧
    (∀ c, c < (⟨2, [2], [⟨0, 0⟩]⟩ : SimpleBitVector).chunk_array.length →
      (⟨2, [2], [⟨0, 0⟩]⟩ : SimpleBitVector).chunk_array.getD c default =
        compute_block_excess 8 1 (⟨2, [2], [⟨0, 0⟩]⟩ : SimpleBitVector).blocks c
          (⟨2, [2], [⟨0, 0⟩]⟩ : SimpleBitVector).current_size_bits) ∧
    0 ≤ (⟨2, [2], [⟨0, 0⟩]⟩ : SimpleBitVector).current_size_bits ∧
    (-1 : ℤ) < 0 ∧
    FwdResultOk (toBits 8 ⟨2, [2], [⟨0, 0⟩]⟩) 0 (-1)
      (forward_search 8 1 ⟨2, [2], [⟨0, 0⟩]⟩ 0 (-1)) :=
  ⟨by decide, by decide, by decide, by decide, by decide, by decide, by decide,
    c2 8 1 ⟨2, [2], [⟨0, 0⟩]⟩ (-1) (by decide) (by decide) (by decide)
      (by decide) (by decide) 0 (by decide) (by decide)⟩

/-- C2 counterexample: a consistent excess leaf (W = 8, one block per
chunk) holding eight RIGHT bits followed by sixteen LEFT bits, searched
from position 0 with target d = 3: position 18 satisfies the running
excess condition, yet forward_search reports found=false, and its excess
field -8 also differs from the total accumulated excess 8 of the whole
leaf, refuting both halves of the original claim. -/
theorem c2_counterexample :
    ([255, 0, 0] : List ℕ).length = get_required_blocks 8 24 ∧
    ([⟨-8, -8⟩, ⟨8, 1⟩, ⟨8, 1⟩] : List Chunk).length =
      (([255, 0, 0] : List ℕ).length - 1) / 1 + 1 ∧
    (∀ c, c < ([⟨-8, -8⟩, ⟨8, 1⟩, ⟨8, 1⟩] : List Chunk).length →
      ([⟨-8, -8⟩, ⟨8, 1⟩, ⟨8, 1⟩] : List Chunk).getD c default =
        compute_block_excess 8 1 [255, 0, 0] c 24) ∧
    exc (toBits 8 ⟨24, [255, 0, 0], [⟨-8, -8⟩, ⟨8, 1⟩, ⟨8, 1⟩]⟩) (18 + 1) -
      exc (toBits 8 ⟨24, [255, 0, 0], [⟨-8, -8⟩, ⟨8, 1⟩, ⟨8, 1⟩]⟩) 0 = 3 ∧
    (forward_search 8 1 ⟨24, [255, 0, 0], [⟨-8, -8⟩, ⟨8, 1⟩, ⟨8, 1⟩]⟩ 0
      3).found = false ∧
    (forward_search 8 1 ⟨24, [255, 0, 0], [⟨-8, -8⟩, ⟨8, 1⟩, ⟨8, 1⟩]⟩ 0
      3).excess = -8 ∧
    exc (toBits 8 ⟨24, [255, 0, 0], [⟨-8, -8⟩, ⟨8, 1⟩, ⟨8, 1⟩]⟩) 24 -
      exc (toBits 8 ⟨24, [255, 0, 0], [⟨-8, -8⟩, ⟨8, 1⟩, ⟨8, 1⟩]⟩) 0 = 8 := by
  decide

end SimpleBitVector

/-! ## Excess arithmetic under list surgery

Supporting lemmas about exc over take/drop/append and single-position
insertion and removal; these back the balanced-parenthesis reasoning for
the BP tree layer and the leaf functional-correctness statements. -/

theorem exc_take (s : List Bool) (a t : ℕ) :
    exc (s.take a) t = exc s (min t a) := by
  unfold exc
  rw [List.take_take]

theorem exc_append (l1 l2 : List Bool) (t : ℕ) :
    exc (l1 ++ l2) t = exc l1 t + exc l2 (t - l1.length) := by
  unfold exc
  rw [List.take_append_eq_append_take, List.map_append, List.sum_append]

theorem exc_cons_succ (b : Bool) (l : List Bool) (t : ℕ) :
    exc (b :: l) (t + 1) = delta b + exc l t := by
  unfold exc
  rw [List.take_succ_cons, List.map_cons, List.sum_cons]

theorem exc_drop (s : List Bool) (a t : ℕ) (ha : a ≤ s.length) :
    exc (s.drop a) t = exc s (a + t) - exc s a := by
  have h1 := List.take_append_drop a s
  have h2 : exc s (a + t) = exc s a + exc (s.drop a) t := by
    conv_lhs => rw [← h1]
    rw [exc_append, List.length_take, min_eq_left ha, exc_take,
      min_eq_right (by omega), Nat.add_sub_cancel_left]
  omega

/-- Discrete intermediate value property, upward direction: on the way
from a value below d to a value at least d the walk lands on d. -/
theorem exc_ivt_up (s : List Bool) (d : ℤ) {a b : ℕ} (hab : a ≤ b)
    (hb : b ≤ s.length) (ha : exc s a < d) (hbv : d ≤ exc s b) :
    ∃ t, a < t ∧ t ≤ b ∧ exc s t = d ∧ ∀ u, a ≤ u → u < t → exc s u < d := by
  have hex : ∃ t, a < t ∧ t ≤ b ∧ d ≤ exc s t := by
    refine ⟨b, ?_, le_rfl, hbv⟩
    rcases Nat.lt_or_ge a b with h | h
    · exact h
    · exfalso
      have : a = b := le_antisymm hab h
      subst this; omega
  classical
  have ht := Nat.find_spec hex
  have hmin : ∀ u, u < Nat.find hex → ¬(a < u ∧ u ≤ b ∧ d ≤ exc s u) :=
    fun u hu => Nat.find_min hex hu
  obtain ⟨hat, htb, htd⟩ := ht
  set t := Nat.find hex with htdef
  have ht0 : 0 < t := lt_of_le_of_lt (Nat.zero_le a) hat
  have hprev : exc s (t - 1) < d := by
    rcases Nat.lt_or_ge a (t - 1) with h | h
    · by_contra hcon
      push_neg at hcon
      exact (hmin (t - 1) (Nat.sub_lt ht0 Nat.one_pos))
        ⟨h, Nat.le_trans (Nat.sub_le t 1) htb, hcon⟩
    · have : t - 1 = a := by omega
      rw [this]; exact ha
  have hstep := exc_step_abs s (t - 1) (by omega)
  have htt : t - 1 + 1 = t := by omega
  rw [htt] at hstep
  have htd' : exc s t = d := by omega
  refine ⟨t, hat, htb, htd', fun u hau hut => ?_⟩
  rcases Nat.lt_or_ge a u with h | h
  · by_contra hcon
    push_neg at hcon
    exact absurd ⟨h, by omega, hcon⟩ (hmin u hut)
  · have : u = a := by omega
    rw [this]; exact ha

theorem insertIdx_eq_take_cons_drop {α : Type} (x : α) :
    ∀ (n : ℕ) (l : List α), n ≤ l.length →
      l.insertIdx n x = l.take n ++ x :: l.drop n := by
  intro n
  induction n with
  | zero =>
    intro l _
    simp [List.insertIdx_zero]
  | succ m ih =>
    intro l h
    cases l with
    | nil => simp at h
    | cons hd tl =>
      rw [List.insertIdx_succ_cons, ih tl (by simpa using h)]
      simp

/-- Prefix excess after inserting one bit at position a. -/
theorem exc_insertIdx (s : List Bool) (x : Bool) (a : ℕ) (ha : a ≤ s.length)
    (t : ℕ) :
    exc (s.insertIdx a x) t =
      if t ≤ a then exc s t else exc s (t - 1) + delta x := by
  rw [insertIdx_eq_take_cons_drop x a s ha, exc_append, List.length_take,
    min_eq_left ha]
  split
  · rename_i h
    have h0 : t - a = 0 := by omega
    rw [h0, exc_zero, exc_take, min_eq_left h]
    ring
  · rename_i h
    push_neg at h
    rw [show t - a = (t - a - 1) + 1 by omega, exc_cons_succ, exc_take,
      min_eq_right (by omega), exc_drop s a (t - a - 1) ha,
      show a + (t - a - 1) = t - 1 by omega]
    ring

/-- Prefix excess after removing the bit at position a. -/
theorem exc_eraseIdx (s : List Bool) (a : ℕ) (ha : a < s.length) (t : ℕ) :
    exc (s.eraseIdx a) t =
      if t ≤ a then exc s t else exc s (t + 1) - delta (s.getD a false) := by
  rw [List.eraseIdx_eq_take_drop_succ, exc_append, List.length_take,
    min_eq_left ha.le]
  split
  · rename_i h
    have h0 : t - a = 0 := by omega
    rw [h0, exc_zero, exc_take, min_eq_left h]
    ring
  · rename_i h
    push_neg at h
    rw [exc_take, min_eq_right (by omega),
      exc_drop s (a + 1) (t - a) (by omega),
      show a + 1 + (t - a) = t + 1 by omega]
    have hs := exc_succ s a ha
    omega

/-! ## The BP tree layer

DynamicBPTree of src/bp/dynamic_bp_tree.hpp runs on the excess-enabled
DynamicMinExcessBitVector; the sequence it maintains is modelled as the
List Bool of its bits.  The tree-level forward_search / backward_search of
that bitvector instantiation are modelled from the spec (the instantiated
class is not part of src/), with the hit conventions of the in-src leaf
implementation (fwdScan / bwdScan above). -/

/-- Invariant H of the spec: the sequence is a balanced parenthesis
string; total excess zero and every prefix excess non-negative. -/
def Balanced (s : List Bool) : Prop :=
  exc s s.length = 0 ∧ ∀ t, t ≤ s.length → 0 ≤ exc s t

/-- Modelled from the spec: linear scan of the tree-level forward search,
examining cnt positions from p upward; a hit at p means the running excess
of the bits from the search start pos through p equals d. -/
def fwdScanBV (s : List Bool) (pos : ℕ) (d : ℤ) : ℕ → ℕ → Option ℕ
  | _, 0 => none
  | p, cnt + 1 =>
    if exc s (p + 1) - exc s pos = d then some p
    else fwdScanBV s pos d (p + 1) cnt

/-- Modelled from the spec: tree-level forward_search(pos, d) of the
excess-enabled dynamic bitvector, searching the whole remaining sequence;
returns the first hit position, none when the search fails. -/
def fwdSearchBV (s : List Bool) (pos : ℕ) (d : ℤ) : Option ℕ :=
  fwdScanBV s pos d pos (s.length - pos)

/-- Modelled from the spec: linear scan of the tree-level backward search,
examining cnt positions downward starting at q - 1; a hit at q - 1 means
the backward running excess over bits q-1 .. pos-1 equals d, i.e.
exc (q-1) - exc pos = d (the exclusive convention of the in-src leaf
backward_search). -/
def bwdScanBV (s : List Bool) (pos : ℕ) (d : ℤ) : ℕ → ℕ → Option ℕ
  | _, 0 => none
  | q, cnt + 1 =>
    if exc s (q - 1) - exc s pos = d then some (q - 1)
    else bwdScanBV s pos d (q - 1) cnt

/-- Modelled from the spec: tree-level backward_search(pos, d), searching
all positions below pos downward. -/
def bwdSearchBV (s : List Bool) (pos : ℕ) (d : ℤ) : Option ℕ :=
  bwdScanBV s pos d pos pos

theorem fwdScanBV_some (s : List Bool) (pos : ℕ) (d : ℤ) :
    ∀ (cnt p r : ℕ), fwdScanBV s pos d p cnt = some r →
      p ≤ r ∧ r < p + cnt ∧ exc s (r + 1) - exc s pos = d ∧
      ∀ t, p ≤ t → t < r → exc s (t + 1) - exc s pos ≠ d := by
  intro cnt
  induction cnt with
  | zero =>
    intro p r h
    simp [fwdScanBV] at h
  | succ n ih =>
    intro p r h
    rw [fwdScanBV] at h
    by_cases hd : exc s (p + 1) - exc s pos = d
    · rw [if_pos hd] at h
      cases h
      exact ⟨le_rfl, by omega, hd, fun t h1 h2 => by omega⟩
    · rw [if_neg hd] at h
      obtain ⟨h1, h2, h3, h4⟩ := ih (p + 1) r h
      refine ⟨by omega, by omega, h3, ?_⟩
      intro t ht1 ht2
      rcases Nat.eq_or_lt_of_le ht1 with he | hlt
      · subst he; exact hd
      · exact h4 t hlt ht2

theorem fwdScanBV_none (s : List Bool) (pos : ℕ) (d : ℤ) :
    ∀ (cnt p : ℕ), fwdScanBV s pos d p cnt = none →
      ∀ t, p ≤ t → t < p + cnt → exc s (t + 1) - exc s pos ≠ d := by
  intro cnt
  induction cnt with
  | zero =>
    intro p _ t h1 h2
    omega
  | succ n ih =>
    intro p h t h1 h2
    rw [fwdScanBV] at h
    by_cases hd : exc s (p + 1) - exc s pos = d
    · rw [if_pos hd] at h
      cases h
    · rw [if_neg hd] at h
      rcases Nat.eq_or_lt_of_le h1 with he | hlt
      · subst he; exact hd
      · exact ih (p + 1) h t hlt (by omega)

theorem fwdSearchBV_some (s : List Bool) (pos : ℕ) (d : ℤ) (r : ℕ)
    (h : fwdSearchBV s pos d = some r) :
    pos ≤ r ∧ r < s.length ∧ exc s (r + 1) - exc s pos = d ∧
    ∀ t, pos ≤ t → t < r → exc s (t + 1) - exc s pos ≠ d := by
  obtain ⟨h1, h2, h3, h4⟩ := fwdScanBV_some s pos d (s.length - pos) pos r h
  rcases le_or_lt pos s.length with hp | hp
  · exact ⟨h1, by omega, h3, h4⟩
  · omega

theorem fwdSearchBV_none (s : List Bool) (pos : ℕ) (d : ℤ)
    (h : fwdSearchBV s pos d = none) :
    ∀ t, pos ≤ t → t < s.length → exc s (t + 1) - exc s pos ≠ d := by
  intro t h1 h2
  exact fwdScanBV_none s pos d (s.length - pos) pos h t h1 (by omega)

theorem bwdScanBV_some (s : List Bool) (pos : ℕ) (d : ℤ) :
    ∀ (cnt q r : ℕ), cnt ≤ q → bwdScanBV s pos d q cnt = some r →
      q - cnt ≤ r ∧ r < q ∧ exc s r - exc s pos = d ∧
      ∀ t, r < t → t < q → exc s t - exc s pos ≠ d := by
  intro cnt
  induction cnt with
  | zero =>
    intro q r _ h
    simp [bwdScanBV] at h
  | succ n ih =>
    intro q r hle h
    rw [bwdScanBV] at h
    by_cases hd : exc s (q - 1) - exc s pos = d
    · rw [if_pos hd] at h
      cases h
      exact ⟨by omega, by omega, hd, fun t h1 h2 => by omega⟩
    · rw [if_neg hd] at h
      obtain ⟨h1, h2, h3, h4⟩ := ih (q - 1) r (by omega) h
      refine ⟨by omega, by omega, h3, ?_⟩
      intro t ht1 ht2
      rcases Nat.eq_or_lt_of_le (show t ≤ q - 1 by omega) with he | hlt
      · subst he; exact hd
      · exact h4 t ht1 (by omega)

theorem bwdScanBV_none (s : List Bool) (pos : ℕ) (d : ℤ) :
    ∀ (cnt q : ℕ), cnt ≤ q → bwdScanBV s pos d q cnt = none →
      ∀ t, q - cnt ≤ t → t < q → exc s t - exc s pos ≠ d := by
  intro cnt
  induction cnt with
  | zero =>
    intro q _ _ t h1 h2
    omega
  | succ n ih =>
    intro q hle h t h1 h2
    rw [bwdScanBV] at h
    by_cases hd : exc s (q - 1) - exc s pos = d
    · rw [if_pos hd] at h
      cases h
    · rw [if_neg hd] at h
      rcases Nat.eq_or_lt_of_le (show t ≤ q - 1 by omega) with he | hlt
      · subst he; exact hd
      · exact ih (q - 1) (by omega) h t (by omega) (by omega)

theorem bwdSearchBV_some (s : List Bool) (pos : ℕ) (d : ℤ) (r : ℕ)
    (h : bwdSearchBV s pos d = some r) :
    r < pos ∧ exc s r - exc s pos = d ∧
    ∀ t, r < t → t < pos → exc s t - exc s pos ≠ d := by
  obtain ⟨h1, h2, h3, h4⟩ := bwdScanBV_some s pos d pos pos r le_rfl h
  exact ⟨h2, h3, h4⟩

theorem bwdSearchBV_none (s : List Bool) (pos : ℕ) (d : ℤ)
    (h : bwdSearchBV s pos d = none) :
    ∀ t, t < pos → exc s t - exc s pos ≠ d := by
  intro t h2
  exact bwdScanBV_none s pos d pos pos le_rfl h t (by omega) h2

namespace DynamicBPTree

/-- Child-stepping loop shared by DynamicBPTree::i_th_child and
DynamicBPTree::insert_node: starting from a child opening position,
each step jumps past one child subtree via forward_search(current, 0),
landing one past its closing parenthesis; none models a failing search,
whose position field the C++ code would misuse. -/
def childLoop (s : List Bool) : ℕ → ℕ → Option ℕ
  | 0, cc => some cc
  | steps + 1, cc =>
    match fwdSearchBV s cc 0 with
    | some p => childLoop s steps (p + 1)
    | none => none

/-- DynamicBPTree::i_th_child(node, i) (one-based i): start at node + 1
and advance i - 1 children. -/
def i_th_child (s : List Bool) (node i : ℕ) : Option ℕ :=
  childLoop s (i - 1) (node + 1)

/-- DynamicBPTree::parent(node): backward_search(node, -1).position. -/
def parent (s : List Bool) (node : ℕ) : Option ℕ :=
  bwdSearchBV s node (-1)

/-- DynamicBPTree::delete_node(node): locate the matching closing
parenthesis with forward_search(node, 0), remove it, then remove the
opening parenthesis. -/
def delete_node (s : List Bool) (node : ℕ) : Option (List Bool) :=
  match fwdSearchBV s node 0 with
  | some rp => some ((s.eraseIdx rp).eraseIdx node)
  | none => none

/-- DynamicBPTree::insert_node(node, i, k): walk to the i-th child
position, walk k further children, and insert LEFT at the first position
and RIGHT one past the second. -/
def insert_node (s : List Bool) (node i k : ℕ) : Option (List Bool) :=
  match childLoop s (i - 1) (node + 1) with
  | none => none
  | some insert_pos =>
    match childLoop s k insert_pos with
    | none => none
    | some cc2 => some ((s.insertIdx insert_pos false).insertIdx (cc2 + 1) true)

/-- The BP tree states reachable from the freshly constructed tree
(DynamicBPTree(): the two-bit sequence LEFT RIGHT) by insert_node and
delete_node operations that complete. -/
inductive Reachable : List Bool → Prop where
  | init : Reachable [false, true]
  | insert_step (s : List Bool) (node i k : ℕ) (s' : List Bool) :
      Reachable s → insert_node s node i k = some s' → Reachable s'
  | delete_step (s : List Bool) (node : ℕ) (s' : List Bool) :
      Reachable s → node ≠ 0 → delete_node s node = some s' → Reachable s'

theorem childLoop_mono (s : List Bool) :
    ∀ (steps cc r : ℕ), childLoop s steps cc = some r →
      cc ≤ r ∧ r ≤ max cc s.length := by
  intro steps
  induction steps with
  | zero =>
    intro cc r h
    simp [childLoop] at h
    omega
  | succ n ih =>
    intro cc r h
    rw [childLoop] at h
    rcases hA : fwdSearchBV s cc 0 with _ | p <;> rw [hA] at h
    · exact absurd h (by simp)
    · obtain ⟨f1, f2, _, _⟩ := fwdSearchBV_some s cc 0 p hA
      obtain ⟨g1, g2⟩ := ih (p + 1) r h
      constructor
      · omega
      · have : max (p + 1) s.length = s.length := max_eq_right (by omega)
        omega

theorem getD_eraseIdx_lt {α : Type} (l : List α) (x : α) (i j : ℕ)
    (hij : j < i) (hjl : j < l.length) :
    (l.eraseIdx i).getD j x = l.getD j x := by
  have hj' : j < (l.eraseIdx i).length := by
    rw [List.length_eraseIdx]
    split <;> omega
  rw [List.getD_eq_getElem _ _ hj', List.getD_eq_getElem _ _ hjl,
    List.getElem_eraseIdx]
  rw [dif_pos hij]

/-- Inserting an opening parenthesis at a and a closing one just after
position b keeps the sequence balanced. -/
theorem balanced_insert_pair (s : List Bool) (hbal : Balanced s) (a b : ℕ)
    (hab : a ≤ b) (hb : b ≤ s.length) :
    Balanced ((s.insertIdx a false).insertIdx (b + 1) true) := by
  have ha : a ≤ s.length := le_trans hab hb
  have hlu : (s.insertIdx a false).length = s.length + 1 :=
    List.length_insertIdx a s ha
  obtain ⟨htot, hpre⟩ := hbal
  have hexcu : ∀ t, exc (s.insertIdx a false) t =
      if t ≤ a then exc s t else exc s (t - 1) + 1 := by
    intro t
    rw [exc_insertIdx s false a ha t]
    simp [delta]
  constructor
  · have hlen2 : ((s.insertIdx a false).insertIdx (b + 1) true).length =
        s.length + 2 := by
      rw [List.length_insertIdx (b + 1) _ (by omega), hlu]
    rw [hlen2, exc_insertIdx _ true (b + 1) (by omega), if_neg (by omega)]
    have e1 : s.length + 2 - 1 = s.length + 1 := rfl
    rw [e1, hexcu, if_neg (by omega)]
    have e2 : s.length + 1 - 1 = s.length := rfl
    rw [e2]
    simp [delta]
    omega
  · intro t ht
    rw [List.length_insertIdx (b + 1) _ (by omega), hlu] at ht
    rw [exc_insertIdx _ true (b + 1) (by omega) t]
    split
    · rw [hexcu t]
      split
      · exact hpre t (by omega)
      · have := hpre (t - 1) (by omega)
        omega
    · have hta : ¬(t - 1 ≤ a) := by omega
      rw [hexcu (t - 1), if_neg hta]
      have e : t - 1 - 1 = t - 2 := by omega
      rw [e]
      have := hpre (t - 2) (by omega)
      simp [delta]
      omega

/-- A completing insert_node keeps the sequence balanced. -/
theorem insert_node_balanced (s : List Bool) (node i k : ℕ) (s' : List Bool)
    (h : insert_node s node i k = some s') (hbal : Balanced s) :
    Balanced s' := by
  unfold insert_node at h
  rcases hA : childLoop s (i - 1) (node + 1) with _ | ip
  · rw [hA] at h
    exact Option.noConfusion h
  rw [hA] at h
  have h' : (match childLoop s k ip with
      | none => none
      | some cc2 => some ((s.insertIdx ip false).insertIdx (cc2 + 1) true)) =
      some s' := h
  rcases hB : childLoop s k ip with _ | cc2
  · rw [hB] at h'
    exact Option.noConfusion h'
  rw [hB] at h'
  injection h' with h''
  subst h''
  obtain ⟨m1, m2⟩ := childLoop_mono s (i - 1) (node + 1) ip hA
  obtain ⟨m3, m4⟩ := childLoop_mono s k ip cc2 hB
  rcases le_or_lt ip s.length with hip | hip
  · have hcc2 : cc2 ≤ s.length := by
      rw [max_eq_right hip] at m4
      exact m4
    exact balanced_insert_pair s hbal ip cc2 m3 hcc2
  · rw [List.insertIdx_of_length_lt s false ip hip,
      List.insertIdx_of_length_lt s true (cc2 + 1) (by omega)]
    exact hbal

/-- A completing delete_node keeps the sequence balanced. -/
theorem delete_node_balanced (s : List Bool) (node : ℕ) (s' : List Bool)
    (h : delete_node s node = some s') (hbal : Balanced s) :
    Balanced s' := by
  unfold delete_node at h
  rcases hA : fwdSearchBV s node 0 with _ | rp
  · rw [hA] at h
    exact Option.noConfusion h
  rw [hA] at h
  injection h with h''
  subst h''
  obtain ⟨f1, f2, f3, f4⟩ := fwdSearchBV_some s node 0 rp hA
  obtain ⟨htot, hpre⟩ := hbal
  have hnode_lt : node < s.length := by omega
  have hstep_node := exc_step_abs s node hnode_lt
  have hrp_gt : node < rp := by
    rcases Nat.eq_or_lt_of_le f1 with he | hlt
    · exfalso
      rw [← he] at f3
      omega
    · exact hlt
  have hrp_lt : rp < s.length := f2
  have hinter : (∀ t, node < t → t ≤ rp → exc s node < exc s t) ∨
      (∀ t, node < t → t ≤ rp → exc s t < exc s node) := by
    rcases hstep_node with hup | hdown
    · left
      intro t h1 h2
      by_contra hcon
      push_neg at hcon
      have h1' : node + 1 ≤ t := h1
      rcases Nat.eq_or_lt_of_le h1' with he | hlt
      · rw [← he] at hcon
        omega
      · obtain ⟨u, hu1, hu2, hu3, _⟩ :=
          exc_ivt s (exc s node) (show node + 1 ≤ t by omega)
            (by omega) (by omega) (by omega)
        have h6 := f4 (u - 1) (by omega) (by omega)
        apply h6
        rw [show u - 1 + 1 = u by omega]
        omega
    · right
      intro t h1 h2
      by_contra hcon
      push_neg at hcon
      have h1' : node + 1 ≤ t := h1
      rcases Nat.eq_or_lt_of_le h1' with he | hlt
      · rw [← he] at hcon
        omega
      · obtain ⟨u, hu1, hu2, hu3, _⟩ :=
          exc_ivt_up s (exc s node) (show node + 1 ≤ t by omega)
            (by omega) (by omega) (by omega)
        have h6 := f4 (u - 1) (by omega) (by omega)
        apply h6
        rw [show u - 1 + 1 = u by omega]
        omega
  have hsn := exc_succ s node hnode_lt
  have hsr := exc_succ s rp hrp_lt
  have h7 : exc s node < exc s rp ∨ exc s rp < exc s node := by
    rcases hinter with hup | hdown
    · exact Or.inl (hup rp hrp_gt le_rfl)
    · exact Or.inr (hdown rp hrp_gt le_rfl)
  have hdsum : delta (s.getD node false) + delta (s.getD rp false) = 0 := by
    rcases hinter with hup | hdown
    · have h8u := hup rp hrp_gt le_rfl
      have h13 := hup (node + 1) (by omega) (by omega)
      rcases delta_eq_one_or (s.getD node false) with h9 | h9 <;>
        rcases delta_eq_one_or (s.getD rp false) with h8 | h8 <;>
          rw [h9] at hsn <;> rw [h8] at hsr <;> rw [h9, h8] <;> omega
    · have h8u := hdown rp hrp_gt le_rfl
      have h13 := hdown (node + 1) (by omega) (by omega)
      rcases delta_eq_one_or (s.getD node false) with h9 | h9 <;>
        rcases delta_eq_one_or (s.getD rp false) with h8 | h8 <;>
          rw [h9] at hsn <;> rw [h8] at hsr <;> rw [h9, h8] <;> omega
  have hul : (s.eraseIdx rp).length = s.length - 1 := by
    rw [List.length_eraseIdx, if_pos hrp_lt]
  have hnode_ltu : node < (s.eraseIdx rp).length := by omega
  have hgdu : (s.eraseIdx rp).getD node false = s.getD node false :=
    getD_eraseIdx_lt s false rp node hrp_gt hnode_lt
  have hexcu : ∀ t, exc (s.eraseIdx rp) t =
      if t ≤ rp then exc s t else exc s (t + 1) - delta (s.getD rp false) :=
    fun t => exc_eraseIdx s rp hrp_lt t
  have hexcs : ∀ t, exc ((s.eraseIdx rp).eraseIdx node) t =
      if t ≤ node then exc (s.eraseIdx rp) t
      else exc (s.eraseIdx rp) (t + 1) - delta (s.getD node false) := by
    intro t
    rw [exc_eraseIdx (s.eraseIdx rp) node hnode_ltu t, hgdu]
  have hsl : ((s.eraseIdx rp).eraseIdx node).length = s.length - 2 := by
    rw [List.length_eraseIdx, if_pos hnode_ltu]
    omega
  have hlen2 : 2 ≤ s.length := by omega
  constructor
  · rw [hsl, hexcs]
    split
    · rename_i h1
      have he1 : node = s.length - 2 := by omega
      have he2 : rp = s.length - 1 := by omega
      rw [hexcu, if_pos (by omega), ← he1]
      have e3 : rp + 1 = s.length := by omega
      rw [e3] at hsr
      have e4 : node + 1 = rp := by omega
      rw [e4] at hsn
      omega
    · rename_i h1
      push_neg at h1
      rw [hexcu]
      split
      · rename_i h2
        have he2 : rp = s.length - 1 := by omega
        rw [show s.length - 2 + 1 = rp by omega]
        rw [show rp + 1 = s.length by omega] at hsr
        omega
      · rename_i h2
        push_neg at h2
        rw [show s.length - 2 + 1 + 1 = s.length by omega]
        omega
  · intro t ht
    rw [hsl] at ht
    rw [hexcs]
    split
    · rw [hexcu, if_pos (by omega)]
      exact hpre t (by omega)
    · rename_i h1
      push_neg at h1
      rw [hexcu]
      split
      · rename_i h2
        have h10 := hpre node hnode_lt.le
        have h11 := hpre (t + 1) (by omega)
        rcases hinter with hup | hdown
        · have h12 := hup (t + 1) (by omega) (by omega)
          have h13 := hup (node + 1) (by omega) (by omega)
          rcases delta_eq_one_or (s.getD node false) with h9 | h9 <;>
            rw [h9] at hsn ⊢ <;> omega
        · have h13 := hdown (node + 1) (by omega) (by omega)
          rcases delta_eq_one_or (s.getD node false) with h9 | h9 <;>
            rw [h9] at hsn ⊢ <;> omega
      · rename_i h2
        push_neg at h2
        have h8 := hpre (t + 2) (by omega)
        rw [show t + 1 + 1 = t + 2 by rfl]
        rcases delta_eq_one_or (s.getD node false) with h9 | h9 <;>
          rcases delta_eq_one_or (s.getD rp false) with h10 | h10 <;>
            rw [h9, h10] <;> rw [h9] at hdsum <;> rw [h10] at hdsum <;> omega

/-- C4: starting from the freshly constructed BP tree and applying any
completing sequence of insert_node and delete_node operations, the bit
sequence remains a balanced parenthesis string after every operation. -/
theorem c4 (s : List Bool) (h : Reachable s) : Balanced s := by
  induction h with
  | init =>
    constructor
    · decide
    · decide
  | insert_step s node i k s' _ hop ih =>
    exact insert_node_balanced s node i k s' hop ih
  | delete_step s node s' _ _ hop ih =>
    exact delete_node_balanced s node s' hop ih

/-- Witness for c4: the tree obtained by inserting a node under the root
is reachable and its sequence is balanced. -/
theorem c4_witness :
    Balanced [false, false, true, true] :=
  c4 [false, false, true, true]
    (Reachable.insert_step [false, true] 0 1 0 [false, false, true, true]
      Reachable.init (by decide))

/-- C3 (amended): in a BP tree with a balanced single-tree bit sequence,
for every non-root node v (an opening parenthesis at position v > 0),
parent(v) - which the code computes as backward_search(v, -1).position -
returns the position of the opening parenthesis of v's enclosing parent
node: the deepest position p whose parenthesis pair strictly encloses v.
(The original claim that parent uses backward_search(v, -2) is refuted by
c3_counterexample.) -/
theorem c3 (s : List Bool) (hbal : Balanced s)
    (hst : ∀ t, t < s.length → 0 < t → 1 ≤ exc s t)
    (v : ℕ) (hv0 : 0 < v) (hvlen : v < s.length)
    (hopen : s.getD v false = false) :
    ∃ p, parent s v = some p ∧ p < v ∧ s.getD p false = false ∧
      (∀ t, p < t → t ≤ v → exc s p < exc s t) ∧
      ∀ q, q < v → (∀ t, q < t → t ≤ v → exc s q < exc s t) → q ≤ p := by
  obtain ⟨htot, hpre⟩ := hbal
  have hv1 : 1 ≤ exc s v := hst v hvlen hv0
  have hex : ∃ q, q < v ∧ exc s q - exc s v = -1 := by
    rcases eq_or_lt_of_le hv1 with he | hlt
    · exact ⟨0, hv0, by rw [exc_zero]; omega⟩
    · obtain ⟨t, ht1, ht2, ht3, _⟩ := exc_ivt_up s (exc s v - 1)
        (Nat.zero_le v) hvlen.le (by rw [exc_zero]; omega) (by omega)
      have htv : t ≠ v := by
        intro h
        rw [h] at ht3
        omega
      exact ⟨t, by omega, by omega⟩
  rcases hP : bwdSearchBV s v (-1) with _ | p
  · exfalso
    obtain ⟨q, hq1, hq2⟩ := hex
    exact bwdSearchBV_none s v (-1) hP q hq1 hq2
  obtain ⟨p1, p2, p3⟩ := bwdSearchBV_some s v (-1) p hP
  have hup : ∀ t, p < t → t ≤ v → exc s v ≤ exc s t := by
    intro t h1 h2
    rcases Nat.eq_or_lt_of_le h2 with he | hlt2
    · rw [he]
    · by_contra hcon
      push_neg at hcon
      have hcon' : exc s t ≤ exc s v - 1 := by omega
      rcases eq_or_lt_of_le hcon' with he2 | hlt3
      · exact p3 t h1 hlt2 (by omega)
      · obtain ⟨u, hu1, hu2, hu3, _⟩ := exc_ivt_up s (exc s v - 1)
          hlt2.le (by omega) (by omega) (by omega)
        have huv : u ≠ v := by
          intro h
          rw [h] at hu3
          omega
        exact p3 u (by omega) (by omega) (by omega)
  have henc : ∀ t, p < t → t ≤ v → exc s p < exc s t := by
    intro t h1 h2
    have := hup t h1 h2
    omega
  have hpopen : s.getD p false = false := by
    have hs := exc_succ s p (by omega)
    have h5 := henc (p + 1) (by omega) (by omega)
    cases hb : s.getD p false
    · rfl
    · exfalso
      rw [hb] at hs
      simp [delta] at hs
      omega
  have hmax : ∀ q, q < v → (∀ t, q < t → t ≤ v → exc s q < exc s t) →
      q ≤ p := by
    intro q hq1 hq2
    by_contra hcon
    push_neg at hcon
    have h5 := hup q hcon hq1.le
    have h6 := hq2 v hq1 le_rfl
    omega
  exact ⟨p, hP, p1, hpopen, henc, hmax⟩

/-- Witness for c3: the tree (()) with v = 1, whose parent is the root
at position 0. -/
theorem c3_witness :
    Balanced [false, false, true, true] ∧
    (∀ t, t < ([false, false, true, true] : List Bool).length → 0 < t →
      1 ≤ exc [false, false, true, true] t) ∧
    0 < 1 ∧ 1 < ([false, false, true, true] : List Bool).length ∧
    ([false, false, true, true] : List Bool).getD 1 false = false ∧
    ∃ p, parent [false, false, true, true] 1 = some p ∧ p < 1 ∧
      ([false, false, true, true] : List Bool).getD p false = false ∧
      (∀ t, p < t → t ≤ 1 →
        exc [false, false, true, true] p < exc [false, false, true, true] t) ∧
      ∀ q, q < 1 → (∀ t, q < t → t ≤ 1 →
        exc [false, false, true, true] q < exc [false, false, true, true] t) →
        q ≤ p :=
  ⟨⟨by decide, by decide⟩, by decide, by decide, by decide, by decide,
    c3 [false, false, true, true] ⟨by decide, by decide⟩ (by decide) 1
      (by decide) (by decide) (by decide)⟩

/-- C3 counterexample: in the balanced single tree ((())) the node v = 2
has enclosing parent 1, and indeed parent(2) = 1, but
backward_search(2, -2) - the call the spec says parent makes - yields
position 0, not the parent: the spec's d = -2 does not match the
exclusive backward-search convention the code implements. -/
theorem c3_counterexample :
    Balanced [false, false, false, true, true, true] ∧
    (∀ t, t < ([false, false, false, true, true, true] : List Bool).length →
      0 < t → 1 ≤ exc [false, false, false, true, true, true] t) ∧
    ([false, false, false, true, true, true] : List Bool).getD 2 false
      = false ∧
    parent [false, false, false, true, true, true] 2 = some 1 ∧
    (∀ t, t ≤ 2 → 1 < t →
      exc [false, false, false, true, true, true] 1 <
        exc [false, false, false, true, true, true] t) ∧
    bwdSearchBV [false, false, false, true, true, true] 2 (-2) = some 0 ∧
    parent [false, false, false, true, true, true] 2 ≠
      bwdSearchBV [false, false, false, true, true, true] 2 (-2) := by
  refine ⟨⟨by decide, by decide⟩, by decide, by decide, by decide, by decide,
    by decide, by decide⟩

/-- c is the opening position of a child of node v: it lies strictly
inside v's parenthesis pair, one level deeper, and is an opening
parenthesis. -/
def IsChildStart (s : List Bool) (v c : ℕ) : Prop :=
  v < c ∧ c < s.length ∧ s.getD c false = false ∧ exc s c = exc s v + 1 ∧
  ∀ t, t ≤ c → v < t → exc s v < exc s t

instance (s : List Bool) (v c : ℕ) : Decidable (IsChildStart s v c) := by
  unfold IsChildStart
  infer_instance

/-- The ascending list of opening positions of v's children. -/
def childStarts (s : List Bool) (v : ℕ) : List ℕ :=
  (List.range s.length).filter (fun c => decide (IsChildStart s v c))

/-- The number of children of node v. -/
def numChildren (s : List Bool) (v : ℕ) : ℕ := (childStarts s v).length

theorem mem_childStarts (s : List Bool) (v c : ℕ) :
    c ∈ childStarts s v ↔ IsChildStart s v c := by
  unfold childStarts
  rw [List.mem_filter, List.mem_range]
  constructor
  · intro h
    exact of_decide_eq_true h.2
  · intro h
    exact ⟨h.2.1, decide_eq_true h⟩

theorem sorted_childStarts (s : List Bool) (v : ℕ) :
    (childStarts s v).Sorted (· < ·) :=
  (List.sorted_lt_range s.length).filter _

/-- For an opening parenthesis c in a balanced sequence,
forward_search(c, 0) finds the matching closing parenthesis. -/
theorem match_spec (s : List Bool) (hbal : Balanced s) (c : ℕ)
    (hc : c < s.length) (hopen : s.getD c false = false) :
    ∃ m, fwdSearchBV s c 0 = some m ∧ c < m ∧ m < s.length ∧
      exc s (m + 1) = exc s c ∧
      (∀ t, c < t → t ≤ m → exc s c < exc s t) ∧ s.getD m false = true := by
  obtain ⟨htot, hpre⟩ := hbal
  have hsc := exc_succ s c hc
  have hdc : delta (s.getD c false) = 1 := by
    rw [hopen]
    simp [delta]
  rw [hdc] at hsc
  have hc0 := hpre c hc.le
  obtain ⟨t0, ht1, ht2, ht3, ht4⟩ := exc_ivt s (exc s c)
    (show c + 1 ≤ s.length from hc) (le_refl s.length) (by omega) (by omega)
  set m := t0 - 1 with hmdef
  have hm1 : c < m := by omega
  have hm2 : m < s.length := by omega
  have hm3 : exc s (m + 1) = exc s c := by
    rw [show m + 1 = t0 by omega]
    exact ht3
  have hint : ∀ t, c < t → t ≤ m → exc s c < exc s t := by
    intro t h1 h2
    exact ht4 t (by omega) (by omega)
  rcases hF : fwdSearchBV s c 0 with _ | r
  · exfalso
    exact fwdSearchBV_none s c 0 hF m (by omega) hm2 (by omega)
  obtain ⟨g1, g2, g3, g4⟩ := fwdSearchBV_some s c 0 r hF
  have hrm : r = m := by
    rcases Nat.lt_trichotomy r m with h | h | h
    · exfalso
      have hrc : c < r := by
        rcases Nat.eq_or_lt_of_le g1 with he | hlt
        · exfalso
          rw [← he] at g3
          omega
        · exact hlt
      have := hint (r + 1) (by omega) (by omega)
      omega
    · exact h
    · exfalso
      exact g4 m (by omega) h (by omega)
  subst hrm
  have hsm := exc_succ s m hm2
  have hbit : s.getD m false = true := by
    have h5 := hint m (by omega) le_rfl
    cases hb : s.getD m false
    · exfalso
      rw [hb] at hsm
      simp [delta] at hsm
      omega
    · rfl
  exact ⟨m, rfl, hm1, hm2, hm3, hint, hbit⟩

/-- parent returns v on every child start of v. -/
theorem parent_of_childStart (s : List Bool) (v c : ℕ)
    (h : IsChildStart s v c) : parent s c = some v := by
  obtain ⟨h1, h2, h3, h4, h5⟩ := h
  rcases hP : bwdSearchBV s c (-1) with _ | p
  · exfalso
    exact bwdSearchBV_none s c (-1) hP v h1 (by omega)
  obtain ⟨p1, p2, p3⟩ := bwdSearchBV_some s c (-1) p hP
  have hpv : p = v := by
    rcases Nat.lt_trichotomy p v with hq | hq | hq
    · exfalso
      exact p3 v hq h1 (by omega)
    · exact hq
    · exfalso
      have := h5 p p1.le hq
      omega
  rw [hpv] at hP
  exact hP

/-- The first child start of v, when one exists, is v + 1. -/
theorem childStarts_head (s : List Bool) (v : ℕ)
    (h0 : 0 < (childStarts s v).length) :
    (childStarts s v).get ⟨0, h0⟩ = v + 1 := by
  have hc0 : IsChildStart s v ((childStarts s v).get ⟨0, h0⟩) :=
    (mem_childStarts s v _).1 (List.get_mem _ _ _)
  set c0 := (childStarts s v).get ⟨0, h0⟩ with hc0def
  obtain ⟨a1, a2, a3, a4, a5⟩ := hc0
  have hv1 : IsChildStart s v (v + 1) := by
    rcases Nat.eq_or_lt_of_le (show v + 1 ≤ c0 from a1) with he | hlt
    · rw [he]
      exact ⟨a1, a2, a3, a4, a5⟩
    · have hvlen : v + 1 < s.length := by omega
      have e1 : exc s (v + 1) = exc s v + 1 := by
        have h6 := a5 (v + 1) (by omega) (by omega)
        have hs := exc_step_abs s v (by omega)
        omega
      refine ⟨by omega, hvlen, ?_, e1, ?_⟩
      · have hs2 := exc_succ s (v + 1) hvlen
        rw [show v + 1 + 1 = v + 2 from rfl] at hs2
        have h7 := a5 (v + 2) (by omega) (by omega)
        cases hb : s.getD (v + 1) false
        · rfl
        · exfalso
          rw [hb] at hs2
          simp [delta] at hs2
          omega
      · intro t h1t h2t
        have ht : t = v + 1 := by omega
        rw [ht, e1]
        omega
  obtain ⟨j, hj⟩ := List.mem_iff_get.1 ((mem_childStarts s v _).2 hv1)
  rcases Nat.eq_or_lt_of_le (Nat.zero_le j.1) with hz | hz
  · have hjz : j = ⟨0, h0⟩ := Fin.ext hz.symm
    rw [hjz] at hj
    rw [← hc0def] at hj
    exact hj
  · exfalso
    have hmono := (sorted_childStarts s v).get_strictMono
    have h8 := hmono (show (⟨0, h0⟩ : Fin _) < j from hz)
    rw [hj, ← hc0def] at h8
    omega

/-- Stepping by forward_search(cc, 0) + 1 from one child start reaches the
next child start. -/
theorem childStarts_step (s : List Bool) (hbal : Balanced s) (v j : ℕ)
    (hj1 : j + 1 < (childStarts s v).length) :
    ∃ m, fwdSearchBV s ((childStarts s v).get ⟨j, by omega⟩) 0 = some m ∧
      m + 1 = (childStarts s v).get ⟨j + 1, hj1⟩ := by
  have hmono := (sorted_childStarts s v).get_strictMono
  have hcc : IsChildStart s v ((childStarts s v).get ⟨j, by omega⟩) :=
    (mem_childStarts s v _).1 (List.get_mem _ _ _)
  have hnx : IsChildStart s v ((childStarts s v).get ⟨j + 1, hj1⟩) :=
    (mem_childStarts s v _).1 (List.get_mem _ _ _)
  set cc := (childStarts s v).get ⟨j, by omega⟩ with hccdef
  set nx := (childStarts s v).get ⟨j + 1, hj1⟩ with hnxdef
  obtain ⟨b1, b2, b3, b4, b5⟩ := hcc
  obtain ⟨c1, c2, c3, c4, c5⟩ := hnx
  have hlt : cc < nx := by
    have h5 := hmono (show (⟨j, by omega⟩ : Fin _) < ⟨j + 1, hj1⟩ from
      Nat.lt_succ_self j)
    rw [← hccdef, ← hnxdef] at h5
    exact h5
  obtain ⟨m, hm, m1, m2, m3, m4, m5⟩ := match_spec s hbal cc b2 b3
  refine ⟨m, hm, ?_⟩
  have hnxm : m < nx := by
    by_contra hcon
    push_neg at hcon
    have h6 := m4 nx hlt hcon
    omega
  have hm1cs : IsChildStart s v (m + 1) := by
    rcases Nat.eq_or_lt_of_le (show m + 1 ≤ nx from hnxm) with he | hlt2
    · rw [he]
      exact ⟨c1, c2, c3, c4, c5⟩
    · have hlen : m + 1 < s.length := by omega
      have e3 : exc s (m + 1) = exc s v + 1 := by
        rw [m3, b4]
      refine ⟨by omega, hlen, ?_, e3, ?_⟩
      · have h7 := c5 (m + 2) (by omega) (by omega)
        have hs2 := exc_succ s (m + 1) hlen
        rw [show m + 1 + 1 = m + 2 from rfl] at hs2
        cases hb : s.getD (m + 1) false
        · rfl
        · exfalso
          rw [hb] at hs2
          simp [delta] at hs2
          omega
      · intro t ht1 ht2
        rcases Nat.lt_or_ge t (cc + 1) with h | h
        · exact b5 t (by omega) ht2
        · rcases Nat.eq_or_lt_of_le (show t ≤ m + 1 from ht1) with he2 | hlt3
          · rw [he2, e3]
            omega
          · have h8 := m4 t (by omega) (by omega)
            omega
  obtain ⟨j', hj'⟩ := List.mem_iff_get.1 ((mem_childStarts s v _).2 hm1cs)
  have hjj : j < j'.1 := by
    by_contra hcon
    push_neg at hcon
    have h9 : j' ≤ (⟨j, by omega⟩ : Fin _) := hcon
    have h10 := hmono.monotone h9
    rw [hj', ← hccdef] at h10
    omega
  have h8 : nx ≤ m + 1 := by
    have h9 : (⟨j + 1, hj1⟩ : Fin _) ≤ j' := hjj
    have h10 := hmono.monotone h9
    rw [hj', ← hnxdef] at h10
    exact h10
  omega

/-- The child loop visits the child starts in order. -/
theorem childLoop_walk (s : List Bool) (hbal : Balanced s) (v : ℕ) :
    ∀ (j a : ℕ) (ha : a < (childStarts s v).length)
      (haj : a + j < (childStarts s v).length),
      childLoop s j ((childStarts s v).get ⟨a, ha⟩) =
        some ((childStarts s v).get ⟨a + j, haj⟩) := by
  intro j
  induction j with
  | zero =>
    intro a ha haj
    rfl
  | succ n ih =>
    intro a ha haj
    obtain ⟨m, hm, hm1⟩ := childStarts_step s hbal v a (by omega)
    rw [childLoop, hm]
    show childLoop s n (m + 1) =
      some ((childStarts s v).get ⟨a + (n + 1), haj⟩)
    rw [hm1, ih (a + 1) (by omega) (by omega)]
    have e : (⟨a + 1 + n, by omega⟩ : Fin (childStarts s v).length) =
        ⟨a + (n + 1), haj⟩ := Fin.ext (by show a + 1 + n = a + (n + 1); omega)
    rw [e]

/-- C7: for every BP tree whose bit sequence is a valid balanced
parenthesis string, every node v (an opening parenthesis) and every valid
child index i (1 ≤ i ≤ number of children of v),
parent(i_th_child(v, i)) = v. -/
theorem c7 (s : List Bool) (hbal : Balanced s) (v : ℕ)
    (hvlen : v < s.length) (hopen : s.getD v false = false)
    (i : ℕ) (hi1 : 1 ≤ i) (hi2 : i ≤ numChildren s v) :
    ∃ c, i_th_child s v i = some c ∧ parent s c = some v := by
  have hlen : i - 1 < (childStarts s v).length := by
    unfold numChildren at hi2
    omega
  have h0 : 0 < (childStarts s v).length := by omega
  have hwalk := childLoop_walk s hbal v (i - 1) 0 h0 (by omega)
  rw [childStarts_head s v h0] at hwalk
  have e : (⟨0 + (i - 1), by omega⟩ : Fin (childStarts s v).length) =
      ⟨i - 1, hlen⟩ := Fin.ext (by show 0 + (i - 1) = i - 1; omega)
  rw [e] at hwalk
  refine ⟨(childStarts s v).get ⟨i - 1, hlen⟩, hwalk, ?_⟩
  exact parent_of_childStart s v _
    ((mem_childStarts s v _).1 (List.get_mem _ _ _))

/-- Witness for c7: the root of the tree (()) has one child, and the
parent of its first child is the root. -/
theorem c7_witness :
    Balanced [false, false, true, true] ∧
    0 < ([false, false, true, true] : List Bool).length ∧
    ([false, false, true, true] : List Bool).getD 0 false = false ∧
    1 ≤ 1 ∧ 1 ≤ numChildren [false, false, true, true] 0 ∧
    ∃ c, i_th_child [false, false, true, true] 0 1 = some c ∧
      parent [false, false, true, true] c = some 0 :=
  ⟨⟨by decide, by decide⟩, by decide, by decide, by decide, by decide,
    c7 [false, false, true, true] ⟨by decide, by decide⟩ 0 (by decide)
      (by decide) 1 (by decide) (by decide)⟩

end DynamicBPTree

/-! ## Functional correctness of the leaf operations

get-level characterisation of the SimpleBitVector mutations; wf captures
the representation invariant the class maintains: canonical block count,
blocks within the word width, and zero padding beyond the bit size. -/

namespace SimpleBitVector

section LeafSpec

variable (W C : ℕ) (exq : Bool)

/-- Representation invariant of a leaf. -/
def wf (v : SimpleBitVector) : Prop :=
  v.blocks.length =
    (if v.current_size_bits = 0 then 0
     else get_required_blocks W v.current_size_bits) ∧
  (∀ b ∈ v.blocks, b < 2 ^ W) ∧
  (∀ t, v.current_size_bits ≤ t → t < v.blocks.length * W →
    get W v t = false)

theorem getD_set_nat (l : List ℕ) (n m a : ℕ) :
    (l.set n a).getD m 0 =
      if n = m ∧ n < l.length then a else l.getD m 0 := by
  by_cases h1 : m < l.length
  · have h2 : m < (l.set n a).length := by
      rw [List.length_set]
      exact h1
    rw [List.getD_eq_getElem _ _ h2, List.getD_eq_getElem _ _ h1,
      List.getElem_set]
    split
    · rename_i h3
      rw [if_pos ⟨h3, by omega⟩]
    · rename_i h3
      rw [if_neg (by tauto)]
  · have h2 : (l.set n a).length ≤ m := by
      rw [List.length_set]
      omega
    rw [List.getD_eq_default _ _ h2, List.getD_eq_default _ _ (by omega),
      if_neg (by omega)]

theorem get_update_excess_chunk (v : SimpleBitVector) (i t : ℕ) :
    get W (update_excess_chunk W C v i) t = get W v t := rfl

theorem get_excess_dispatch (v' : SimpleBitVector) (i t : ℕ) :
    get W (if exq then update_excess_chunk W C v' i else v') t =
      get W v' t := by
  rcases exq
  · rfl
  · rfl

theorem size_excess_dispatch (v' : SimpleBitVector) (i : ℕ) :
    (if exq then update_excess_chunk W C v' i else v').current_size_bits =
      v'.current_size_bits := by
  rcases exq
  · rfl
  · rfl

theorem blocks_excess_dispatch (v' : SimpleBitVector) (i : ℕ) :
    (if exq then update_excess_chunk W C v' i else v').blocks = v'.blocks := by
  rcases exq
  · rfl
  · rfl

theorem testBit_ones64 (k : ℕ) : Nat.testBit ones64 k = decide (k < 64) :=
  Nat.testBit_two_pow_sub_one 64 k

theorem get_set_blocks (v : SimpleBitVector) (bi nb t : ℕ) :
    get W { v with blocks := v.blocks.set bi nb } t =
      if bi = t / W ∧ bi < v.blocks.length then nb.testBit (t % W)
      else get W v t := by
  show ((v.blocks.set bi nb).getD (t / W) 0).testBit (t % W) = _
  rw [getD_set_nat]
  split
  · rfl
  · rfl

theorem shiftLeft_one_testBit (n k : ℕ) :
    ((1 : ℕ) <<< n).testBit k = decide (n = k) := by
  rw [Nat.shiftLeft_eq, one_mul, Nat.testBit_two_pow]

theorem get_blockD_lt (v : SimpleBitVector) (hb : ∀ b ∈ v.blocks, b < 2 ^ W)
    (j : ℕ) : v.blocks.getD j 0 < 2 ^ W := by
  by_cases h : j < v.blocks.length
  · rw [List.getD_eq_getElem _ _ h]
    exact hb _ (List.getElem_mem h)
  · rw [List.getD_eq_default _ _ (by omega)]
    exact Nat.pos_pow_of_pos W (by omega)

theorem get_setTrue (v : SimpleBitVector) (i t : ℕ)
    (hilen : i / W < v.blocks.length) :
    get W (setTrue W C exq v i) t = if t = i then true else get W v t := by
  unfold setTrue
  rw [get_excess_dispatch, get_set_blocks]
  split
  · rename_i h
    have h4 := h.1
    rw [Nat.testBit_or, shiftLeft_one_testBit]
    by_cases ht : t = i
    · subst ht
      simp
    · have hne : ¬(i % W = t % W) := by
        intro hcon
        apply ht
        have h1 := Nat.div_add_mod i W
        have h2 := Nat.div_add_mod t W
        rw [h4] at h1
        omega
      rw [if_neg ht]
      have e2 : decide (i % W = t % W) = false := decide_eq_false hne
      rw [e2]
      show ((v.blocks.getD (i / W) 0).testBit (t % W) || false) = get W v t
      rw [Bool.or_false]
      show (v.blocks.getD (i / W) 0).testBit (t % W) = get W v t
      rw [h4]
      rfl
  · rename_i h
    have hne : ¬(t = i) := by
      intro hcon
      subst hcon
      exact h ⟨rfl, hilen⟩
    rw [if_neg hne]

theorem get_reset (v : SimpleBitVector) (i t : ℕ) (hW : 0 < W)
    (hW64 : W ≤ 64) (hilen : i / W < v.blocks.length) :
    get W (reset W C exq v i) t = if t = i then false else get W v t := by
  unfold reset
  rw [get_excess_dispatch, get_set_blocks]
  split
  · rename_i h
    rw [Nat.testBit_and, Nat.testBit_xor, testBit_ones64,
      shiftLeft_one_testBit]
    have h4 := h.1
    have htW : t % W < W := Nat.mod_lt t hW
    by_cases ht : t = i
    · subst ht
      simp [show t % W < 64 by omega]
    · have hne : ¬(i % W = t % W) := by
        intro hcon
        apply ht
        have h1 := Nat.div_add_mod i W
        have h2 := Nat.div_add_mod t W
        rw [h4] at h1
        omega
      rw [if_neg ht]
      have e1 : decide (t % W < 64) = true := decide_eq_true (by omega)
      have e2 : decide (i % W = t % W) = false := decide_eq_false hne
      rw [e1, e2]
      show ((v.blocks.getD (i / W) 0).testBit (t % W) && (true ^^ false))
        = get W v t
      simp only [Bool.xor_false, Bool.and_true]
      show (v.blocks.getD (i / W) 0).testBit (t % W) = get W v t
      rw [h4]
      rfl
  · rename_i h
    have hne : ¬(t = i) := by
      intro hcon
      subst hcon
      exact h ⟨rfl, hilen⟩
    rw [if_neg hne]

theorem get_flip (v : SimpleBitVector) (i t : ℕ) (hW : 0 < W)
    (hilen : i / W < v.blocks.length) :
    get W (flip W C exq v i) t = if t = i then !(get W v t) else get W v t := by
  unfold flip
  rw [get_excess_dispatch, get_set_blocks]
  split
  · rename_i h
    have h4 := h.1
    rw [Nat.testBit_xor, shiftLeft_one_testBit]
    by_cases ht : t = i
    · subst ht
      simp
      rw [show get W v t = (v.blocks.getD (t / W) 0).testBit (t % W) from rfl]
      rw [← h4, List.getD_eq_getElem?_getD]
    · have hne : ¬(i % W = t % W) := by
        intro hcon
        apply ht
        have h1 := Nat.div_add_mod i W
        have h2 := Nat.div_add_mod t W
        rw [h4] at h1
        omega
      rw [if_neg ht]
      have e2 : decide (i % W = t % W) = false := decide_eq_false hne
      rw [e2]
      simp only [Bool.xor_false]
      show (v.blocks.getD (i / W) 0).testBit (t % W) = get W v t
      rw [h4]
      rfl
  · rename_i h
    have hne : ¬(t = i) := by
      intro hcon
      subst hcon
      exact h ⟨rfl, hilen⟩
    rw [if_neg hne]

theorem get_set (v : SimpleBitVector) (i t : ℕ) (value : Bool) (hW : 0 < W)
    (hW64 : W ≤ 64) (hilen : i / W < v.blocks.length) :
    get W (set W C exq v i value) t = if t = i then value else get W v t := by
  unfold set
  cases value
  · simp only [Bool.false_eq_true, if_false]
    exact get_reset W C exq v i t hW hW64 hilen
  · simp only [if_true]
    exact get_setTrue W C exq v i t hilen

theorem set_size (v : SimpleBitVector) (i : ℕ) (value : Bool) :
    (set W C exq v i value).current_size_bits = v.current_size_bits := by
  unfold set setTrue reset
  cases value <;> simp only [Bool.false_eq_true, if_true, if_false] <;>
    rw [size_excess_dispatch] <;> rfl

theorem set_blocks_length (v : SimpleBitVector) (i : ℕ) (value : Bool) :
    (set W C exq v i value).blocks.length = v.blocks.length := by
  unfold set setTrue reset
  cases value <;> simp only [Bool.false_eq_true, if_true, if_false] <;>
    rw [blocks_excess_dispatch] <;> exact List.length_set ..

theorem set_blocks_bound (v : SimpleBitVector) (i : ℕ) (value : Bool)
    (hW : 0 < W) (hb : ∀ b ∈ v.blocks, b < 2 ^ W) :
    ∀ b ∈ (set W C exq v i value).blocks, b < 2 ^ W := by
  unfold set setTrue reset
  cases value <;> simp only [Bool.false_eq_true, if_true, if_false] <;>
    rw [blocks_excess_dispatch] <;>
    intro b hmem <;> rcases List.mem_or_eq_of_mem_set hmem with h | h
  · exact hb b h
  · subst h
    exact lt_of_le_of_lt Nat.and_le_left (get_blockD_lt W v hb _)
  · exact hb b h
  · subst h
    refine Nat.or_lt_two_pow (get_blockD_lt W v hb _) ?_
    rw [Nat.shiftLeft_eq, one_mul]
    exact Nat.pow_lt_pow_right (by omega) (Nat.mod_lt i hW)

theorem flip_size (v : SimpleBitVector) (i : ℕ) :
    (flip W C exq v i).current_size_bits = v.current_size_bits := by
  unfold flip
  rw [size_excess_dispatch]

theorem flip_blocks_length (v : SimpleBitVector) (i : ℕ) :
    (flip W C exq v i).blocks.length = v.blocks.length := by
  unfold flip
  rw [blocks_excess_dispatch]
  exact List.length_set ..

theorem flip_blocks_bound (v : SimpleBitVector) (i : ℕ) (hW : 0 < W)
    (hb : ∀ b ∈ v.blocks, b < 2 ^ W) :
    ∀ b ∈ (flip W C exq v i).blocks, b < 2 ^ W := by
  unfold flip
  rw [blocks_excess_dispatch]
  intro b hmem
  rcases List.mem_or_eq_of_mem_set hmem with h | h
  · exact hb b h
  · subst h
    refine Nat.xor_lt_two_pow (get_blockD_lt W v hb _) ?_
    rw [Nat.shiftLeft_eq, one_mul]
    exact Nat.pow_lt_pow_right (by omega) (Nat.mod_lt i hW)

theorem get_beyond (v : SimpleBitVector) (t : ℕ) (hW : 0 < W)
    (h : v.blocks.length * W ≤ t) : get W v t = false := by
  show ((v.blocks).getD (t / W) 0).testBit (t % W) = false
  rw [List.getD_eq_default _ _ ?_, Nat.zero_testBit]
  exact (Nat.le_div_iff_mul_le hW).2 h

theorem insertShiftLoop_struct :
    ∀ (cnt : ℕ) (v : SimpleBitVector) (b0 : ℕ) (last : Bool),
    (insertShiftLoop W C exq v b0 last cnt).current_size_bits =
      v.current_size_bits ∧
    (insertShiftLoop W C exq v b0 last cnt).blocks.length =
      v.blocks.length ∧
    (0 < W → (∀ b ∈ v.blocks, b < 2 ^ W) →
      ∀ b ∈ (insertShiftLoop W C exq v b0 last cnt).blocks, b < 2 ^ W) := by
  intro cnt
  induction cnt with
  | zero =>
    intro v b0 last
    exact ⟨rfl, rfl, fun _ h => h⟩
  | succ n ih =>
    intro v b0 last
    set v' := set W C exq { v with blocks := v.blocks.set b0 (truncW W (((v.blocks.getD b0 0) <<< 1) &&& (ones64 ^^^ 1))) } (b0 * W) last with hv'
    obtain ⟨i1, i2, i3⟩ := ih v' (b0 + 1) (get W v (b0 * W + W - 1))
    refine ⟨?_, ?_, ?_⟩
    · show (insertShiftLoop W C exq v' (b0 + 1)
        (get W v (b0 * W + W - 1)) n).current_size_bits = _
      rw [i1, hv', set_size]
    · show (insertShiftLoop W C exq v' (b0 + 1)
        (get W v (b0 * W + W - 1)) n).blocks.length = _
      rw [i2, hv', set_blocks_length]
      exact List.length_set ..
    · intro hW hb
      show ∀ b ∈ (insertShiftLoop W C exq v' (b0 + 1)
        (get W v (b0 * W + W - 1)) n).blocks, b < 2 ^ W
      refine i3 hW ?_
      rw [hv']
      refine set_blocks_bound W C exq _ _ _ hW ?_
      intro b hmem
      rcases List.mem_or_eq_of_mem_set hmem with h | h
      · exact hb b h
      · subst h
        exact Nat.mod_lt _ (Nat.pos_pow_of_pos W (by omega))

theorem insertShiftLoop_get (hW : 0 < W) (hW64 : W ≤ 64) :
    ∀ (cnt : ℕ) (v : SimpleBitVector) (b0 : ℕ) (last : Bool),
    b0 + cnt = v.blocks.length →
    ∀ t, get W (insertShiftLoop W C exq v b0 last cnt) t =
      if t < b0 * W then get W v t
      else if (b0 + cnt) * W ≤ t then get W v t
      else if t = b0 * W then last
      else get W v (t - 1) := by
  intro cnt
  induction cnt with
  | zero =>
    intro v b0 last heq t
    show get W v t = _
    have e : (b0 + 0) * W = b0 * W := by ring
    rw [e]
    rcases Nat.lt_or_ge t (b0 * W) with h | h
    · rw [if_pos h]
    · rw [if_neg (by omega), if_pos h]
  | succ n ih =>
    intro v b0 last heq t
    have hb0len : b0 < v.blocks.length := by omega
    set nblk := truncW W (((v.blocks.getD b0 0) <<< 1) &&& (ones64 ^^^ 1))
      with hnblk
    set v' := set W C exq { v with blocks := v.blocks.set b0 nblk }
      (b0 * W) last with hv'
    have hlen' : (b0 + 1) + n = v'.blocks.length := by
      rw [hv', set_blocks_length, List.length_set]
      omega
    have hb0W : b0 * W / W = b0 := by
      rw [Nat.mul_div_cancel _ hW]
    have hb0lem : b0 * W / W < ({ v with blocks := v.blocks.set b0 nblk } :
        SimpleBitVector).blocks.length := by
      rw [hb0W]
      show b0 < (v.blocks.set b0 nblk).length
      rw [List.length_set]
      exact hb0len
    have hget0 : get W v' (b0 * W) = last := by
      rw [hv', get_set W C exq _ _ _ _ hW hW64 hb0lem, if_pos rfl]
    have hget2 : ∀ u, u / W ≠ b0 → get W v' u = get W v u := by
      intro u hu
      rw [hv', get_set W C exq _ _ _ _ hW hW64 hb0lem,
        if_neg (by intro hcon; subst hcon; exact hu hb0W),
        get_set_blocks, if_neg (by intro hcon; exact hu hcon.1.symm)]
    have hget1 : ∀ u, u / W = b0 → u % W ≠ 0 → get W v' u = get W v (u - 1) := by
      intro u hu hum
      have humW : u % W < W := Nat.mod_lt _ hW
      have hdm := Nat.div_add_mod u W
      rw [hu] at hdm
      have hune : u ≠ b0 * W := by
        intro hcon
        apply hum
        rw [hcon]
        exact Nat.mul_mod_left b0 W
      have h1b : Nat.testBit 1 (u % W) = false := by
        rw [show (1 : ℕ) = 2 ^ 0 from rfl, Nat.testBit_two_pow]
        exact decide_eq_false (by omega)
      have hk1 : decide (u % W ≥ 1) = true := decide_eq_true (by omega)
      have hk2 : decide (u % W < 64) = true := decide_eq_true (by omega)
      have hkW : decide (u % W < W) = true := decide_eq_true humW
      rw [hv', get_set W C exq _ _ _ _ hW hW64 hb0lem, if_neg hune,
        get_set_blocks, if_pos ⟨hu.symm, hb0len⟩, hnblk]
      unfold truncW
      rw [Nat.testBit_mod_two_pow, Nat.testBit_and, Nat.testBit_shiftLeft,
        Nat.testBit_xor, testBit_ones64, h1b, hk1, hk2, hkW]
      simp only [Bool.xor_false, Bool.and_true, Bool.true_and]
      have hdm1 : (u - 1) / W = b0 := by
        refine Nat.div_eq_of_lt_le ?_ ?_
        · have e5 : b0 * W = W * b0 := Nat.mul_comm ..
          omega
        · have e5 : (b0 + 1) * W = W * b0 + W := by ring
          omega
      have hdm2 : (u - 1) % W = u % W - 1 := by
        have h6 := Nat.div_add_mod (u - 1) W
        rw [hdm1] at h6
        omega
      show _ = (v.blocks.getD ((u - 1) / W) 0).testBit ((u - 1) % W)
      rw [hdm1, hdm2]
    show get W (insertShiftLoop W C exq v' (b0 + 1)
      (get W v (b0 * W + W - 1)) n) t = _
    rw [ih v' (b0 + 1) (get W v (b0 * W + W - 1)) hlen' t]
    have e1 : (b0 + 1) * W = b0 * W + W := by ring
    have e3 : (b0 + 1 + n) * W = (b0 + (n + 1)) * W := by ring
    rcases Nat.lt_or_ge t (b0 * W) with h1 | h1
    · have hdiv : t / W < b0 := (Nat.div_lt_iff_lt_mul hW).2 (by
        have e5 : b0 * W = W * b0 := Nat.mul_comm ..
        omega)
      rw [if_pos (show t < (b0 + 1) * W by omega), if_pos h1]
      exact hget2 t (by omega)
    · rcases Nat.lt_or_ge t ((b0 + (n + 1)) * W) with h2 | h2
      · rw [if_neg (show ¬(t < b0 * W) by omega),
          if_neg (show ¬((b0 + (n + 1)) * W ≤ t) by omega)]
        rcases eq_or_ne t (b0 * W) with h3 | h3
        · rw [if_pos h3, if_pos (show t < (b0 + 1) * W by omega), h3]
          exact hget0
        · rw [if_neg h3]
          rcases Nat.lt_or_ge t ((b0 + 1) * W) with h4 | h4
          · rw [if_pos h4]
            have hdiv : t / W = b0 := by
              refine Nat.div_eq_of_lt_le ?_ ?_
              · have e5 : b0 * W = W * b0 := Nat.mul_comm ..
                omega
              · have e5 : (b0 + 1) * W = W * b0 + W := by ring
                omega
            have hmod : t % W ≠ 0 := by
              intro hcon
              apply h3
              have h6 := Nat.div_add_mod t W
              rw [hdiv] at h6
              have e5 : b0 * W = W * b0 := Nat.mul_comm ..
              omega
            exact hget1 t hdiv hmod
          · rw [if_neg (show ¬(t < (b0 + 1) * W) by omega),
              if_neg (show ¬((b0 + 1 + n) * W ≤ t) by omega)]
            rcases eq_or_ne t ((b0 + 1) * W) with h5 | h5
            · rw [if_pos h5, h5]
              rw [show (b0 + 1) * W - 1 = b0 * W + W - 1 by omega]
            · rw [if_neg h5]
              refine hget2 (t - 1) ?_
              have hd : b0 + 1 ≤ (t - 1) / W := by
                refine (Nat.le_div_iff_mul_le hW).2 ?_
                omega
              omega
      · have h6 : (b0 + 1) * W ≤ (b0 + (n + 1)) * W :=
          Nat.mul_le_mul_right W (by omega)
        have h7 : b0 * W ≤ (b0 + (n + 1)) * W :=
          Nat.mul_le_mul_right W (by omega)
        rw [if_neg (show ¬(t < b0 * W) by omega), if_pos h2,
          if_neg (show ¬(t < (b0 + 1) * W) by omega),
          if_pos (show (b0 + 1 + n) * W ≤ t by omega)]
        refine hget2 t ?_
        have hd : b0 + 1 ≤ t / W := by
          refine (Nat.le_div_iff_mul_le hW).2 ?_
          omega
        omega

theorem getD_append_zero : ∀ (l : List ℕ) (j : ℕ),
    (l ++ [0]).getD j 0 = l.getD j 0 := by
  intro l
  induction l with
  | nil =>
    intro j
    cases j <;> rfl
  | cons a l ih =>
    intro j
    cases j with
    | zero => rfl
    | succ j => exact ih j

theorem insertTail_shuffle_get (u : SimpleBitVector) (i s : ℕ) (hW : 0 < W)
    (hW64 : W ≤ 64) (hbn : i / W < u.blocks.length) :
    get W (if (i % W + 1) % W ≠ 0 then
      { u with blocks := u.blocks.set (i / W) (((u.blocks.getD (i / W) 0) &&& notW W (truncW W (ones64 <<< (i % W + 1)))) ||| ((truncW W (((ones64 <<< (i % W)) &&& (u.blocks.getD (i / W) 0)) <<< 1)) &&& (truncW W (ones64 <<< (i % W + 1))))) }
     else u) s =
    if s / W = i / W ∧ i % W < s % W then get W u (s - 1) else get W u s := by
  have hbpW : i % W < W := Nat.mod_lt _ hW
  have hsW : s % W < W := Nat.mod_lt _ hW
  by_cases hsh : (i % W + 1) % W ≠ 0
  · rw [if_pos hsh]
    have hbp1 : i % W + 1 < W := by
      rcases Nat.lt_or_ge (i % W + 1) W with h | h
      · exact h
      · exfalso
        apply hsh
        have h2 : i % W + 1 = W := by omega
        rw [h2, Nat.mod_self]
    rw [get_set_blocks]
    by_cases hc : i / W = s / W ∧ i / W < u.blocks.length
    · rw [if_pos hc]
      obtain ⟨hc1, -⟩ := hc
      simp only [truncW, notW, Nat.testBit_or, Nat.testBit_and, Nat.testBit_xor,
        Nat.testBit_shiftLeft, Nat.testBit_mod_two_pow,
        Nat.testBit_two_pow_sub_one, testBit_ones64]
      rcases Nat.lt_or_ge (i % W) (s % W) with hm | hm
      · rw [if_pos ⟨hc1.symm, hm⟩]
        rw [decide_eq_true hsW, decide_eq_true (show s % W ≥ i % W + 1 by omega),
          decide_eq_true (show s % W - (i % W + 1) < 64 by omega),
          decide_eq_true (show s % W ≥ 1 by omega),
          decide_eq_true (show s % W - 1 ≥ i % W by omega),
          decide_eq_true (show s % W - 1 - (i % W) < 64 by omega)]
        simp only [Bool.true_and, Bool.and_true, Bool.xor_self, Bool.and_false,
          Bool.false_or]
        have hds := Nat.div_add_mod s W
        have e6 : s / W * W = W * (s / W) := Nat.mul_comm ..
        have e7 : (s / W + 1) * W = W * (s / W) + W := by ring
        have h71 : (s - 1) / W = s / W := Nat.div_eq_of_lt_le (by omega) (by omega)
        have h72 : (s - 1) % W = s % W - 1 := by
          have h6 := Nat.div_add_mod (s - 1) W
          rw [h71] at h6
          omega
        show _ = (u.blocks.getD ((s - 1) / W) 0).testBit ((s - 1) % W)
        rw [h71, h72, ← hc1]
      · rw [if_neg (by intro hc2; have h2 := hc2.2; omega)]
        rw [decide_eq_true hsW,
          decide_eq_false (show ¬(s % W ≥ i % W + 1) by omega)]
        simp only [Bool.true_and, Bool.false_and, Bool.and_false, Bool.xor_false,
          Bool.and_true, Bool.or_false]
        show _ = (u.blocks.getD (s / W) 0).testBit (s % W)
        rw [← hc1]
    · rw [if_neg hc]
      have hs : ¬(s / W = i / W) := by
        intro hcon
        exact hc ⟨hcon.symm, hbn⟩
      rw [if_neg (by intro hc2; exact hs hc2.1)]
  · rw [if_neg hsh]
    have h0 : (i % W + 1) % W = 0 := not_not.mp hsh
    have hW1 : i % W + 1 = W := by
      rcases Nat.lt_or_ge (i % W + 1) W with h | h
      · rw [Nat.mod_eq_of_lt h] at h0
        omega
      · omega
    rw [if_neg (by intro hc2; have h2 := hc2.2; omega)]

theorem insertTail_struct (u : SimpleBitVector) (i : ℕ) (value : Bool) :
    (insertTail W C exq u i value).current_size_bits = u.current_size_bits ∧
    (insertTail W C exq u i value).blocks.length = u.blocks.length ∧
    (0 < W → (∀ b ∈ u.blocks, b < 2 ^ W) →
      ∀ b ∈ (insertTail W C exq u i value).blocks, b < 2 ^ W) := by
  simp only [insertTail]
  set u3 := (if (i % W + 1) % W ≠ 0 then { u with blocks := u.blocks.set (i / W) (((u.blocks.getD (i / W) 0) &&& notW W (truncW W (ones64 <<< (i % W + 1)))) ||| ((truncW W (((ones64 <<< (i % W)) &&& (u.blocks.getD (i / W) 0)) <<< 1)) &&& (truncW W (ones64 <<< (i % W + 1))))) } else u) with hu3
  set u4 := set W C exq u3 i value with hu4
  obtain ⟨i1, i2, i3⟩ := insertShiftLoop_struct W C exq
    (u4.blocks.length - (i / W + 1)) u4 (i / W + 1)
    (get W u (i / W * W + W - 1))
  have hlen3 : u3.blocks.length = u.blocks.length := by
    rw [hu3]
    by_cases hsh : (i % W + 1) % W ≠ 0
    · rw [if_pos hsh]
      exact List.length_set ..
    · rw [if_neg hsh]
  have hsz3 : u3.current_size_bits = u.current_size_bits := by
    rw [hu3]
    by_cases hsh : (i % W + 1) % W ≠ 0
    · rw [if_pos hsh]
    · rw [if_neg hsh]
  refine ⟨?_, ?_, ?_⟩
  · rw [i1, hu4, set_size, hsz3]
  · rw [i2, hu4, set_blocks_length, hlen3]
  · intro hW hb
    refine i3 hW ?_
    rw [hu4]
    refine set_blocks_bound W C exq _ _ _ hW ?_
    rw [hu3]
    by_cases hsh : (i % W + 1) % W ≠ 0
    · rw [if_pos hsh]
      intro b hmem
      rcases List.mem_or_eq_of_mem_set hmem with h | h
      · exact hb b h
      · subst h
        have hp : 0 < 2 ^ W := Nat.pos_pow_of_pos W (by omega)
        refine Nat.or_lt_two_pow
          (Nat.lt_of_le_of_lt (Nat.and_le_right ..) ?_)
          (Nat.lt_of_le_of_lt (Nat.and_le_right ..) ?_)
        · exact Nat.xor_lt_two_pow (by omega) (Nat.mod_lt _ hp)
        · exact Nat.mod_lt _ hp
    · rw [if_neg hsh]
      exact hb

theorem insertTail_get (u : SimpleBitVector) (i : ℕ) (value : Bool) (t : ℕ)
    (hW : 0 < W) (hW64 : W ≤ 64) (hilen : i < W * u.blocks.length)
    (ht : t < W * u.blocks.length) :
    get W (insertTail W C exq u i value) t =
      if t < i then get W u t else if t = i then value else get W u (t - 1) := by
  have hbn : i / W < u.blocks.length := (Nat.div_lt_iff_lt_mul hW).2 (by
    have e : u.blocks.length * W = W * u.blocks.length := Nat.mul_comm ..
    omega)
  simp only [insertTail]
  set u3 := (if (i % W + 1) % W ≠ 0 then { u with blocks := u.blocks.set (i / W) (((u.blocks.getD (i / W) 0) &&& notW W (truncW W (ones64 <<< (i % W + 1)))) ||| ((truncW W (((ones64 <<< (i % W)) &&& (u.blocks.getD (i / W) 0)) <<< 1)) &&& (truncW W (ones64 <<< (i % W + 1))))) } else u) with hu3
  set u4 := set W C exq u3 i value with hu4
  have hlen3 : u3.blocks.length = u.blocks.length := by
    rw [hu3]
    by_cases hsh : (i % W + 1) % W ≠ 0
    · rw [if_pos hsh]
      exact List.length_set ..
    · rw [if_neg hsh]
  have hget3 : ∀ s, get W u3 s =
      if s / W = i / W ∧ i % W < s % W then get W u (s - 1) else get W u s := by
    intro s
    rw [hu3]
    exact insertTail_shuffle_get W u i s hW hW64 hbn
  have hsetlen : i / W < u3.blocks.length := by
    rw [hlen3]
    exact hbn
  have hget4 : ∀ s, get W u4 s = if s = i then value else get W u3 s := by
    intro s
    rw [hu4]
    exact get_set W C exq u3 i s value hW hW64 hsetlen
  have hlen4 : u4.blocks.length = u.blocks.length := by
    rw [hu4, set_blocks_length, hlen3]
  have hcnt : (i / W + 1) + (u4.blocks.length - (i / W + 1)) =
      u4.blocks.length := by
    omega
  rw [insertShiftLoop_get W C exq hW hW64 (u4.blocks.length - (i / W + 1)) u4
    (i / W + 1) (get W u (i / W * W + W - 1)) hcnt t]
  have hdm := Nat.div_add_mod i W
  have hbpW : i % W < W := Nat.mod_lt _ hW
  have e1 : (i / W + 1) * W = W * (i / W) + W := by ring
  have e5 : i / W * W = W * (i / W) := Nat.mul_comm ..
  have e2 : ((i / W + 1) + (u4.blocks.length - (i / W + 1))) * W =
      u4.blocks.length * W := by
    rw [hcnt]
  have e4 : u4.blocks.length * W = W * u.blocks.length := by
    rw [hlen4]
    exact Nat.mul_comm ..
  rcases Nat.lt_or_ge t i with hti | hti
  · rw [if_pos (show t < (i / W + 1) * W by omega), if_pos hti, hget4 t,
      if_neg (show ¬(t = i) by omega), hget3 t,
      if_neg (by
        intro hc
        have hdt := Nat.div_add_mod t W
        rw [hc.1] at hdt
        have hb := hc.2
        omega)]
  · rcases eq_or_ne t i with hti2 | hti2
    · subst hti2
      rw [if_pos (show t < (t / W + 1) * W by omega), if_neg (lt_irrefl t),
        if_pos rfl, hget4 t, if_pos rfl]
    · have hti3 : i < t := by omega
      rw [if_neg (show ¬(t < i) by omega), if_neg hti2]
      rcases Nat.lt_or_ge t ((i / W + 1) * W) with h4 | h4
      · have hdt1 : t / W = i / W := Nat.div_eq_of_lt_le (by omega) h4
        have hdt := Nat.div_add_mod t W
        rw [hdt1] at hdt
        rw [if_pos h4, hget4 t, if_neg hti2, hget3 t, if_pos ⟨hdt1, by omega⟩]
      · rcases eq_or_ne t ((i / W + 1) * W) with h5 | h5
        · rw [if_neg (show ¬(t < (i / W + 1) * W) by omega), e2,
            if_neg (show ¬(u4.blocks.length * W ≤ t) by omega),
            if_pos h5, h5,
            show (i / W + 1) * W - 1 = i / W * W + W - 1 by omega]
        · rw [if_neg (show ¬(t < (i / W + 1) * W) by omega), e2,
            if_neg (show ¬(u4.blocks.length * W ≤ t) by omega), if_neg h5,
            hget4 (t - 1), if_neg (show ¬(t - 1 = i) by omega),
            hget3 (t - 1),
            if_neg (by
              intro hc
              have h7 : i / W + 1 ≤ (t - 1) / W :=
                (Nat.le_div_iff_mul_le hW).2 (by omega)
              have hc1 := hc.1
              omega)]

theorem get_insert (v : SimpleBitVector) (i : ℕ) (value : Bool) (t : ℕ)
    (hW : 0 < W) (hW64 : W ≤ 64)
    (hsize : v.current_size_bits ≤ W * v.blocks.length)
    (hi : i < v.current_size_bits) (ht : t ≤ v.current_size_bits) :
    get W (insert W C exq v i value) t =
      if t < i then get W v t else if t = i then value else get W v (t - 1) := by
  have hlift : ∀ u : SimpleBitVector, (∀ s, get W u s = get W v s) →
      i < W * u.blocks.length → t < W * u.blocks.length →
      get W (insertTail W C exq u i value) t =
        if t < i then get W v t else if t = i then value else get W v (t - 1) := by
    intro u hug h1 h2
    rw [insertTail_get W C exq u i value t hW hW64 h1 h2, hug t, hug (t - 1)]
  simp only [insert]
  by_cases hg : v.current_size_bits = W * v.blocks.length
  · rw [if_pos hg]
    have hl : (v.blocks ++ [0]).length = v.blocks.length + 1 := by
      simp
    have e : W * (v.blocks.length + 1) = W * v.blocks.length + W := by ring
    by_cases hq : exq = true ∧ v.chunk_array.length * C = v.blocks.length
    · rw [if_pos hq]
      dsimp only
      rw [if_neg (show ¬(v.current_size_bits = i) by omega)]
      refine hlift _ ?_ ?_ ?_
      · intro s
        show ((v.blocks ++ [0]).getD (s / W) 0).testBit (s % W) = _
        rw [getD_append_zero]
        rfl
      · show i < W * (v.blocks ++ [0]).length
        rw [hl]
        omega
      · show t < W * (v.blocks ++ [0]).length
        rw [hl]
        omega
    · rw [if_neg hq]
      dsimp only
      rw [if_neg (show ¬(v.current_size_bits = i) by omega)]
      refine hlift _ ?_ ?_ ?_
      · intro s
        show ((v.blocks ++ [0]).getD (s / W) 0).testBit (s % W) = _
        rw [getD_append_zero]
        rfl
      · show i < W * (v.blocks ++ [0]).length
        rw [hl]
        omega
      · show t < W * (v.blocks ++ [0]).length
        rw [hl]
        omega
  · rw [if_neg hg]
    rw [if_neg (show ¬(v.current_size_bits = i) by omega)]
    refine hlift _ ?_ ?_ ?_
    · intro s
      rfl
    · show i < W * v.blocks.length
      omega
    · show t < W * v.blocks.length
      omega

theorem get_insert_back (v : SimpleBitVector) (value : Bool) (t : ℕ)
    (hW : 0 < W) (hW64 : W ≤ 64)
    (hsize : v.current_size_bits ≤ W * v.blocks.length) :
    get W (insert W C exq v v.current_size_bits value) t =
      if t = v.current_size_bits then value else get W v t := by
  have hgoal : ∀ u : SimpleBitVector,
      v.current_size_bits / W < u.blocks.length →
      (∀ s, get W u s = get W v s) →
      get W (set W C exq u v.current_size_bits value) t =
        if t = v.current_size_bits then value else get W v t := by
    intro u hu hug
    rw [get_set W C exq u _ t value hW hW64 hu]
    by_cases hti : t = v.current_size_bits
    · rw [if_pos hti, if_pos hti]
    · rw [if_neg hti, if_neg hti]
      exact hug t
  simp only [insert]
  by_cases hg : v.current_size_bits = W * v.blocks.length
  · rw [if_pos hg]
    have hl : (v.blocks ++ [0]).length = v.blocks.length + 1 := by
      simp
    have hdiv : v.current_size_bits / W = v.blocks.length := by
      rw [hg]
      exact Nat.mul_div_cancel_left _ hW
    by_cases hq : exq = true ∧ v.chunk_array.length * C = v.blocks.length
    · rw [if_pos hq]
      dsimp only
      rw [if_pos rfl]
      refine hgoal _ ?_ ?_
      · show v.current_size_bits / W < (v.blocks ++ [0]).length
        rw [hl]
        omega
      · intro s
        show ((v.blocks ++ [0]).getD (s / W) 0).testBit (s % W) = _
        rw [getD_append_zero]
        rfl
    · rw [if_neg hq]
      dsimp only
      rw [if_pos rfl]
      refine hgoal _ ?_ ?_
      · show v.current_size_bits / W < (v.blocks ++ [0]).length
        rw [hl]
        omega
      · intro s
        show ((v.blocks ++ [0]).getD (s / W) 0).testBit (s % W) = _
        rw [getD_append_zero]
        rfl
  · rw [if_neg hg]
    rw [if_pos rfl]
    refine hgoal _ ?_ ?_
    · show v.current_size_bits / W < v.blocks.length
      refine (Nat.div_lt_iff_lt_mul hW).2 ?_
      have e : v.blocks.length * W = W * v.blocks.length := Nat.mul_comm ..
      omega
    · intro s
      rfl

theorem insert_size (v : SimpleBitVector) (i : ℕ) (value : Bool) :
    (insert W C exq v i value).current_size_bits = v.current_size_bits + 1 := by
  simp only [insert]
  by_cases hg : v.current_size_bits = W * v.blocks.length
  · rw [if_pos hg]
    by_cases hq : exq = true ∧ v.chunk_array.length * C = v.blocks.length
    · rw [if_pos hq]
      dsimp only
      by_cases hp : v.current_size_bits = i
      · rw [if_pos hp, set_size]
      · rw [if_neg hp]
        exact (insertTail_struct W C exq _ i value).1
    · rw [if_neg hq]
      dsimp only
      by_cases hp : v.current_size_bits = i
      · rw [if_pos hp, set_size]
      · rw [if_neg hp]
        exact (insertTail_struct W C exq _ i value).1
  · rw [if_neg hg]
    by_cases hp : v.current_size_bits = i
    · rw [if_pos hp, set_size]
    · rw [if_neg hp]
      exact (insertTail_struct W C exq _ i value).1

theorem insert_blocks_length (v : SimpleBitVector) (i : ℕ) (value : Bool) :
    (insert W C exq v i value).blocks.length =
      if v.current_size_bits = W * v.blocks.length then v.blocks.length + 1
      else v.blocks.length := by
  simp only [insert]
  by_cases hg : v.current_size_bits = W * v.blocks.length
  · rw [if_pos hg, if_pos hg]
    have hl : (v.blocks ++ [0]).length = v.blocks.length + 1 := by
      simp
    by_cases hq : exq = true ∧ v.chunk_array.length * C = v.blocks.length
    · rw [if_pos hq]
      dsimp only
      by_cases hp : v.current_size_bits = i
      · rw [if_pos hp, set_blocks_length]
        exact hl
      · rw [if_neg hp]
        exact ((insertTail_struct W C exq _ i value).2.1).trans hl
    · rw [if_neg hq]
      dsimp only
      by_cases hp : v.current_size_bits = i
      · rw [if_pos hp, set_blocks_length]
        exact hl
      · rw [if_neg hp]
        exact ((insertTail_struct W C exq _ i value).2.1).trans hl
  · rw [if_neg hg, if_neg hg]
    by_cases hp : v.current_size_bits = i
    · rw [if_pos hp, set_blocks_length]
    · rw [if_neg hp]
      exact (insertTail_struct W C exq _ i value).2.1

theorem insert_blocks_bound (v : SimpleBitVector) (i : ℕ) (value : Bool)
    (hW : 0 < W) (hb : ∀ b ∈ v.blocks, b < 2 ^ W) :
    ∀ b ∈ (insert W C exq v i value).blocks, b < 2 ^ W := by
  have hp2 : 0 < 2 ^ W := Nat.pos_pow_of_pos W (by omega)
  have happ : ∀ b ∈ v.blocks ++ [0], b < 2 ^ W := by
    intro b hmem
    rcases List.mem_append.mp hmem with h | h
    · exact hb b h
    · rw [List.mem_singleton.mp h]
      exact hp2
  simp only [insert]
  by_cases hg : v.current_size_bits = W * v.blocks.length
  · rw [if_pos hg]
    by_cases hq : exq = true ∧ v.chunk_array.length * C = v.blocks.length
    · rw [if_pos hq]
      dsimp only
      by_cases hp : v.current_size_bits = i
      · rw [if_pos hp]
        exact set_blocks_bound W C exq _ _ _ hW happ
      · rw [if_neg hp]
        exact (insertTail_struct W C exq _ i value).2.2 hW happ
    · rw [if_neg hq]
      dsimp only
      by_cases hp : v.current_size_bits = i
      · rw [if_pos hp]
        exact set_blocks_bound W C exq _ _ _ hW happ
      · rw [if_neg hp]
        exact (insertTail_struct W C exq _ i value).2.2 hW happ
  · rw [if_neg hg]
    by_cases hp : v.current_size_bits = i
    · rw [if_pos hp]
      exact set_blocks_bound W C exq _ _ _ hW hb
    · rw [if_neg hp]
      exact (insertTail_struct W C exq _ i value).2.2 hW hb

theorem reset_eq_set (v : SimpleBitVector) (i : ℕ) :
    reset W C exq v i = set W C exq v i false := rfl

theorem getD_dropLast (l : List ℕ) (j : ℕ) (h : j < l.length - 1) :
    l.dropLast.getD j 0 = l.getD j 0 := by
  rw [List.dropLast_eq_take]
  rw [List.getD_eq_getElem _ _ (by rw [List.length_take]; omega)]
  rw [List.getD_eq_getElem _ _ (by omega)]
  exact List.getElem_take ..

theorem deleteTail_shuffle_get (v : SimpleBitVector) (i s : ℕ) (hW : 0 < W)
    (hW64 : W ≤ 64) (hbn : i / W < v.blocks.length)
    (hb : ∀ x ∈ v.blocks, x < 2 ^ W) :
    get W { v with blocks := v.blocks.set (i / W) (((v.blocks.getD (i / W) 0) &&& notW W (truncW W (ones64 <<< (i % W)))) ||| ((((ones64 <<< (i % W + 1)) &&& (v.blocks.getD (i / W) 0)) >>> 1) &&& (truncW W (ones64 <<< (i % W))))) } s =
      if s / W = i / W ∧ i % W ≤ s % W then
        (if s % W + 1 < W then get W v (s + 1) else false)
      else get W v s := by
  have hbpW : i % W < W := Nat.mod_lt _ hW
  have hsW : s % W < W := Nat.mod_lt _ hW
  have hblk : v.blocks.getD (i / W) 0 < 2 ^ W := get_blockD_lt W v hb (i / W)
  rw [get_set_blocks]
  by_cases hc : i / W = s / W ∧ i / W < v.blocks.length
  · rw [if_pos hc]
    obtain ⟨hc1, -⟩ := hc
    simp only [truncW, notW, Nat.testBit_or, Nat.testBit_and, Nat.testBit_xor,
      Nat.testBit_shiftLeft, Nat.testBit_shiftRight, Nat.testBit_mod_two_pow,
      Nat.testBit_two_pow_sub_one, testBit_ones64]
    rcases Nat.lt_or_ge (s % W) (i % W) with hm | hm
    · rw [if_neg (by intro hc2; have h2 := hc2.2; omega)]
      rw [decide_eq_true hsW,
        decide_eq_false (show ¬(s % W ≥ i % W) by omega)]
      simp only [Bool.true_and, Bool.false_and, Bool.and_false, Bool.xor_false,
        Bool.and_true, Bool.or_false]
      show _ = (v.blocks.getD (s / W) 0).testBit (s % W)
      rw [← hc1]
    · rw [if_pos ⟨hc1.symm, hm⟩]
      rw [decide_eq_true hsW, decide_eq_true (show s % W ≥ i % W from hm),
        decide_eq_true (show s % W - i % W < 64 by omega),
        decide_eq_true (show 1 + s % W ≥ i % W + 1 by omega),
        decide_eq_true (show 1 + s % W - (i % W + 1) < 64 by omega)]
      simp only [Bool.true_and, Bool.and_true, Bool.xor_self, Bool.and_false,
        Bool.false_or]
      by_cases hlast : s % W + 1 < W
      · rw [if_pos hlast]
        have hds := Nat.div_add_mod s W
        have e6 : s / W * W = W * (s / W) := Nat.mul_comm ..
        have e7 : (s / W + 1) * W = W * (s / W) + W := by ring
        have h81 : (s + 1) / W = s / W := Nat.div_eq_of_lt_le (by omega) (by omega)
        have h82 : (s + 1) % W = s % W + 1 := by
          have h6 := Nat.div_add_mod (s + 1) W
          rw [h81] at h6
          omega
        show _ = (v.blocks.getD ((s + 1) / W) 0).testBit ((s + 1) % W)
        rw [h81, h82, ← hc1, show 1 + s % W = s % W + 1 by omega]
      · rw [if_neg hlast]
        rw [show 1 + s % W = W by omega]
        exact Nat.testBit_lt_two_pow hblk
  · rw [if_neg hc]
    have hs : ¬(s / W = i / W) := fun hcon => hc ⟨hcon.symm, hbn⟩
    rw [if_neg (by intro hc2; exact hs hc2.1)]

theorem deleteShiftLoop_snd :
    ∀ (cnt : ℕ) (v : SimpleBitVector) (b lbp : ℕ),
    (deleteShiftLoop W C exq v b lbp cnt).2 = lbp + cnt * W := by
  intro cnt
  induction cnt with
  | zero =>
    intro v b lbp
    show lbp = lbp + 0 * W
    omega
  | succ n ih =>
    intro v b lbp
    set v1 := set W C exq v lbp (get W v (b * W)) with hv1
    set v2 := { v1 with blocks := v1.blocks.set b ((v1.blocks.getD b 0) >>> 1) } with hv2
    show (deleteShiftLoop W C exq v2 (b + 1) (lbp + W) n).2 = lbp + (n + 1) * W
    rw [ih]
    have e : W + n * W = (n + 1) * W := by ring
    omega

theorem deleteShiftLoop_struct :
    ∀ (cnt : ℕ) (v : SimpleBitVector) (b lbp : ℕ),
    (deleteShiftLoop W C exq v b lbp cnt).1.current_size_bits =
      v.current_size_bits ∧
    (deleteShiftLoop W C exq v b lbp cnt).1.blocks.length = v.blocks.length ∧
    (0 < W → (∀ x ∈ v.blocks, x < 2 ^ W) →
      ∀ x ∈ (deleteShiftLoop W C exq v b lbp cnt).1.blocks, x < 2 ^ W) := by
  intro cnt
  induction cnt with
  | zero =>
    intro v b lbp
    exact ⟨rfl, rfl, fun _ h => h⟩
  | succ n ih =>
    intro v b lbp
    set v1 := set W C exq v lbp (get W v (b * W)) with hv1
    set v2 := { v1 with blocks := v1.blocks.set b ((v1.blocks.getD b 0) >>> 1) } with hv2
    obtain ⟨i1, i2, i3⟩ := ih v2 (b + 1) (lbp + W)
    refine ⟨?_, ?_, ?_⟩
    · show (deleteShiftLoop W C exq v2 (b + 1) (lbp + W) n).1.current_size_bits = _
      rw [i1]
      show v1.current_size_bits = v.current_size_bits
      rw [hv1, set_size]
    · show (deleteShiftLoop W C exq v2 (b + 1) (lbp + W) n).1.blocks.length = _
      rw [i2]
      show (v1.blocks.set b ((v1.blocks.getD b 0) >>> 1)).length = _
      rw [List.length_set, hv1, set_blocks_length]
    · intro hW hb
      show ∀ x ∈ (deleteShiftLoop W C exq v2 (b + 1) (lbp + W) n).1.blocks,
        x < 2 ^ W
      refine i3 hW ?_
      have hb1 : ∀ x ∈ v1.blocks, x < 2 ^ W := by
        rw [hv1]
        exact set_blocks_bound W C exq _ _ _ hW hb
      intro x hmem
      have hmem2 : x ∈ v1.blocks.set b ((v1.blocks.getD b 0) >>> 1) := hmem
      rcases List.mem_or_eq_of_mem_set hmem2 with h | h
      · exact hb1 x h
      · subst h
        calc v1.blocks.getD b 0 >>> 1 ≤ v1.blocks.getD b 0 := by
              rw [Nat.shiftRight_eq_div_pow]
              exact Nat.div_le_self ..
          _ < 2 ^ W := get_blockD_lt W v1 hb1 b

theorem deleteShiftLoop_get (hW : 0 < W) (hW64 : W ≤ 64) :
    ∀ (cnt : ℕ) (v : SimpleBitVector) (b : ℕ),
    0 < b → b + cnt = v.blocks.length →
    (∀ x ∈ v.blocks, x < 2 ^ W) →
    ∀ t, get W (deleteShiftLoop W C exq v b (b * W - 1) cnt).1 t =
      if t < b * W - 1 then get W v t
      else if t + 1 < (b + cnt) * W then get W v (t + 1)
      else if cnt ≠ 0 ∧ t < (b + cnt) * W then false
      else get W v t := by
  intro cnt
  induction cnt with
  | zero =>
    intro v b hb0 hlen hb t
    show get W v t = _
    have e0 : (b + 0) * W = b * W := by ring
    rw [e0]
    rcases Nat.lt_or_ge t (b * W - 1) with h | h
    · rw [if_pos h]
    · rw [if_neg (by omega), if_neg (by omega),
        if_neg (by intro hc; exact hc.1 rfl)]
  | succ n ih =>
    intro v b hb0 hlen hb t
    obtain ⟨b', rfl⟩ : ∃ b', b = b' + 1 := ⟨b - 1, by omega⟩
    have eb : (b' + 1) * W = b' * W + W := by ring
    have eb2 : (b' + 1 + 1) * W = (b' + 1) * W + W := by ring
    have eL : (b' + 1 + 1 + n) * W = (b' + 1 + (n + 1)) * W := by ring
    have hposW : 0 < (b' + 1) * W := Nat.mul_pos (by omega) hW
    have hlbp_div : ((b' + 1) * W - 1) / W = b' :=
      Nat.div_eq_of_lt_le (by omega) (by omega)
    set v1 := set W C exq v ((b' + 1) * W - 1) (get W v ((b' + 1) * W)) with hv1
    set v2 := { v1 with blocks := v1.blocks.set (b' + 1) ((v1.blocks.getD (b' + 1) 0) >>> 1) } with hv2
    have hb1len : v1.blocks.length = v.blocks.length := by
      rw [hv1, set_blocks_length]
    have hget1 : ∀ s, get W v1 s =
        if s = (b' + 1) * W - 1 then get W v ((b' + 1) * W) else get W v s := by
      intro s
      rw [hv1]
      exact get_set W C exq v _ s _ hW hW64 (by rw [hlbp_div]; omega)
    have hb1 : ∀ x ∈ v1.blocks, x < 2 ^ W := by
      rw [hv1]
      exact set_blocks_bound W C exq _ _ _ hW hb
    have hlen2 : v2.blocks.length = v.blocks.length := by
      show (v1.blocks.set (b' + 1) ((v1.blocks.getD (b' + 1) 0) >>> 1)).length = _
      rw [List.length_set]
      exact hb1len
    have hb2 : ∀ x ∈ v2.blocks, x < 2 ^ W := by
      intro x hmem
      have hmem2 : x ∈ v1.blocks.set (b' + 1) ((v1.blocks.getD (b' + 1) 0) >>> 1) := hmem
      rcases List.mem_or_eq_of_mem_set hmem2 with h | h
      · exact hb1 x h
      · subst h
        calc v1.blocks.getD (b' + 1) 0 >>> 1 ≤ v1.blocks.getD (b' + 1) 0 := by
              rw [Nat.shiftRight_eq_div_pow]
              exact Nat.div_le_self ..
          _ < 2 ^ W := get_blockD_lt W v1 hb1 (b' + 1)
    have hget2a : ∀ s, s / W = b' + 1 → s % W + 1 < W →
        get W v2 s = get W v1 (s + 1) := by
      intro s hsd hsm
      rw [hv2, get_set_blocks, if_pos ⟨hsd.symm, by rw [hb1len]; omega⟩,
        Nat.testBit_shiftRight]
      have hds := Nat.div_add_mod s W
      rw [hsd] at hds
      have h81 : (s + 1) / W = b' + 1 := by
        refine Nat.div_eq_of_lt_le ?_ ?_
        · have e5 : (b' + 1) * W = W * (b' + 1) := Nat.mul_comm ..
          omega
        · have e5 : (b' + 1 + 1) * W = W * (b' + 1) + W := by ring
          omega
      have hm2 : (s + 1) % W < W := Nat.mod_lt _ hW
      have h82 : (s + 1) % W = s % W + 1 := by
        have h6 := Nat.div_add_mod (s + 1) W
        rw [h81] at h6
        omega
      show _ = (v1.blocks.getD ((s + 1) / W) 0).testBit ((s + 1) % W)
      rw [h81, h82, show 1 + s % W = s % W + 1 by omega]
    have hget2b : ∀ s, s / W = b' + 1 → s % W + 1 = W → get W v2 s = false := by
      intro s hsd hsm
      rw [hv2, get_set_blocks, if_pos ⟨hsd.symm, by rw [hb1len]; omega⟩,
        Nat.testBit_shiftRight, show 1 + s % W = W by omega]
      exact Nat.testBit_lt_two_pow (get_blockD_lt W v1 hb1 (b' + 1))
    have hget2c : ∀ s, s / W ≠ b' + 1 → get W v2 s = get W v1 s := by
      intro s hsd
      rw [hv2, get_set_blocks, if_neg (by intro hc; exact hsd hc.1.symm)]
    show get W (deleteShiftLoop W C exq v2 (b' + 1 + 1) ((b' + 1) * W - 1 + W) n).1 t = _
    have elbp : (b' + 1) * W - 1 + W = (b' + 1 + 1) * W - 1 := by omega
    rw [elbp]
    rw [ih v2 (b' + 1 + 1) (by omega) (by rw [hlen2]; omega) hb2 t]
    rcases Nat.lt_or_ge t ((b' + 1) * W - 1) with h1 | h1
    · rw [if_pos h1, if_pos (show t < (b' + 1 + 1) * W - 1 by omega)]
      have hdt : t / W < b' + 1 := (Nat.div_lt_iff_lt_mul hW).2 (by omega)
      rw [hget2c t (by omega), hget1 t, if_neg (by omega)]
    · rcases Nat.lt_or_ge (t + 1) ((b' + 1 + (n + 1)) * W) with h2 | h2
      · rw [if_neg (show ¬(t < (b' + 1) * W - 1) by omega), if_pos h2]
        rcases Nat.lt_or_ge t ((b' + 1 + 1) * W - 1) with h3 | h3
        · rw [if_pos h3]
          rcases eq_or_ne t ((b' + 1) * W - 1) with h4 | h4
          · have hdt : t / W = b' := by
              rw [h4]
              exact hlbp_div
            rw [hget2c t (by omega), hget1 t, if_pos h4,
              show (b' + 1) * W = t + 1 by omega]
          · have ht1 : (b' + 1) * W ≤ t := by omega
            have hdt : t / W = b' + 1 := Nat.div_eq_of_lt_le (by omega) (by omega)
            have hds := Nat.div_add_mod t W
            rw [hdt] at hds
            have hmod : t % W + 1 < W := by
              have e5 : W * (b' + 1) = (b' + 1) * W := Nat.mul_comm ..
              omega
            rw [hget2a t hdt hmod, hget1 (t + 1), if_neg (by omega)]
        · rw [if_neg (show ¬(t < (b' + 1 + 1) * W - 1) by omega), eL, if_pos h2]
          have hdt : b' + 1 + 1 ≤ (t + 1) / W :=
            (Nat.le_div_iff_mul_le hW).2 (by omega)
          rw [hget2c (t + 1) (by omega), hget1 (t + 1), if_neg (by omega)]
      · rcases Nat.lt_or_ge t ((b' + 1 + (n + 1)) * W) with h3 | h3
        · rw [if_neg (show ¬(t < (b' + 1) * W - 1) by omega),
            if_neg (show ¬(t + 1 < (b' + 1 + (n + 1)) * W) by omega),
            if_pos (show n + 1 ≠ 0 ∧ t < (b' + 1 + (n + 1)) * W from
              ⟨by omega, h3⟩)]
          rcases Nat.eq_zero_or_pos n with hn | hn
          · subst hn
            have eX : (b' + 1 + 1 + 0) * W = (b' + 1 + 1) * W := by ring
            have eY : (b' + 1 + (0 + 1)) * W = (b' + 1 + 1) * W := by ring
            rw [if_neg (show ¬(t < (b' + 1 + 1) * W - 1) by omega), eX,
              if_neg (show ¬(t + 1 < (b' + 1 + 1) * W) by omega),
              if_neg (show ¬(0 ≠ 0 ∧ t < (b' + 1 + 1) * W) from
                fun hc => hc.1 rfl)]
            have hdt : t / W = b' + 1 := Nat.div_eq_of_lt_le (by omega) (by omega)
            have hds := Nat.div_add_mod t W
            rw [hdt] at hds
            have hmod : t % W + 1 = W := by
              have e5 : W * (b' + 1) = (b' + 1) * W := Nat.mul_comm ..
              have hmW : t % W < W := Nat.mod_lt _ hW
              omega
            exact hget2b t hdt hmod
          · have hmono : (b' + 1 + 1) * W ≤ (b' + 1 + (n + 1)) * W :=
              Nat.mul_le_mul_right W (by omega)
            rw [if_neg (show ¬(t < (b' + 1 + 1) * W - 1) by omega), eL,
              if_neg (show ¬(t + 1 < (b' + 1 + (n + 1)) * W) by omega),
              if_pos (show n ≠ 0 ∧ t < (b' + 1 + (n + 1)) * W from
                ⟨by omega, by omega⟩)]
        · have hmono : (b' + 1 + 1) * W ≤ (b' + 1 + (n + 1)) * W :=
            Nat.mul_le_mul_right W (by omega)
          rw [if_neg (show ¬(t < (b' + 1) * W - 1) by omega),
            if_neg (show ¬(t + 1 < (b' + 1 + (n + 1)) * W) by omega),
            if_neg (show ¬(n + 1 ≠ 0 ∧ t < (b' + 1 + (n + 1)) * W) by
              intro hc
              have h6 := hc.2
              omega),
            if_neg (show ¬(t < (b' + 1 + 1) * W - 1) by omega), eL,
            if_neg (show ¬(t + 1 < (b' + 1 + (n + 1)) * W) by omega),
            if_neg (show ¬(n ≠ 0 ∧ t < (b' + 1 + (n + 1)) * W) by
              intro hc
              have h6 := hc.2
              omega)]
          have hdt : b' + 1 + 1 ≤ t / W := (Nat.le_div_iff_mul_le hW).2 (by omega)
          rw [hget2c t (by omega), hget1 t, if_neg (by omega)]

theorem deleteTail_struct (u : SimpleBitVector) (i : ℕ) :
    (deleteTail W C exq u i).current_size_bits = u.current_size_bits ∧
    (deleteTail W C exq u i).blocks.length = u.blocks.length ∧
    (0 < W → (∀ x ∈ u.blocks, x < 2 ^ W) →
      ∀ x ∈ (deleteTail W C exq u i).blocks, x < 2 ^ W) := by
  simp only [deleteTail]
  set u3 := ({ u with blocks := u.blocks.set (i / W) (((u.blocks.getD (i / W) 0) &&& notW W (truncW W (ones64 <<< (i % W)))) ||| ((((ones64 <<< (i % W + 1)) &&& (u.blocks.getD (i / W) 0)) >>> 1) &&& (truncW W (ones64 <<< (i % W))))) } : SimpleBitVector) with hu3
  obtain ⟨j1, j2, j3⟩ := deleteShiftLoop_struct W C exq
    (u3.blocks.length - (i / W + 1)) u3 (i / W + 1) (i / W * W + W - 1)
  have hlen3 : u3.blocks.length = u.blocks.length := by
    rw [hu3]
    exact List.length_set ..
  refine ⟨?_, ?_, ?_⟩
  · rw [reset_eq_set, set_size, j1]
  · rw [reset_eq_set, set_blocks_length, j2]
    exact hlen3
  · intro hW hb
    rw [reset_eq_set]
    refine set_blocks_bound W C exq _ _ _ hW ?_
    refine j3 hW ?_
    rw [hu3]
    intro x hmem
    rcases List.mem_or_eq_of_mem_set hmem with h | h
    · exact hb x h
    · subst h
      have hp : 0 < 2 ^ W := Nat.pos_pow_of_pos W (by omega)
      refine Nat.or_lt_two_pow
        (Nat.lt_of_le_of_lt (Nat.and_le_right ..) ?_)
        (Nat.lt_of_le_of_lt (Nat.and_le_right ..) ?_)
      · exact Nat.xor_lt_two_pow (by omega) (Nat.mod_lt _ hp)
      · exact Nat.mod_lt _ hp

theorem deleteTail_get (u : SimpleBitVector) (i t : ℕ)
    (hW : 0 < W) (hW64 : W ≤ 64) (hb : ∀ x ∈ u.blocks, x < 2 ^ W)
    (hilen : i < W * u.blocks.length)
    (ht : t + 1 < W * u.blocks.length) :
    get W (deleteTail W C exq u i) t =
      if t < i then get W u t else get W u (t + 1) := by
  have hbn : i / W < u.blocks.length := (Nat.div_lt_iff_lt_mul hW).2 (by
    have e : u.blocks.length * W = W * u.blocks.length := Nat.mul_comm ..
    omega)
  have hdm := Nat.div_add_mod i W
  have hbpW : i % W < W := Nat.mod_lt _ hW
  have e5 : i / W * W = W * (i / W) := Nat.mul_comm ..
  have e1 : (i / W + 1) * W = W * (i / W) + W := by ring
  have hlen0 : 0 < u.blocks.length := by
    rcases Nat.eq_zero_or_pos u.blocks.length with h | h
    · rw [h] at hbn
      exact absurd hbn (Nat.not_lt_zero _)
    · exact h
  simp only [deleteTail]
  set u3 := ({ u with blocks := u.blocks.set (i / W) (((u.blocks.getD (i / W) 0) &&& notW W (truncW W (ones64 <<< (i % W)))) ||| ((((ones64 <<< (i % W + 1)) &&& (u.blocks.getD (i / W) 0)) >>> 1) &&& (truncW W (ones64 <<< (i % W))))) } : SimpleBitVector) with hu3
  have hlen3 : u3.blocks.length = u.blocks.length := by
    rw [hu3]
    exact List.length_set ..
  have hb3 : ∀ x ∈ u3.blocks, x < 2 ^ W := by
    rw [hu3]
    intro x hmem
    rcases List.mem_or_eq_of_mem_set hmem with h | h
    · exact hb x h
    · subst h
      have hp : 0 < 2 ^ W := Nat.pos_pow_of_pos W (by omega)
      refine Nat.or_lt_two_pow
        (Nat.lt_of_le_of_lt (Nat.and_le_right ..) ?_)
        (Nat.lt_of_le_of_lt (Nat.and_le_right ..) ?_)
      · exact Nat.xor_lt_two_pow (by omega) (Nat.mod_lt _ hp)
      · exact Nat.mod_lt _ hp
  have hget3 : ∀ s, get W u3 s =
      if s / W = i / W ∧ i % W ≤ s % W then
        (if s % W + 1 < W then get W u (s + 1) else false)
      else get W u s := by
    intro s
    rw [hu3]
    exact deleteTail_shuffle_get W u i s hW hW64 hbn hb
  have hlbp : i / W * W + W - 1 = (i / W + 1) * W - 1 := by
    have e : (i / W + 1) * W = i / W * W + W := by ring
    omega
  rw [hlbp]
  have hcnt : (i / W + 1) + (u3.blocks.length - (i / W + 1)) =
      u3.blocks.length := by
    omega
  obtain ⟨j1, j2, j3⟩ := deleteShiftLoop_struct W C exq
    (u3.blocks.length - (i / W + 1)) u3 (i / W + 1) ((i / W + 1) * W - 1)
  have eA : (u.blocks.length - 1) * W + W = u.blocks.length * W := by
    have e0 : u.blocks.length - 1 + 1 = u.blocks.length := by omega
    calc (u.blocks.length - 1) * W + W = (u.blocks.length - 1 + 1) * W := by ring
      _ = u.blocks.length * W := by rw [e0]
  have eB : (u.blocks.length - 1 + 1) * W = (u.blocks.length - 1) * W + W := by
    ring
  have eP : 0 < u.blocks.length * W := Nat.mul_pos hlen0 hW
  have hdiv2 : (u.blocks.length * W - 1) / W = u.blocks.length - 1 :=
    Nat.div_eq_of_lt_le (by omega) (by omega)
  have hsnd : (deleteShiftLoop W C exq u3 (i / W + 1) ((i / W + 1) * W - 1)
      (u3.blocks.length - (i / W + 1))).2 = u.blocks.length * W - 1 := by
    rw [deleteShiftLoop_snd]
    have e1 : (i / W + 1) * W + (u3.blocks.length - (i / W + 1)) * W =
        u3.blocks.length * W := by
      rw [← Nat.add_mul, hcnt]
    have e2 : u3.blocks.length * W = u.blocks.length * W := by
      rw [hlen3]
    have e3 : 0 < (i / W + 1) * W := Nat.mul_pos (Nat.succ_pos _) hW
    omega
  rw [hsnd, reset_eq_set,
    get_set W C exq _ _ t false hW hW64 (by rw [hdiv2, j2, hlen3]; omega)]
  have eC : u.blocks.length * W = W * u.blocks.length := Nat.mul_comm ..
  rw [if_neg (show ¬(t = u.blocks.length * W - 1) by omega)]
  rw [deleteShiftLoop_get W C exq hW hW64 (u3.blocks.length - (i / W + 1)) u3
    (i / W + 1) (Nat.succ_pos _) hcnt hb3 t]
  rcases Nat.lt_or_ge t i with hti | hti
  · rw [if_pos hti, if_pos (show t < (i / W + 1) * W - 1 by omega)]
    rw [hget3 t, if_neg (by
      intro hc
      have hdt := Nat.div_add_mod t W
      rw [hc.1] at hdt
      have h2 := hc.2
      omega)]
  · rw [if_neg (show ¬(t < i) by omega)]
    rcases Nat.lt_or_ge t ((i / W + 1) * W - 1) with h3 | h3
    · rw [if_pos h3, hget3 t]
      have hdt1 : t / W = i / W := Nat.div_eq_of_lt_le (by omega) (by omega)
      have hdt := Nat.div_add_mod t W
      rw [hdt1] at hdt
      rw [if_pos ⟨hdt1, by omega⟩, if_pos (by omega)]
    · rw [if_neg (show ¬(t < (i / W + 1) * W - 1) by omega)]
      have eD : (i / W + 1 + (u3.blocks.length - (i / W + 1))) * W =
          u3.blocks.length * W := by
        rw [hcnt]
      have eE : u3.blocks.length * W = u.blocks.length * W := by
        rw [hlen3]
      rw [eD, eE, if_pos (show t + 1 < u.blocks.length * W by omega)]
      rcases eq_or_ne t ((i / W + 1) * W - 1) with h4 | h4
      · have hdt : (t + 1) / W = i / W + 1 := by
          rw [h4, show (i / W + 1) * W - 1 + 1 = (i / W + 1) * W by omega,
            Nat.mul_div_cancel _ hW]
        rw [hget3 (t + 1), if_neg (by
          intro hc
          have h6 := hc.1
          omega)]
      · have hdt : i / W + 1 ≤ (t + 1) / W :=
          (Nat.le_div_iff_mul_le hW).2 (by omega)
        rw [hget3 (t + 1), if_neg (by
          intro hc
          have h6 := hc.1
          omega)]

theorem delete_size (v : SimpleBitVector) (i : ℕ) :
    (delete_element W C exq v i).current_size_bits =
      v.current_size_bits - 1 := by
  simp only [delete_element]
  dsimp only
  set vmid := (if i = v.current_size_bits - 1 then reset W C exq { v with current_size_bits := v.current_size_bits - 1 } i else deleteTail W C exq { v with current_size_bits := v.current_size_bits - 1 } i) with hvmid
  have hsmid : vmid.current_size_bits = v.current_size_bits - 1 := by
    rw [hvmid]
    by_cases hp : i = v.current_size_bits - 1
    · rw [if_pos hp, reset_eq_set, set_size]
    · rw [if_neg hp]
      exact (deleteTail_struct W C exq _ i).1
  have hsplit : ∀ (c : Prop) (hd : Decidable c) (a : ℕ) (bl : List ℕ)
      (c1 c2 : List Chunk),
      (@ite _ c hd (⟨a, bl, c1⟩ : SimpleBitVector) ⟨a, bl, c2⟩).current_size_bits
        = a := by
    intro c hd a bl c1 c2
    cases hd with
    | isTrue h => rw [if_pos h]
    | isFalse h => rw [if_neg h]
  by_cases hpop : vmid.blocks.length ≠ 0 ∧
      vmid.current_size_bits = W * (vmid.blocks.length - 1)
  · rw [if_pos hpop, hsplit]
    exact hsmid
  · rw [if_neg hpop]
    exact hsmid

theorem delete_blocks_length (v : SimpleBitVector) (i : ℕ) :
    (delete_element W C exq v i).blocks.length =
      if v.blocks.length ≠ 0 ∧
          v.current_size_bits - 1 = W * (v.blocks.length - 1) then
        v.blocks.length - 1
      else v.blocks.length := by
  simp only [delete_element]
  dsimp only
  set vmid := (if i = v.current_size_bits - 1 then reset W C exq { v with current_size_bits := v.current_size_bits - 1 } i else deleteTail W C exq { v with current_size_bits := v.current_size_bits - 1 } i) with hvmid
  have hsmid : vmid.current_size_bits = v.current_size_bits - 1 := by
    rw [hvmid]
    by_cases hp : i = v.current_size_bits - 1
    · rw [if_pos hp, reset_eq_set, set_size]
    · rw [if_neg hp]
      exact (deleteTail_struct W C exq _ i).1
  have hlmid : vmid.blocks.length = v.blocks.length := by
    rw [hvmid]
    by_cases hp : i = v.current_size_bits - 1
    · rw [if_pos hp, reset_eq_set, set_blocks_length]
    · rw [if_neg hp]
      exact (deleteTail_struct W C exq _ i).2.1
  have hsplitB : ∀ (c : Prop) (hd : Decidable c) (a : ℕ) (bl : List ℕ)
      (c1 c2 : List Chunk),
      (@ite _ c hd (⟨a, bl, c1⟩ : SimpleBitVector) ⟨a, bl, c2⟩).blocks = bl := by
    intro c hd a bl c1 c2
    cases hd with
    | isTrue h => rw [if_pos h]
    | isFalse h => rw [if_neg h]
  by_cases hc : v.blocks.length ≠ 0 ∧
      v.current_size_bits - 1 = W * (v.blocks.length - 1)
  · rw [if_pos hc, if_pos (show vmid.blocks.length ≠ 0 ∧
      vmid.current_size_bits = W * (vmid.blocks.length - 1) from
      ⟨by rw [hlmid]; exact hc.1, by rw [hsmid, hlmid]; exact hc.2⟩)]
    rw [hsplitB]
    rw [List.length_dropLast, hlmid]
  · rw [if_neg hc, if_neg (by
      intro hcon
      apply hc
      refine ⟨?_, ?_⟩
      · rw [← hlmid]
        exact hcon.1
      · rw [← hsmid, ← hlmid]
        exact hcon.2)]
    exact hlmid

theorem delete_blocks_bound (v : SimpleBitVector) (i : ℕ) (hW : 0 < W)
    (hb : ∀ x ∈ v.blocks, x < 2 ^ W) :
    ∀ x ∈ (delete_element W C exq v i).blocks, x < 2 ^ W := by
  simp only [delete_element]
  dsimp only
  set vmid := (if i = v.current_size_bits - 1 then reset W C exq { v with current_size_bits := v.current_size_bits - 1 } i else deleteTail W C exq { v with current_size_bits := v.current_size_bits - 1 } i) with hvmid
  have hbmid : ∀ x ∈ vmid.blocks, x < 2 ^ W := by
    rw [hvmid]
    by_cases hp : i = v.current_size_bits - 1
    · rw [if_pos hp, reset_eq_set]
      exact set_blocks_bound W C exq _ _ _ hW hb
    · rw [if_neg hp]
      exact (deleteTail_struct W C exq _ i).2.2 hW hb
  have hsplitB : ∀ (c : Prop) (hd : Decidable c) (a : ℕ) (bl : List ℕ)
      (c1 c2 : List Chunk),
      (@ite _ c hd (⟨a, bl, c1⟩ : SimpleBitVector) ⟨a, bl, c2⟩).blocks = bl := by
    intro c hd a bl c1 c2
    cases hd with
    | isTrue h => rw [if_pos h]
    | isFalse h => rw [if_neg h]
  by_cases hpop : vmid.blocks.length ≠ 0 ∧
      vmid.current_size_bits = W * (vmid.blocks.length - 1)
  · rw [if_pos hpop, hsplitB]
    intro x hmem
    exact hbmid x (List.mem_of_mem_dropLast hmem)
  · rw [if_neg hpop]
    exact hbmid

theorem get_delete (v : SimpleBitVector) (i t : ℕ) (hW : 0 < W)
    (hW64 : W ≤ 64) (hb : ∀ x ∈ v.blocks, x < 2 ^ W)
    (hsize : v.current_size_bits ≤ W * v.blocks.length)
    (hi : i < v.current_size_bits) (ht : t < v.current_size_bits - 1) :
    get W (delete_element W C exq v i) t =
      if t < i then get W v t else get W v (t + 1) := by
  have hVD : ∀ s, get W ({ v with current_size_bits :=
      v.current_size_bits - 1 } : SimpleBitVector) s = get W v s := fun _ => rfl
  simp only [delete_element]
  dsimp only
  set vmid := (if i = v.current_size_bits - 1 then reset W C exq { v with current_size_bits := v.current_size_bits - 1 } i else deleteTail W C exq { v with current_size_bits := v.current_size_bits - 1 } i) with hvmid
  have hsmid : vmid.current_size_bits = v.current_size_bits - 1 := by
    rw [hvmid]
    by_cases hp : i = v.current_size_bits - 1
    · rw [if_pos hp, reset_eq_set, set_size]
    · rw [if_neg hp]
      exact (deleteTail_struct W C exq _ i).1
  have hgmid : ∀ s, s < v.current_size_bits - 1 → get W vmid s =
      (if s < i then get W v s else get W v (s + 1)) := by
    intro s hs
    rw [hvmid]
    by_cases hp : i = v.current_size_bits - 1
    · rw [if_pos hp, reset_eq_set,
        get_set W C exq _ _ _ _ hW hW64 (by
          show i / W < v.blocks.length
          refine (Nat.div_lt_iff_lt_mul hW).2 ?_
          have e : v.blocks.length * W = W * v.blocks.length := Nat.mul_comm ..
          omega)]
      rw [if_neg (show ¬(s = i) by omega), if_pos (show s < i by omega)]
      exact hVD s
    · rw [if_neg hp]
      rw [deleteTail_get W C exq ({ v with current_size_bits :=
          v.current_size_bits - 1 } : SimpleBitVector) i s hW hW64 hb (by
          show i < W * v.blocks.length
          omega) (by
          show s + 1 < W * v.blocks.length
          omega)]
      rw [hVD s, hVD (s + 1)]
  have hsplit : ∀ (c : Prop) (hd : Decidable c) (a : ℕ) (bl : List ℕ)
      (c1 c2 : List Chunk),
      get W (@ite _ c hd (⟨a, bl, c1⟩ : SimpleBitVector) ⟨a, bl, c2⟩) t =
        get W (⟨a, bl, c1⟩ : SimpleBitVector) t := by
    intro c hd a bl c1 c2
    cases hd with
    | isTrue h => rw [if_pos h]
    | isFalse h =>
      rw [if_neg h]
      rfl
  by_cases hpop : vmid.blocks.length ≠ 0 ∧
      vmid.current_size_bits = W * (vmid.blocks.length - 1)
  · rw [if_pos hpop, hsplit]
    have hdrop : get W (⟨vmid.current_size_bits, vmid.blocks.dropLast,
        vmid.chunk_array.dropLast⟩ : SimpleBitVector) t = get W vmid t := by
      show (vmid.blocks.dropLast.getD (t / W) 0).testBit (t % W) = _
      rw [getD_dropLast _ _ ?_]
      · rfl
      · refine (Nat.div_lt_iff_lt_mul hW).2 ?_
        have e : (vmid.blocks.length - 1) * W =
          W * (vmid.blocks.length - 1) := Nat.mul_comm ..
        have h2 := hpop.2
        omega
    rw [hdrop, hgmid t ht]
  · rw [if_neg hpop, hgmid t ht]

theorem list_ext_getD (l1 l2 : List Bool) (hlen : l1.length = l2.length)
    (h : ∀ t, t < l1.length → l1.getD t false = l2.getD t false) :
    l1 = l2 := by
  refine List.ext_getElem hlen ?_
  intro t h1 h2
  have h3 := h t h1
  rw [List.getD_eq_getElem _ _ h1, List.getD_eq_getElem _ _ h2] at h3
  exact h3

theorem getD_insertIdx_bool (a : Bool) :
    ∀ (i : ℕ) (l : List Bool) (t : ℕ), i ≤ l.length →
    (l.insertIdx i a).getD t false =
      if t < i then l.getD t false
      else if t = i then a
      else l.getD (t - 1) false := by
  intro i
  induction i with
  | zero =>
    intro l t h0
    rw [List.insertIdx_zero]
    cases t with
    | zero => rfl
    | succ s =>
      show l.getD s false = _
      rw [if_neg (by omega), if_neg (by omega),
        show s + 1 - 1 = s from rfl]
  | succ n ih =>
    intro l t h0
    cases l with
    | nil =>
      have hl : ([] : List Bool).length = 0 := rfl
      omega
    | cons x l' =>
      have hl : (x :: l').length = l'.length + 1 := rfl
      rw [List.insertIdx_succ_cons]
      cases t with
      | zero =>
        show x = _
        rw [if_pos (show (0 : ℕ) < n + 1 by omega)]
        rfl
      | succ s =>
        show (List.insertIdx n a l').getD s false = _
        rw [ih l' s (by omega)]
        rcases Nat.lt_or_ge s n with h | h
        · rw [if_pos h, if_pos (show s + 1 < n + 1 by omega)]
          rfl
        · rcases eq_or_ne s n with h2 | h2
          · rw [if_neg (by omega), if_pos h2, if_neg (by omega),
              if_pos (by omega)]
          · rw [if_neg (by omega), if_neg h2, if_neg (by omega),
              if_neg (show ¬(s + 1 = n + 1) by omega)]
            obtain ⟨s', rfl⟩ : ∃ s', s = s' + 1 := ⟨s - 1, by omega⟩
            rw [show s' + 1 - 1 = s' from rfl,
              show s' + 1 + 1 - 1 = s' + 1 from rfl]
            rfl

theorem getD_eraseIdx_bool :
    ∀ (i : ℕ) (l : List Bool) (t : ℕ), i < l.length → t < l.length - 1 →
    (l.eraseIdx i).getD t false =
      if t < i then l.getD t false else l.getD (t + 1) false := by
  intro i
  induction i with
  | zero =>
    intro l t hi ht
    cases l with
    | nil =>
      have hl : ([] : List Bool).length = 0 := rfl
      omega
    | cons x l' =>
      show l'.getD t false = _
      rw [if_neg (by omega)]
      rfl
  | succ n ih =>
    intro l t hi ht
    cases l with
    | nil =>
      have hl : ([] : List Bool).length = 0 := rfl
      omega
    | cons x l' =>
      have hl : (x :: l').length = l'.length + 1 := rfl
      cases t with
      | zero =>
        show (x :: l'.eraseIdx n).getD 0 false = _
        rw [if_pos (show (0 : ℕ) < n + 1 by omega)]
        rfl
      | succ s =>
        show (l'.eraseIdx n).getD s false = _
        rw [ih l' s (by omega) (by omega)]
        rcases Nat.lt_or_ge s n with h | h
        · rw [if_pos h, if_pos (show s + 1 < n + 1 by omega)]
          rfl
        · rw [if_neg (by omega), if_neg (show ¬(s + 1 < n + 1) by omega)]
          rfl

theorem toBits_insert (v : SimpleBitVector) (i : ℕ) (value : Bool)
    (hW : 0 < W) (hW64 : W ≤ 64)
    (hsize : v.current_size_bits ≤ W * v.blocks.length)
    (hi : i ≤ v.current_size_bits) :
    toBits W (insert W C exq v i value) = (toBits W v).insertIdx i value := by
  refine list_ext_getD _ _ ?_ ?_
  · rw [toBits_length, insert_size,
      List.length_insertIdx _ _ (by rw [toBits_length]; omega), toBits_length]
  · intro t hlen
    rw [toBits_length, insert_size] at hlen
    rw [toBits_getD W _ (by rw [insert_size]; omega)]
    rw [getD_insertIdx_bool value i (toBits W v) t (by rw [toBits_length]; omega)]
    rcases eq_or_ne i v.current_size_bits with hie | hie
    · subst hie
      rw [get_insert_back W C exq v value t hW hW64 hsize]
      rcases Nat.lt_or_ge t v.current_size_bits with h | h
      · rw [if_neg (by omega), if_pos h, toBits_getD W v (by omega)]
      · have ht2 : t = v.current_size_bits := by omega
        rw [if_pos ht2, if_neg (by omega), if_pos ht2]
    · have hi2 : i < v.current_size_bits := by omega
      rw [get_insert W C exq v i value t hW hW64 hsize hi2 (by omega)]
      rcases Nat.lt_or_ge t i with h | h
      · rw [if_pos h, if_pos h, toBits_getD W v (by omega)]
      · rcases eq_or_ne t i with h2 | h2
        · rw [if_neg (by omega), if_pos h2, if_neg (by omega), if_pos h2]
        · rw [if_neg (by omega), if_neg h2, if_neg (by omega), if_neg h2,
            toBits_getD W v (by omega)]

theorem toBits_delete (v : SimpleBitVector) (i : ℕ)
    (hW : 0 < W) (hW64 : W ≤ 64) (hb : ∀ x ∈ v.blocks, x < 2 ^ W)
    (hsize : v.current_size_bits ≤ W * v.blocks.length)
    (hi : i < v.current_size_bits) :
    toBits W (delete_element W C exq v i) = (toBits W v).eraseIdx i := by
  refine list_ext_getD _ _ ?_ ?_
  · rw [toBits_length, delete_size, List.length_eraseIdx,
      if_pos (show i < (toBits W v).length by rw [toBits_length]; omega),
      toBits_length]
  · intro t hlen
    rw [toBits_length, delete_size] at hlen
    rw [toBits_getD W _ (by rw [delete_size]; omega)]
    rw [get_delete W C exq v i t hW hW64 hb hsize hi hlen]
    rw [getD_eraseIdx_bool i (toBits W v) t (by rw [toBits_length]; omega)
      (by rw [toBits_length]; omega)]
    rcases Nat.lt_or_ge t i with h | h
    · rw [if_pos h, if_pos h, toBits_getD W v (by omega)]
    · rw [if_neg (by omega), if_neg (by omega), toBits_getD W v (by omega)]

/-- Number of set bits of n among bit positions [0, m): the specification
counterpart of popcount. -/
def bitCount (n : ℕ) : ℕ → ℕ
  | 0 => 0
  | m + 1 => bitCount n m + (if n.testBit m then 1 else 0)

theorem bitCount_zero_val : ∀ m, bitCount 0 m = 0 := by
  intro m
  induction m with
  | zero => rfl
  | succ m ih =>
    show bitCount 0 m + (if Nat.testBit 0 m then 1 else 0) = 0
    rw [ih, Nat.zero_testBit]
    rfl

theorem popcountAux_fuel : ∀ (f1 f2 n : ℕ), n ≤ f1 → n ≤ f2 →
    popcountAux f1 n = popcountAux f2 n := by
  intro f1
  induction f1 with
  | zero =>
    intro f2 n h1 h2
    have h0 : n = 0 := by omega
    subst h0
    cases f2 with
    | zero => rfl
    | succ f2 =>
      show 0 = if (0 : ℕ) = 0 then 0 else popcountAux f2 (0 / 2) + 0 % 2
      rw [if_pos rfl]
  | succ f1 ih =>
    intro f2 n h1 h2
    cases f2 with
    | zero =>
      have h0 : n = 0 := by omega
      subst h0
      show (if (0 : ℕ) = 0 then 0 else popcountAux f1 (0 / 2) + 0 % 2) = 0
      rw [if_pos rfl]
    | succ f2 =>
      show (if n = 0 then 0 else popcountAux f1 (n / 2) + n % 2) =
        (if n = 0 then 0 else popcountAux f2 (n / 2) + n % 2)
      rcases eq_or_ne n 0 with h | h
      · rw [if_pos h, if_pos h]
      · rw [if_neg h, if_neg h, ih f2 (n / 2) (by omega) (by omega)]

theorem popcount_eq (n : ℕ) (h : n ≠ 0) :
    popcount n = popcount (n / 2) + n % 2 := by
  obtain ⟨k, rfl⟩ : ∃ k, n = k + 1 := ⟨n - 1, by omega⟩
  show (if k + 1 = 0 then 0 else popcountAux k ((k + 1) / 2) + (k + 1) % 2) =
    popcountAux ((k + 1) / 2) ((k + 1) / 2) + (k + 1) % 2
  rw [if_neg (by omega), popcountAux_fuel k ((k + 1) / 2) ((k + 1) / 2)
    (by omega) (by omega)]

theorem bitCount_div2 : ∀ (m n : ℕ),
    n % 2 + bitCount (n / 2) m = bitCount n (m + 1) := by
  intro m
  induction m with
  | zero =>
    intro n
    show n % 2 + 0 = 0 + (if n.testBit 0 then 1 else 0)
    rw [Nat.testBit_zero]
    rcases Nat.mod_two_eq_zero_or_one n with h | h
    · rw [h, if_neg (by decide)]
    · rw [h, if_pos (by decide)]
  | succ m ih =>
    intro n
    show n % 2 + (bitCount (n / 2) m + (if (n / 2).testBit m then 1 else 0)) =
      bitCount n (m + 1) + (if n.testBit (m + 1) then 1 else 0)
    rw [Nat.testBit_succ]
    have h2 := ih n
    cases hb : (n / 2).testBit m
    · rw [if_neg (by exact Bool.false_ne_true)]
      omega
    · rw [if_pos rfl]
      omega

theorem popcount_spec : ∀ (m n : ℕ), n < 2 ^ m → popcount n = bitCount n m := by
  intro m
  induction m with
  | zero =>
    intro n h
    have h1 : (2 : ℕ) ^ 0 = 1 := rfl
    have h0 : n = 0 := by omega
    subst h0
    show popcount 0 = 0
    rfl
  | succ m ih =>
    intro n h
    rcases Nat.eq_zero_or_pos n with h0 | h0
    · subst h0
      show popcount 0 = bitCount 0 (m + 1)
      rw [show popcount 0 = 0 from rfl, bitCount_zero_val]
    · have h2 : (2 : ℕ) ^ (m + 1) = 2 ^ m * 2 := Nat.pow_succ ..
      rw [popcount_eq n (by omega), ih (n / 2) (by omega),
        ← bitCount_div2 m n]
      omega

theorem bitCount_le : ∀ (m n : ℕ), bitCount n m ≤ m := by
  intro m
  induction m with
  | zero =>
    intro n
    exact Nat.le_refl _
  | succ m ih =>
    intro n
    show bitCount n m + (if n.testBit m then 1 else 0) ≤ m + 1
    have h1 := ih n
    have h2 : (if n.testBit m then 1 else 0) ≤ 1 := by
      cases n.testBit m
      · exact Nat.zero_le _
      · exact Nat.le_refl _
    omega

theorem bitCount_succ_le (n m : ℕ) : bitCount n (m + 1) ≤ bitCount n m + 1 := by
  show bitCount n m + (if n.testBit m then 1 else 0) ≤ _
  have h2 : (if n.testBit m then 1 else 0) ≤ 1 := by
    cases n.testBit m
    · exact Nat.zero_le _
    · exact Nat.le_refl _
  omega

theorem bitCount_zeros_mono (n : ℕ) : ∀ (b a : ℕ), a ≤ b →
    a - bitCount n a ≤ b - bitCount n b := by
  intro b
  induction b with
  | zero =>
    intro a ha
    have h0 : a = 0 := by omega
    subst h0
    exact Nat.le_refl _
  | succ b ih =>
    intro a ha
    rcases Nat.lt_or_ge a (b + 1) with h | h
    · have h2 := ih a (by omega)
      have h3 := bitCount_succ_le n b
      have h4 := bitCount_le b n
      omega
    · have h2 : a = b + 1 := by omega
      subst h2
      exact Nat.le_refl _

/-- Number of ones among the first p bits of the leaf, as read through get:
the specification-side counter for rank and select. -/
def onesBelow (v : SimpleBitVector) : ℕ → ℕ
  | 0 => 0
  | p + 1 => onesBelow v p + (if get W v p then 1 else 0)

theorem onesBelow_succ_le (v : SimpleBitVector) (p : ℕ) :
    onesBelow W v (p + 1) ≤ onesBelow W v p + 1 := by
  show onesBelow W v p + (if get W v p then 1 else 0) ≤ _
  have h2 : (if get W v p then 1 else 0) ≤ 1 := by
    cases get W v p
    · exact Nat.zero_le _
    · exact Nat.le_refl _
  omega

theorem onesBelow_le (v : SimpleBitVector) : ∀ p, onesBelow W v p ≤ p := by
  intro p
  induction p with
  | zero => exact Nat.le_refl _
  | succ p ih =>
    have h2 := onesBelow_succ_le W v p
    omega

theorem zerosBelow_mono (v : SimpleBitVector) : ∀ (b a : ℕ), a ≤ b →
    a - onesBelow W v a ≤ b - onesBelow W v b := by
  intro b
  induction b with
  | zero =>
    intro a ha
    have h0 : a = 0 := by omega
    subst h0
    exact Nat.le_refl _
  | succ b ih =>
    intro a ha
    rcases Nat.lt_or_ge a (b + 1) with h | h
    · have h2 := ih a (by omega)
      have h3 := onesBelow_succ_le W v b
      have h4 := onesBelow_le W v b
      omega
    · have h2 : a = b + 1 := by omega
      subst h2
      exact Nat.le_refl _

/-- The per-block budget consumed by the block-finding loop of select:
ones of the block for select_one, zeros for select_zero. -/
def selCnt (one : Bool) (blocks : List ℕ) (j : ℕ) : ℕ :=
  if one then popcount (blocks.getD j 0) else W - popcount (blocks.getD j 0)

/-- Sum of the per-block budgets of f consecutive blocks starting at idx. -/
def sumCnt (one : Bool) (blocks : List ℕ) (idx : ℕ) : ℕ → ℕ
  | 0 => 0
  | f + 1 => selCnt W one blocks idx + sumCnt one blocks (idx + 1) f

theorem sumCnt_snoc : ∀ (f : ℕ) (one : Bool) (blocks : List ℕ) (idx : ℕ),
    sumCnt W one blocks idx (f + 1) =
      sumCnt W one blocks idx f + selCnt W one blocks (idx + f) := by
  intro f
  induction f with
  | zero =>
    intro one blocks idx
    show selCnt W one blocks idx + 0 = 0 + selCnt W one blocks (idx + 0)
    rw [show idx + 0 = idx from rfl]
    omega
  | succ f ihf =>
    intro one blocks idx
    show selCnt W one blocks idx + sumCnt W one blocks (idx + 1) (f + 1) =
      (selCnt W one blocks idx + sumCnt W one blocks (idx + 1) f) +
        selCnt W one blocks (idx + (f + 1))
    rw [ihf one blocks (idx + 1), show idx + 1 + f = idx + (f + 1) by omega]
    omega

theorem onesBelow_decomp (v : SimpleBitVector) (hW : 0 < W)
    (hb : ∀ x ∈ v.blocks, x < 2 ^ W) :
    ∀ p, onesBelow W v p =
      sumCnt W true v.blocks 0 (p / W) +
        bitCount (v.blocks.getD (p / W) 0) (p % W) := by
  intro p
  induction p with
  | zero =>
    rw [Nat.zero_div, Nat.zero_mod]
    rfl
  | succ p ih =>
    have hq := Nat.div_add_mod p W
    have hr : p % W < W := Nat.mod_lt _ hW
    show onesBelow W v p + (if get W v p then 1 else 0) = _
    rw [ih]
    have hget : get W v p = (v.blocks.getD (p / W) 0).testBit (p % W) := rfl
    rcases Nat.lt_or_ge (p % W + 1) W with hcase | hcase
    · have hd1 : (p + 1) / W = p / W := by
        refine Nat.div_eq_of_lt_le ?_ ?_
        · have e5 : p / W * W = W * (p / W) := Nat.mul_comm ..
          omega
        · have e5 : (p / W + 1) * W = W * (p / W) + W := by ring
          omega
      have hm1 : (p + 1) % W = p % W + 1 := by
        have h6 := Nat.div_add_mod (p + 1) W
        rw [hd1] at h6
        have h7 : (p + 1) % W < W := Nat.mod_lt _ hW
        omega
      rw [hd1, hm1]
      show _ = sumCnt W true v.blocks 0 (p / W) +
        (bitCount (v.blocks.getD (p / W) 0) (p % W) +
          (if (v.blocks.getD (p / W) 0).testBit (p % W) then 1 else 0))
      cases hbit : (v.blocks.getD (p / W) 0).testBit (p % W)
      · rw [hget, hbit, if_neg (by exact Bool.false_ne_true)]
        omega
      · rw [hget, hbit, if_pos rfl]
        omega
    · have hw1 : p % W + 1 = W := by omega
      have hp1 : p + 1 = W * (p / W + 1) := by
        have e5 : W * (p / W + 1) = W * (p / W) + W := by ring
        omega
      have hd1 : (p + 1) / W = p / W + 1 := by
        rw [hp1]
        exact Nat.mul_div_cancel_left _ hW
      have hm1 : (p + 1) % W = 0 := by
        rw [hp1]
        exact Nat.mul_mod_right ..
      rw [hd1, hm1]
      show _ = sumCnt W true v.blocks 0 (p / W + 1) + 0
      rw [sumCnt_snoc W (p / W) true v.blocks 0, Nat.zero_add]
      have hsel : selCnt W true v.blocks (p / W) =
          popcount (v.blocks.getD (p / W) 0) := rfl
      rw [hsel, popcount_spec W (v.blocks.getD (p / W) 0)
        (get_blockD_lt W v hb (p / W))]
      have hbcw : bitCount (v.blocks.getD (p / W) 0) (p % W + 1) =
          bitCount (v.blocks.getD (p / W) 0) (p % W) +
            (if (v.blocks.getD (p / W) 0).testBit (p % W) then 1 else 0) := rfl
      rw [hw1] at hbcw
      rw [hbcw]
      cases hbit : (v.blocks.getD (p / W) 0).testBit (p % W)
      · rw [hget, hbit, if_neg (by exact Bool.false_ne_true)]
        omega
      · rw [hget, hbit, if_pos rfl]
        omega

theorem sumCnt_true_drop : ∀ (f idx : ℕ) (l : List ℕ), idx + f = l.length →
    sumCnt W true l idx f = ((l.drop idx).map popcount).sum := by
  intro f
  induction f with
  | zero =>
    intro idx l h
    rw [show idx = l.length by omega, List.drop_length]
    rfl
  | succ f ihf =>
    intro idx l h
    have hidx : idx < l.length := by omega
    rw [List.drop_eq_getElem_cons hidx, List.map_cons, List.sum_cons]
    show selCnt W true l idx + sumCnt W true l (idx + 1) f = _
    rw [ihf (idx + 1) l (by omega)]
    have hsel : selCnt W true l idx = popcount (l.getD idx 0) := rfl
    rw [hsel, List.getD_eq_getElem _ _ hidx]

theorem num_ones_eq (v : SimpleBitVector) :
    num_ones v = sumCnt W true v.blocks 0 v.blocks.length := by
  rw [sumCnt_true_drop W v.blocks.length 0 v.blocks (by omega), List.drop_zero]
  rfl

theorem popcount_le_W (n : ℕ) (h : n < 2 ^ W) : popcount n ≤ W := by
  rw [popcount_spec W n h]
  exact bitCount_le W n

theorem sumCnt_false_add : ∀ (f idx : ℕ) (l : List ℕ),
    (∀ x ∈ l, x < 2 ^ W) →
    sumCnt W false l idx f + sumCnt W true l idx f = W * f := by
  intro f
  induction f with
  | zero =>
    intro idx l h
    rfl
  | succ f ihf =>
    intro idx l hbl
    show (W - popcount (l.getD idx 0) + sumCnt W false l (idx + 1) f) +
      (popcount (l.getD idx 0) + sumCnt W true l (idx + 1) f) = W * (f + 1)
    have h1 := ihf (idx + 1) l hbl
    have h2 : popcount (l.getD idx 0) ≤ W := by
      refine popcount_le_W W _ ?_
      by_cases hj : idx < l.length
      · rw [List.getD_eq_getElem _ _ hj]
        exact hbl _ (List.getElem_mem hj)
      · rw [List.getD_eq_default _ _ (by omega)]
        exact Nat.pos_pow_of_pos W (by omega)
    have h3 : W * (f + 1) = W * f + W := by ring
    omega

theorem onesBelow_padding (v : SimpleBitVector)
    (hpad : ∀ t, t < v.blocks.length * W → v.current_size_bits ≤ t →
      get W v t = false) :
    ∀ p, v.current_size_bits ≤ p → p ≤ v.blocks.length * W →
      onesBelow W v p = onesBelow W v v.current_size_bits := by
  intro p
  induction p with
  | zero =>
    intro h1 h2
    have h0 : v.current_size_bits = 0 := by omega
    rw [h0]
  | succ p ih =>
    intro h1 h2
    rcases Nat.lt_or_ge p v.current_size_bits with h | h
    · have h0 : v.current_size_bits = p + 1 := by omega
      rw [h0]
    · show onesBelow W v p + (if get W v p then 1 else 0) = _
      rw [hpad p (by omega) h, if_neg (by exact Bool.false_ne_true)]
      rw [ih h (by omega)]
      omega

theorem selFindLoop_spec : ∀ (fuel : ℕ) (one : Bool) (blocks : List ℕ)
    (idx sel : ℕ), 1 ≤ sel → sel ≤ sumCnt W one blocks idx fuel →
    ∃ r1 r2, selFindLoop W one blocks idx fuel sel = (r1, r2) ∧
      idx ≤ r1 ∧ r1 < idx + fuel ∧ 1 ≤ r2 ∧ r2 ≤ selCnt W one blocks r1 ∧
      sumCnt W one blocks idx (r1 - idx) + r2 = sel := by
  intro fuel
  induction fuel with
  | zero =>
    intro one blocks idx sel h1 h2
    exfalso
    have h3 : sumCnt W one blocks idx 0 = 0 := rfl
    omega
  | succ f ih =>
    intro one blocks idx sel h1 h2
    have h6 : sumCnt W one blocks idx (f + 1) =
        selCnt W one blocks idx + sumCnt W one blocks (idx + 1) f := rfl
    by_cases hgt : sel > selCnt W one blocks idx
    · have h4 : 1 ≤ sel - selCnt W one blocks idx := by omega
      have h5 : sel - selCnt W one blocks idx ≤
          sumCnt W one blocks (idx + 1) f := by omega
      obtain ⟨r1, r2, heq, ha, hb, hc, hd, he⟩ :=
        ih one blocks (idx + 1) (sel - selCnt W one blocks idx) h4 h5
      refine ⟨r1, r2, ?_, by omega, by omega, hc, hd, ?_⟩
      · show (if sel > selCnt W one blocks idx then
          selFindLoop W one blocks (idx + 1) f
            (sel - selCnt W one blocks idx) else (idx, sel)) = (r1, r2)
        rw [if_pos hgt]
        exact heq
      · obtain ⟨d, hdd⟩ : ∃ d, r1 - idx = d + 1 := ⟨r1 - idx - 1, by omega⟩
        have hdd2 : r1 - (idx + 1) = d := by omega
        rw [hdd]
        show selCnt W one blocks idx + sumCnt W one blocks (idx + 1) d + r2 = sel
        rw [← hdd2]
        omega
    · refine ⟨idx, sel, ?_, Nat.le_refl _, by omega, h1, by omega, ?_⟩
      · show (if sel > selCnt W one blocks idx then
          selFindLoop W one blocks (idx + 1) f
            (sel - selCnt W one blocks idx) else (idx, sel)) = (idx, sel)
        rw [if_neg hgt]
      · rw [Nat.sub_self]
        show 0 + sel = sel
        omega

theorem selScanOne_spec : ∀ (m block pos sel : ℕ), block ≤ m → 1 ≤ sel →
    sel ≤ popcount block →
    ∃ j, selScanOne block pos sel = some (pos + j) ∧
      block.testBit j = true ∧ bitCount block j = sel - 1 := by
  intro m
  induction m with
  | zero =>
    intro block pos sel hm h1 h2
    exfalso
    have h0 : block = 0 := by omega
    subst h0
    have h3 : popcount 0 = 0 := rfl
    omega
  | succ m ih =>
    intro block pos sel hm h1 h2
    rcases Nat.eq_zero_or_pos block with h0 | h0
    · exfalso
      subst h0
      have h3 : popcount 0 = 0 := rfl
      omega
    · rcases Nat.mod_two_eq_zero_or_one block with hpar | hpar
      · have hpc : popcount block = popcount (block / 2) := by
          rw [popcount_eq block (by omega), hpar]
          omega
        obtain ⟨j, heq, hbit, hcnt⟩ :=
          ih (block / 2) (pos + 1) sel (by omega) h1 (by omega)
        refine ⟨j + 1, ?_, ?_, ?_⟩
        · rw [selScanOne, dif_neg (show ¬(block = 0) by omega),
            if_neg (by omega), heq, show pos + 1 + j = pos + (j + 1) by omega]
        · rw [Nat.testBit_succ]
          exact hbit
        · rw [← bitCount_div2 j block, hpar, hcnt]
          omega
      · rcases eq_or_ne sel 1 with hs1 | hs1
        · subst hs1
          refine ⟨0, ?_, ?_, rfl⟩
          · rw [selScanOne, dif_neg (show ¬(block = 0) by omega),
              if_pos hpar, if_pos rfl, show pos + 0 = pos from rfl]
          · rw [Nat.testBit_zero]
            exact decide_eq_true hpar
        · have hpc : popcount block = popcount (block / 2) + 1 := by
            rw [popcount_eq block (by omega), hpar]
          obtain ⟨j, heq, hbit, hcnt⟩ :=
            ih (block / 2) (pos + 1) (sel - 1) (by omega) (by omega) (by omega)
          refine ⟨j + 1, ?_, ?_, ?_⟩
          · rw [selScanOne, dif_neg (show ¬(block = 0) by omega),
              if_pos hpar, if_neg hs1, heq,
              show pos + 1 + j = pos + (j + 1) by omega]
          · rw [Nat.testBit_succ]
            exact hbit
          · rw [← bitCount_div2 j block, hpar, hcnt]
            omega

theorem selScanZero_spec : ∀ (m block pos sel : ℕ), block + sel ≤ m →
    1 ≤ sel →
    ∃ j, selScanZero block pos sel = some (pos + j) ∧
      block.testBit j = false ∧ j - bitCount block j = sel - 1 := by
  intro m
  induction m with
  | zero =>
    intro block pos sel hm h1
    omega
  | succ m ih =>
    intro block pos sel hm h1
    rcases Nat.mod_two_eq_zero_or_one block with hpar | hpar
    · rcases eq_or_ne sel 1 with hs1 | hs1
      · subst hs1
        refine ⟨0, ?_, ?_, rfl⟩
        · rw [selScanZero, if_pos hpar, if_pos rfl,
            show pos + 0 = pos from rfl]
        · rw [Nat.testBit_zero]
          exact decide_eq_false (by omega)
      · obtain ⟨j, heq, hbit, hz⟩ :=
          ih (block / 2) (pos + 1) (sel - 1) (by omega) (by omega)
        refine ⟨j + 1, ?_, ?_, ?_⟩
        · rw [selScanZero, if_pos hpar, if_neg hs1,
            if_neg (show ¬(block = 0 ∧ sel = 0) from
              fun hc => absurd hc.2 (by omega)),
            heq, show pos + 1 + j = pos + (j + 1) by omega]
        · rw [Nat.testBit_succ]
          exact hbit
        · have hbc := bitCount_div2 j block
          rw [hpar] at hbc
          have hle := bitCount_le j (block / 2)
          omega
    · have h0 : 0 < block := by omega
      obtain ⟨j, heq, hbit, hz⟩ :=
        ih (block / 2) (pos + 1) sel (by omega) h1
      refine ⟨j + 1, ?_, ?_, ?_⟩
      · rw [selScanZero, if_neg (by omega), heq,
          show pos + 1 + j = pos + (j + 1) by omega]
      · rw [Nat.testBit_succ]
        exact hbit
      · have hbc := bitCount_div2 j block
        rw [hpar] at hbc
        have hle := bitCount_le j (block / 2)
        omega

/-- C10: for every leaf in a consistent state (each block below 2^W, the
stored size within the allocated blocks, all padding bits zero),
select_one(k) terminates with `some p` where p is the 0-based position of
the k-th one bit whenever 1 ≤ k ≤ num_ones(), and select_zero(k) likewise
terminates with the position of the k-th zero bit whenever k is at most the
number of stored zeros; in both cases p lies inside the stored prefix, bit
p has the sought value, and exactly k−1 sought bits precede p.  The
hypothesis is what makes the final in-block scan terminate: the embedded
scans return none exactly where the C++ loops would not terminate. -/
theorem c10 (v : SimpleBitVector) (k : ℕ) (hW : 0 < W)
    (hb : ∀ x ∈ v.blocks, x < 2 ^ W)
    (hsize : v.current_size_bits ≤ W * v.blocks.length)
    (hpad : ∀ t, t < v.blocks.length * W → v.current_size_bits ≤ t →
      get W v t = false)
    (hk1 : 1 ≤ k) :
    (k ≤ num_ones v →
      ∃ p, select_one W v k = some p ∧ p < v.current_size_bits ∧
        get W v p = true ∧ onesBelow W v p + 1 = k) ∧
    (k + num_ones v ≤ v.current_size_bits →
      ∃ p, select_zero W v k = some p ∧ p < v.current_size_bits ∧
        get W v p = false ∧ (p - onesBelow W v p) + 1 = k) := by
  have eWL : v.blocks.length * W = W * v.blocks.length := Nat.mul_comm ..
  constructor
  · intro hk2
    have hsum : k ≤ sumCnt W true v.blocks 0 v.blocks.length := by
      rw [← num_ones_eq W v]
      exact hk2
    obtain ⟨r1, r2, heq, hi0, hiu, hr21, hr22, hsumeq⟩ :=
      selFindLoop_spec W v.blocks.length true v.blocks 0 k hk1 hsum
    rw [show r1 - 0 = r1 from rfl] at hsumeq
    have hsel : selCnt W true v.blocks r1 = popcount (v.blocks.getD r1 0) := rfl
    rw [hsel] at hr22
    obtain ⟨j, hscan, hbit, hbc⟩ := selScanOne_spec (v.blocks.getD r1 0)
      (v.blocks.getD r1 0) (W * r1) r2 (Nat.le_refl _) hr21 hr22
    have hblk : v.blocks.getD r1 0 < 2 ^ W := get_blockD_lt W v hb r1
    have hjW : j < W := by
      by_contra hj
      have h2 : v.blocks.getD r1 0 < 2 ^ j :=
        Nat.lt_of_lt_of_le hblk (Nat.pow_le_pow_right (by omega) (by omega))
      rw [Nat.testBit_lt_two_pow h2] at hbit
      exact Bool.false_ne_true hbit
    set p := W * r1 + j with hp
    have hdp : p / W = r1 := by
      rw [hp, Nat.mul_add_div hW]
      rw [Nat.div_eq_of_lt hjW]
      omega
    have hmp : p % W = j := by
      rw [hp, Nat.mul_add_mod]
      exact Nat.mod_eq_of_lt hjW
    have hgetp : get W v p = true := by
      show (v.blocks.getD (p / W) 0).testBit (p % W) = true
      rw [hdp, hmp]
      exact hbit
    have hones : onesBelow W v p = k - 1 := by
      rw [onesBelow_decomp W v hW hb p, hdp, hmp, hbc]
      omega
    have h3 : W * (r1 + 1) ≤ W * v.blocks.length :=
      Nat.mul_le_mul_left W (by omega)
    have e3 : W * (r1 + 1) = W * r1 + W := by ring
    have hplen : p < W * v.blocks.length := by omega
    have hpsize : p < v.current_size_bits := by
      by_contra hcon
      rw [hpad p (by omega) (by omega)] at hgetp
      exact Bool.false_ne_true hgetp
    refine ⟨p, ?_, hpsize, hgetp, by omega⟩
    show selScanOne (v.blocks.getD
      (selFindLoop W true v.blocks 0 v.blocks.length k).1 0)
      (W * (selFindLoop W true v.blocks 0 v.blocks.length k).1)
      (selFindLoop W true v.blocks 0 v.blocks.length k).2 = some p
    rw [heq]
    exact hscan
  · intro hk2
    have hadd := sumCnt_false_add W v.blocks.length 0 v.blocks hb
    have htone : sumCnt W true v.blocks 0 v.blocks.length = num_ones v :=
      (num_ones_eq W v).symm
    have hsum : k ≤ sumCnt W false v.blocks 0 v.blocks.length := by omega
    obtain ⟨r1, r2, heq, hi0, hiu, hr21, hr22, hsumeq⟩ :=
      selFindLoop_spec W v.blocks.length false v.blocks 0 k hk1 hsum
    rw [show r1 - 0 = r1 from rfl] at hsumeq
    have hsel : selCnt W false v.blocks r1 =
        W - popcount (v.blocks.getD r1 0) := rfl
    rw [hsel] at hr22
    obtain ⟨j, hscan, hbit, hz⟩ := selScanZero_spec
      (v.blocks.getD r1 0 + r2) (v.blocks.getD r1 0) (W * r1) r2
      (Nat.le_refl _) hr21
    have hblk : v.blocks.getD r1 0 < 2 ^ W := get_blockD_lt W v hb r1
    have hpcW : popcount (v.blocks.getD r1 0) ≤ W := popcount_le_W W _ hblk
    have hbcj := bitCount_le j (v.blocks.getD r1 0)
    have hbcW : bitCount (v.blocks.getD r1 0) W =
        popcount (v.blocks.getD r1 0) := (popcount_spec W _ hblk).symm
    have hjW : j < W := by
      by_contra hj
      have hmono := bitCount_zeros_mono (v.blocks.getD r1 0) j W (by omega)
      have hbcWle := bitCount_le W (v.blocks.getD r1 0)
      omega
    set p := W * r1 + j with hp
    have hdp : p / W = r1 := by
      rw [hp, Nat.mul_add_div hW]
      rw [Nat.div_eq_of_lt hjW]
      omega
    have hmp : p % W = j := by
      rw [hp, Nat.mul_add_mod]
      exact Nat.mod_eq_of_lt hjW
    have hgetp : get W v p = false := by
      show (v.blocks.getD (p / W) 0).testBit (p % W) = false
      rw [hdp, hmp]
      exact hbit
    have hones : onesBelow W v p =
        sumCnt W true v.blocks 0 r1 + bitCount (v.blocks.getD r1 0) j := by
      rw [onesBelow_decomp W v hW hb p, hdp, hmp]
    have hadd2 := sumCnt_false_add W r1 0 v.blocks hb
    have hzp : p - onesBelow W v p = k - 1 := by
      rw [hones, hp]
      omega
    have h3 : W * (r1 + 1) ≤ W * v.blocks.length :=
      Nat.mul_le_mul_left W (by omega)
    have e3 : W * (r1 + 1) = W * r1 + W := by ring
    have hplen : p < W * v.blocks.length := by omega
    have hpsize : p < v.current_size_bits := by
      by_contra hcon
      have hpadones : onesBelow W v (v.blocks.length * W) =
          onesBelow W v v.current_size_bits :=
        onesBelow_padding W v hpad (v.blocks.length * W) (by omega)
          (Nat.le_refl _)
      have hbc0 : bitCount (v.blocks.getD v.blocks.length 0) 0 = 0 := rfl
      have hdecW : onesBelow W v (v.blocks.length * W) =
          sumCnt W true v.blocks 0 v.blocks.length := by
        rw [onesBelow_decomp W v hW hb]
        rw [Nat.mul_div_cancel _ hW, Nat.mul_mod_left]
        omega
      have hszones : num_ones v = onesBelow W v v.current_size_bits := by
        rw [num_ones_eq W v, ← hdecW, hpadones]
      have hmono2 := zerosBelow_mono W v p v.current_size_bits (by omega)
      have hle2 := onesBelow_le W v v.current_size_bits
      omega
    refine ⟨p, ?_, hpsize, hgetp, by omega⟩
    show selScanZero (v.blocks.getD
      (selFindLoop W false v.blocks 0 v.blocks.length k).1 0)
      (W * (selFindLoop W false v.blocks 0 v.blocks.length k).1)
      (selFindLoop W false v.blocks 0 v.blocks.length k).2 = some p
    rw [heq]
    exact hscan

/-- Witness for c10: the 3-bit leaf 101 over 8-bit blocks; the second one
bit is at position 2 and the second zero-query also runs. -/
theorem c10_witness :
    (∃ p, select_one 8 (⟨3, [5], []⟩ : SimpleBitVector) 2 = some p ∧
      p < 3 ∧ get 8 ⟨3, [5], []⟩ p = true ∧
      onesBelow 8 ⟨3, [5], []⟩ p + 1 = 2) ∧
    (∃ p, select_zero 8 (⟨3, [5], []⟩ : SimpleBitVector) 1 = some p ∧
      p < 3 ∧ get 8 ⟨3, [5], []⟩ p = false ∧
      (p - onesBelow 8 ⟨3, [5], []⟩ p) + 1 = 1) :=
  ⟨(c10 8 ⟨3, [5], []⟩ 2 (by decide) (by decide) (by decide) (by decide)
      (by decide)).1 (by decide),
   (c10 8 ⟨3, [5], []⟩ 1 (by decide) (by decide) (by decide) (by decide)
      (by decide)).2 (by decide)⟩

end LeafSpec

end SimpleBitVector


/-! ## The DynamicBitVector embedding

Shallow embedding of class DynamicBitVector from src/bv/dynamic_bitvector.hpp,
instantiated as in the repository with plain SimpleBitVector leaves (no
excess support; the chunk parameter of the leaf type is irrelevant and fixed
to 1).  The template parameters MinLeafSizeBlocks / MaxLeafSizeBlocks are
MinB / MaxB.  Pointer structure becomes an inductive tree; the bottom-up
pointer walk of rebalance_after_insertion becomes a status value threaded
through the recursion: noSplit (no split happened, no rebalancing runs),
done (the while loop has terminated), marked (the loop variable `node` is
the root of the returned subtree), and markedChild dir (`node` is the dir
child of the returned subtree's root, with `parent` that root) — each frame
of insert_at_node processes the status exactly as one step of the C++ loop
with itself in the role of parent resp. grandparent.  The double-black loop
of rebalance_after_deletion mutates nodes through parent pointers across
the recursion frames and is not representable without physical node
identities; delete_at_node therefore returns none on the paths that would
enter it (and on the merge/steal shapes whose C++ counterpart dereferences
a null leaf pointer), and the theorems below only claim behaviour on the
paths where the embedding returns some. -/

namespace DynamicBitVector

section TreeOps

variable (W MinB MaxB : ℕ)

/-- enum class Color. -/
inductive Color where
  | RED
  | BLACK
  | DOUBLE_BLACK
deriving DecidableEq, Repr

/-- enum class LeafDeletion. -/
inductive LeafDeletion where
  | DELETED_ZERO
  | DELETED_ONE
  | UNDERFLOW
deriving DecidableEq, Repr

/-- enum class BitChangeResult. -/
inductive BitChangeResult where
  | ONE_MORE_ONE
  | ONE_LESS_ONE
  | NO_CHANGE
deriving DecidableEq, Repr

/-- struct Node: a leaf (leaf_data set) or an internal node with color and
the search keys num_bits_left_tree / ones_in_left_tree. -/
inductive DNode where
  | leaf (lf : SimpleBitVector)
  | node (c : Color) (nbl oil : ℕ) (l r : DNode)
deriving DecidableEq, Repr

/-- get_color: black for leaves, else the node's color (the null case of
the source cannot occur in the tree shape). -/
def get_color : DNode → Color
  | .leaf _ => Color.BLACK
  | .node c _ _ _ _ => c

/-- set_color on a subtree root (on a leaf the color field is dead:
get_color ignores it, so painting a leaf is the identity). -/
def paint (c : Color) : DNode → DNode
  | .leaf lf => .leaf lf
  | .node _ nbl oil l r => .node c nbl oil l r

/-- rotate_left, including the counter update
right_child->num_bits_left_tree += node->num_bits_left_tree (and ones). -/
def rotate_left : DNode → DNode
  | .node c nbl oil l (.node rc rnbl roil rl rr) =>
      .node rc (rnbl + nbl) (roil + oil) (.node c nbl oil l rl) rr
  | n => n

/-- rotate_right, including the counter update
node->num_bits_left_tree -= left_child->num_bits_left_tree (and ones). -/
def rotate_right : DNode → DNode
  | .node c nbl oil (.node lc lnbl loil ll lr) r =>
      .node lc lnbl loil ll (.node c (nbl - lnbl) (oil - loil) lr r)
  | n => n

/-- std::swap(parent->color, grandparent->color) after rotate_right at the
grandparent: swap the colors of the root and its right child. -/
def swapColorsRight : DNode → DNode
  | .node a nbl oil l (.node b n2 o2 l2 r2) =>
      .node b nbl oil l (.node a n2 o2 l2 r2)
  | n => n

/-- std::swap(parent->color, grandparent->color) after rotate_left at the
grandparent: swap the colors of the root and its left child. -/
def swapColorsLeft : DNode → DNode
  | .node a nbl oil (.node b n2 o2 l2 r2) r =>
      .node b nbl oil (.node a n2 o2 l2 r2) r
  | n => n

/-- Rebalancing status of insert_at_node (see the section comment). -/
inductive InsFix where
  | noSplit
  | done
  | marked
  | markedChild (dir : Bool)
deriving DecidableEq, Repr

/-- One frame of the rebalance_after_insertion loop, seen from a node whose
left child returned the given status. -/
def insStepLeft (c : Color) (nbl oil : ℕ) (l' r : DNode) :
    InsFix → DNode × InsFix
  | InsFix.noSplit => (.node c nbl oil l' r, InsFix.noSplit)
  | InsFix.done => (.node c nbl oil l' r, InsFix.done)
  | InsFix.marked =>
    if get_color l' = Color.RED ∧ c = Color.RED then
      (.node c nbl oil l' r, InsFix.markedChild false)
    else (.node c nbl oil l' r, InsFix.done)
  | InsFix.markedChild d =>
    if get_color r = Color.RED then
      (.node Color.RED nbl oil (paint Color.BLACK l') (paint Color.BLACK r),
        InsFix.marked)
    else
      let l2 := if d then rotate_left l' else l'
      (swapColorsRight (rotate_right (.node c nbl oil l2 r)), InsFix.marked)

/-- One frame of the rebalance_after_insertion loop, seen from a node whose
right child returned the given status. -/
def insStepRight (c : Color) (nbl oil : ℕ) (l r' : DNode) :
    InsFix → DNode × InsFix
  | InsFix.noSplit => (.node c nbl oil l r', InsFix.noSplit)
  | InsFix.done => (.node c nbl oil l r', InsFix.done)
  | InsFix.marked =>
    if get_color r' = Color.RED ∧ c = Color.RED then
      (.node c nbl oil l r', InsFix.markedChild true)
    else (.node c nbl oil l r', InsFix.done)
  | InsFix.markedChild d =>
    if get_color l = Color.RED then
      (.node Color.RED nbl oil (paint Color.BLACK l) (paint Color.BLACK r'),
        InsFix.marked)
    else
      let r2 := if d then r' else rotate_right r'
      (swapColorsLeft (rotate_left (.node c nbl oil l r2)), InsFix.marked)

/-- insert_at_node: descend by the search keys, insert in the leaf, split
an overfull leaf into a red node with two leaf children, and run the
rebalancing steps on the way back up. -/
def insert_at_node : DNode → ℕ → Bool → DNode × InsFix
  | .leaf lf, i, value =>
    let left_leaf := SimpleBitVector.insert W 1 false lf i value
    if MaxB ≤ left_leaf.blocks.length then
      let pr := SimpleBitVector.split W 1 false left_leaf
      (.node Color.RED (SimpleBitVector.size pr.1)
        (SimpleBitVector.num_ones pr.1) (.leaf pr.1) (.leaf pr.2),
        InsFix.marked)
    else (.leaf left_leaf, InsFix.noSplit)
  | .node c nbl oil l r, i, value =>
    if nbl ≤ i then
      let p := insert_at_node r (i - nbl) value
      insStepRight c nbl oil l p.1 p.2
    else
      let p := insert_at_node l i value
      insStepLeft c (nbl + 1) (if value then oil + 1 else oil) p.1 r p.2

/-- move_to_leaf: splice the contents of a detached leaf onto the right
(insert_back) or left end of the subtree, updating the search keys of the
left-descent path. -/
def move_to_leaf (t : DNode) (i : ℕ) (src : SimpleBitVector)
    (num_ones_leaf : ℕ) (insert_back : Bool) : DNode :=
  match t with
  | .leaf lf =>
    if insert_back then .leaf (SimpleBitVector.copy_to_back W 1 false lf src)
    else .leaf (SimpleBitVector.copy_to_back W 1 false src lf)
  | .node c nbl oil l r =>
    if nbl ≤ i then
      .node c nbl oil l (move_to_leaf r (i - nbl) src num_ones_leaf insert_back)
    else
      .node c (nbl + src.current_size_bits) (oil + num_ones_leaf)
        (move_to_leaf l i src num_ones_leaf insert_back) r

/-- delete_at_node.  isRoot tracks the node != root tests.  The result is
none exactly on the paths the embedding does not model: the double-black
branch of rebalance_after_deletion, a merge whose displaced sibling is not
a leaf (the C++ dereferences its null leaf_data), and a steal whose
re-insertion splits (its rebalancing would climb above the current frame). -/
def delete_at_node : Bool → DNode → ℕ → ℕ → ℕ → Bool →
    Option (DNode × LeafDeletion)
  | isRoot, .leaf lf, i, _, _, allow_underflow =>
    if ¬allow_underflow ∧ ¬isRoot ∧ lf.blocks.length ≤ MinB then
      some (.leaf lf, LeafDeletion.UNDERFLOW)
    else
      let deleted_one := SimpleBitVector.get W lf i
      some (.leaf (SimpleBitVector.delete_element W 1 false lf i),
        if deleted_one then LeafDeletion.DELETED_ONE
        else LeafDeletion.DELETED_ZERO)
  | isRoot, .node c nbl oil l r, i, num_bits, ones, allow_underflow =>
    if nbl ≤ i then
      match delete_at_node false r (i - nbl) (num_bits - nbl) (ones - oil)
        allow_underflow with
      | none => none
      | some (r1, del) =>
        if del = LeafDeletion.UNDERFLOW then
          some (.node c nbl oil l r1, LeafDeletion.UNDERFLOW)
        else
          let ones' := if del = LeafDeletion.DELETED_ONE then ones - 1 else ones
          if num_bits - nbl = MinB * W then
            match delete_at_node false l (nbl - 1) nbl 0 false with
            | none => none
            | some (l1, steal) =>
              match steal with
              | LeafDeletion.UNDERFLOW =>
                match r1 with
                | .leaf rlf =>
                  let ml := move_to_leaf W l1 nbl rlf (ones' - oil) true
                  if isRoot then some (paint Color.BLACK ml, del)
                  else if c = Color.RED ∨ get_color ml = Color.RED then
                    some (paint Color.BLACK ml, del)
                  else none
                | _ => none
              | LeafDeletion.DELETED_ZERO =>
                let p := insert_at_node W MaxB r1 0 false
                if p.2 = InsFix.noSplit then
                  some (.node c (nbl - 1) oil l1 p.1, del)
                else none
              | LeafDeletion.DELETED_ONE =>
                let p := insert_at_node W MaxB r1 0 true
                if p.2 = InsFix.noSplit then
                  some (.node c (nbl - 1) (oil - 1) l1 p.1, del)
                else none
          else some (.node c nbl oil l r1, del)
    else
      match delete_at_node false l i nbl oil allow_underflow with
      | none => none
      | some (l1, del) =>
        if del = LeafDeletion.UNDERFLOW then
          some (.node c nbl oil l1 r, LeafDeletion.UNDERFLOW)
        else
          let oil' := if del = LeafDeletion.DELETED_ONE then oil - 1 else oil
          if nbl = MinB * W then
            match delete_at_node false r 0 (num_bits - nbl) 0 false with
            | none => none
            | some (r1, steal) =>
              match steal with
              | LeafDeletion.UNDERFLOW =>
                match l1 with
                | .leaf llf =>
                  let ml := move_to_leaf W r1 0 llf oil' false
                  if isRoot then some (paint Color.BLACK ml, del)
                  else if c = Color.RED ∨ get_color ml = Color.RED then
                    some (paint Color.BLACK ml, del)
                  else none
                | _ => none
              | LeafDeletion.DELETED_ZERO =>
                let p := insert_at_node W MaxB l1 (nbl - 1) false
                if p.2 = InsFix.noSplit then
                  some (.node c nbl oil' p.1 r1, del)
                else none
              | LeafDeletion.DELETED_ONE =>
                let p := insert_at_node W MaxB l1 (nbl - 1) true
                if p.2 = InsFix.noSplit then
                  some (.node c nbl (oil' + 1) p.1 r1, del)
                else none
          else some (.node c (nbl - 1) oil' l1 r, del)

/-- access_bit. -/
def access_bit : DNode → ℕ → Bool
  | .leaf lf, i => SimpleBitVector.get W lf i
  | .node _ nbl _ l r, i =>
    if nbl ≤ i then access_bit r (i - nbl) else access_bit l i

/-- set_bit, returning the updated subtree and the BitChangeResult. -/
def set_bit : DNode → ℕ → Bool → DNode × BitChangeResult
  | .leaf lf, i, value =>
    let prev := SimpleBitVector.get W lf i
    (.leaf (SimpleBitVector.set W 1 false lf i value),
      if prev ∧ ¬value then BitChangeResult.ONE_LESS_ONE
      else if ¬prev ∧ value then BitChangeResult.ONE_MORE_ONE
      else BitChangeResult.NO_CHANGE)
  | .node c nbl oil l r, i, value =>
    if nbl ≤ i then
      let p := set_bit r (i - nbl) value
      (.node c nbl oil l p.1, p.2)
    else
      let p := set_bit l i value
      let oil' := match p.2 with
        | BitChangeResult.ONE_LESS_ONE => oil - 1
        | BitChangeResult.ONE_MORE_ONE => oil + 1
        | BitChangeResult.NO_CHANGE => oil
      (.node c nbl oil' p.1 r, p.2)

/-- flip_bit, returning the updated subtree and the new bit value. -/
def flip_bit : DNode → ℕ → DNode × Bool
  | .leaf lf, i =>
    let lf' := SimpleBitVector.flip W 1 false lf i
    (.leaf lf', SimpleBitVector.get W lf' i)
  | .node c nbl oil l r, i =>
    if nbl ≤ i then
      let p := flip_bit r (i - nbl)
      (.node c nbl oil l p.1, p.2)
    else
      let p := flip_bit l i
      (.node c nbl (if p.2 then oil + 1 else oil - 1) p.1 r, p.2)

/-- rank_at_node. -/
def rank_at_node : DNode → Bool → ℕ → ℕ → ℕ
  | .leaf lf, one, i, acc =>
    acc + (if one then SimpleBitVector.rank_one W lf i
           else SimpleBitVector.rank_zero W lf i)
  | .node _ nbl oil l r, one, i, acc =>
    if nbl ≤ i then
      rank_at_node r one (i - nbl) (acc + (if one then oil else nbl - oil))
    else rank_at_node l one i acc

/-- select_at_node; the leaf scan is partial (see select_one), so the tree
query is an Option as well. -/
def select_at_node : DNode → Bool → ℕ → ℕ → Option ℕ
  | .leaf lf, one, i, acc =>
    (if one then SimpleBitVector.select_one W lf i
     else SimpleBitVector.select_zero W lf i).map (fun p => acc + p)
  | .node _ nbl oil l r, one, i, acc =>
    let rel := if one then oil else nbl - oil
    if rel < i then select_at_node r one (i - rel) (acc + nbl)
    else select_at_node l one i acc

/-- The DynamicBitVector state: root, current_size, total_ones. -/
structure DBV where
  root : DNode
  current_size : ℕ
  total_ones : ℕ
deriving DecidableEq, Repr

/-- The DynamicBitVector() constructor: a single empty leaf. -/
def mkDBV : DBV := ⟨.leaf (SimpleBitVector.mkSBV W 1 false 0), 0, 0⟩

/-- DynamicBitVector::size. -/
def size (v : DBV) : ℕ := v.current_size

/-- DynamicBitVector::num_ones. -/
def num_ones (v : DBV) : ℕ := v.total_ones

/-- DynamicBitVector::operator[]. -/
def access (v : DBV) (i : ℕ) : Bool := access_bit W v.root i

/-- DynamicBitVector::set. -/
def set (v : DBV) (i : ℕ) (value : Bool) : DBV :=
  let p := set_bit W v.root i value
  ⟨p.1, v.current_size,
    match p.2 with
    | BitChangeResult.ONE_LESS_ONE => v.total_ones - 1
    | BitChangeResult.ONE_MORE_ONE => v.total_ones + 1
    | BitChangeResult.NO_CHANGE => v.total_ones⟩

/-- DynamicBitVector::flip. -/
def flip (v : DBV) (i : ℕ) : DBV :=
  let p := flip_bit W v.root i
  ⟨p.1, v.current_size, if p.2 then v.total_ones + 1 else v.total_ones - 1⟩

/-- DynamicBitVector::rank. -/
def rank (v : DBV) (one : Bool) (i : ℕ) : ℕ := rank_at_node W v.root one i 0

/-- DynamicBitVector::select. -/
def select (v : DBV) (one : Bool) (i : ℕ) : Option ℕ :=
  select_at_node W v.root one i 0

/-- DynamicBitVector::insert with its i <= current_size guard; the final
set_color(root, BLACK) of rebalance_after_insertion runs whenever a split
triggered rebalancing. -/
def insert (v : DBV) (i : ℕ) (value : Bool) : DBV :=
  if i ≤ v.current_size then
    let p := insert_at_node W MaxB v.root i value
    ⟨if p.2 = InsFix.noSplit then p.1 else paint Color.BLACK p.1,
      v.current_size + 1,
      if value then v.total_ones + 1 else v.total_ones⟩
  else v

/-- DynamicBitVector::delete_element with its i < current_size guard. -/
def delete_element (v : DBV) (i : ℕ) : Option DBV :=
  if i < v.current_size then
    match delete_at_node W MinB MaxB true v.root i v.current_size v.total_ones
      true with
    | none => none
    | some (t, del) =>
      some ⟨t, v.current_size - 1,
        if del = LeafDeletion.DELETED_ONE then v.total_ones - 1
        else v.total_ones⟩
  else some v

/-- DynamicBitVector::push_back. -/
def push_back (v : DBV) (value : Bool) : DBV := insert W MaxB v v.current_size value

/-- DynamicBitVector::pop_back. -/
def pop_back (v : DBV) : Option DBV :=
  delete_element W MinB MaxB v (v.current_size - 1)

/-- The abstract bit sequence stored in a subtree. -/
def dnodeBits : DNode → List Bool
  | .leaf lf => SimpleBitVector.toBits W lf
  | .node _ _ _ l r => dnodeBits l ++ dnodeBits r

end TreeOps

end DynamicBitVector

/-! ## Claim theorems about the dynamic bit vector -/

namespace DynamicBitVector

/-- The tree state holding the bit sequence 10110, built by five push_back
calls on the empty dynamic bit vector, with the template parameter values
main.cpp instantiates (64-bit blocks, leaves of 32..128 blocks). -/
def scenarioS1 : DBV :=
  push_back 64 128 (push_back 64 128 (push_back 64 128 (push_back 64 128
    (push_back 64 128 (mkDBV 64) true) false) true) true) false

set_option maxRecDepth 4000

/-- C8 (amended): scenario S1 replayed on the embedding.  The first three
outputs are 3, 1, 2 as the spec says, but the fourth output is 2 (not 4)
and the final stored sequence is 00010 (not 00100). -/
theorem c8 :
    rank 64 scenarioS1 true 5 = 3 ∧
    rank 64 scenarioS1 false 4 = 1 ∧
    select 64 scenarioS1 true 2 = some 2 ∧
    delete_element 64 32 128 (flip 64 (insert 64 128 scenarioS1 2 false) 0) 4 =
      some ⟨.leaf ⟨5, [8], []⟩, 5, 1⟩ ∧
    select 64 (⟨.leaf ⟨5, [8], []⟩, 5, 1⟩ : DBV) false 3 = some 2 ∧
    dnodeBits 64 (DNode.leaf ⟨5, [8], []⟩) =
      [false, false, false, true, false] := by
  refine ⟨by decide, by decide, ?_, by decide, ?_, by decide⟩
  · have h : scenarioS1 = ⟨.leaf ⟨5, [13], []⟩, 5, 3⟩ := by decide
    rw [h]
    simp [select, select_at_node, SimpleBitVector.select_one,
      SimpleBitVector.selFindLoop, popcount, popcountAux,
      SimpleBitVector.selScanOne]
  · simp [select, select_at_node, SimpleBitVector.select_zero,
      SimpleBitVector.selFindLoop, popcount, popcountAux,
      SimpleBitVector.selScanZero]

/-- C8, counterexample to the spec's claim: after the three mutations of
scenario S1 the stored sequence is not 00100. -/
theorem c8_counterexample :
    ¬ ((delete_element 64 32 128 (flip 64 (insert 64 128 scenarioS1 2 false) 0)
        4).map (fun w => dnodeBits 64 w.root) =
      some [false, false, true, false, false]) := by decide

/-- C9: insert with i > size and delete_element with i >= size are silent
no-ops: the state (hence the stored sequence, size and number of ones) is
returned unchanged, and delete_element returns normally with some. -/
theorem c9 (W MinB MaxB : ℕ) (v : DBV) (i : ℕ) (value : Bool) :
    (size v < i →
      insert W MaxB v i value = v ∧
      dnodeBits W (insert W MaxB v i value).root = dnodeBits W v.root ∧
      size (insert W MaxB v i value) = size v ∧
      num_ones (insert W MaxB v i value) = num_ones v) ∧
    (size v ≤ i → delete_element W MinB MaxB v i = some v) := by
  constructor
  · intro h
    have he : insert W MaxB v i value = v := by
      simp only [insert, size] at h ⊢
      rw [if_neg (by omega)]
    exact ⟨he, by rw [he], by rw [he], by rw [he]⟩
  · intro h
    simp only [delete_element, size] at h ⊢
    rw [if_neg (by omega)]

/-- C9 at a concrete state: both out-of-range calls leave the empty vector
untouched. -/
theorem c9_witness :
    insert 8 4 (mkDBV 8) 1 true = mkDBV 8 ∧
    delete_element 8 1 4 (mkDBV 8) 1 = some (mkDBV 8) :=
  ⟨((c9 8 1 4 (mkDBV 8) 1 true).1 (by decide)).1,
   (c9 8 1 4 (mkDBV 8) 1 true).2 (by decide)⟩

/-- A reachable state whose leaf is full for the parameters W = 8,
MinB = 1, MaxB = 2: eight one bits pushed onto the empty vector. -/
def fullLeafState : DBV :=
  push_back 8 2 (push_back 8 2 (push_back 8 2 (push_back 8 2 (push_back 8 2
    (push_back 8 2 (push_back 8 2 (push_back 8 2 (mkDBV 8) true) true) true)
    true) true) true) true) true

/-- C6, counterexample to the spec's claim: when insert(i, b) splits the
leaf, the following delete_element(i) merges the result into a different
state (an internal node above two leaves), so the pre-state is not
restored byte-identically. -/
theorem c6_counterexample :
    ¬ (delete_element 8 1 2 (insert 8 2 fullLeafState 8 false) 8 =
      some fullLeafState) := by decide

end DynamicBitVector

namespace DynamicBitVector

/-- C6 (amended): on a single-leaf tree whose size counter matches the
leaf, and when the insert does not split the leaf, insert(i, b) followed
by delete_element(i) restores the stored sequence, the size and the
number of ones. -/
theorem c6 (W MinB MaxB : ℕ) (lf : SimpleBitVector) (ones i : ℕ) (b : Bool)
    (hW : 0 < W) (hW64 : W ≤ 64)
    (hb : ∀ x ∈ lf.blocks, x < 2 ^ W)
    (hsize : lf.current_size_bits ≤ W * lf.blocks.length)
    (hi : i ≤ lf.current_size_bits)
    (hns : (SimpleBitVector.insert W 1 false lf i b).blocks.length < MaxB) :
    ∃ w : DBV,
      delete_element W MinB MaxB
        (insert W MaxB ⟨.leaf lf, lf.current_size_bits, ones⟩ i b) i = some w ∧
      dnodeBits W w.root = dnodeBits W (DNode.leaf lf) ∧
      size w = lf.current_size_bits ∧
      num_ones w = ones := by
  have h1 : insert W MaxB ⟨.leaf lf, lf.current_size_bits, ones⟩ i b =
      ⟨.leaf (SimpleBitVector.insert W 1 false lf i b),
        lf.current_size_bits + 1, if b then ones + 1 else ones⟩ := by
    simp only [insert, insert_at_node]
    rw [if_pos (show i ≤ lf.current_size_bits from hi), if_neg (show ¬ MaxB ≤
      (SimpleBitVector.insert W 1 false lf i b).blocks.length by omega)]
    rfl
  have hget : SimpleBitVector.get W (SimpleBitVector.insert W 1 false lf i b) i = b := by
    rcases Nat.lt_or_ge i lf.current_size_bits with hlt | hge
    · rw [SimpleBitVector.get_insert W 1 false lf i b i hW hW64 hsize hlt
        (Nat.le_of_lt hlt), if_neg (lt_irrefl i), if_pos rfl]
    · have hie : i = lf.current_size_bits := by omega
      subst hie
      rw [SimpleBitVector.get_insert_back W 1 false lf b lf.current_size_bits
        hW hW64 hsize, if_pos rfl]
  have hb' : ∀ x ∈ (SimpleBitVector.insert W 1 false lf i b).blocks, x < 2 ^ W :=
    SimpleBitVector.insert_blocks_bound W 1 false lf i b hW hb
  have hsize' : (SimpleBitVector.insert W 1 false lf i b).current_size_bits ≤
      W * (SimpleBitVector.insert W 1 false lf i b).blocks.length := by
    rw [SimpleBitVector.insert_size, SimpleBitVector.insert_blocks_length]
    by_cases hg : lf.current_size_bits = W * lf.blocks.length
    · rw [if_pos hg, Nat.mul_add, Nat.mul_one]
      omega
    · rw [if_neg hg]
      omega
  have hsz' : (SimpleBitVector.insert W 1 false lf i b).current_size_bits =
      lf.current_size_bits + 1 := SimpleBitVector.insert_size W 1 false lf i b
  have hbits : SimpleBitVector.toBits W (SimpleBitVector.delete_element W 1 false
      (SimpleBitVector.insert W 1 false lf i b) i) = SimpleBitVector.toBits W lf := by
    rw [SimpleBitVector.toBits_delete W 1 false _ i hW hW64 hb' hsize' (by omega),
      SimpleBitVector.toBits_insert W 1 false lf i b hW hW64 hsize hi,
      List.eraseIdx_insertIdx i (SimpleBitVector.toBits W lf)]
  refine ⟨⟨.leaf (SimpleBitVector.delete_element W 1 false
    (SimpleBitVector.insert W 1 false lf i b) i), lf.current_size_bits, ones⟩,
    ?_, by simpa [dnodeBits] using hbits, rfl, rfl⟩
  rw [h1]
  simp only [delete_element]
  rw [if_pos (show i < lf.current_size_bits + 1 by omega)]
  simp only [delete_at_node]
  rw [if_neg (show ¬ (¬True ∧ ¬True ∧
    (SimpleBitVector.insert W 1 false lf i b).blocks.length ≤ MinB) from
    fun hcon => hcon.1 trivial)]
  rw [hget]
  cases b
  · simp only [Bool.false_eq_true, if_neg (Bool.false_ne_true)]
    rfl
  · simp only [if_pos rfl]
    rfl

/-- C6 at a concrete state: insert of a one at position 1 of the three-bit
leaf 101 and the following delete restore the sequence 101, size 3 and two
ones. -/
theorem c6_witness :
    ∃ w : DBV,
      delete_element 8 1 4 (insert 8 4 ⟨.leaf ⟨3, [5], []⟩, 3, 2⟩ 1 true) 1 =
        some w ∧
      dnodeBits 8 w.root = dnodeBits 8 (DNode.leaf ⟨3, [5], []⟩) ∧
      size w = 3 ∧
      num_ones w = 2 :=
  c6 8 1 4 ⟨3, [5], []⟩ 2 1 true (by decide) (by decide) (by decide)
    (by decide) (by decide) (by decide)

end DynamicBitVector

/-! ## copy_to_back on a block-aligned receiver -/

namespace SimpleBitVector

section CopySpec

variable (W C : ℕ)

theorem copy_to_back_size (v other : SimpleBitVector) (exq : Bool)
    (hne : other.blocks.length ≠ 0) :
    (copy_to_back W C exq v other).current_size_bits =
      v.current_size_bits + other.current_size_bits := by
  simp only [copy_to_back]
  rw [if_neg hne]

theorem copy_to_back_aligned_blocks (v other : SimpleBitVector) (hW : 0 < W)
    (halign : v.current_size_bits = W * v.blocks.length)
    (hne : other.blocks.length ≠ 0) :
    (copy_to_back W C false v other).blocks =
      v.blocks ++ other.blocks.take
        (get_required_blocks W (v.current_size_bits + other.current_size_bits) -
          v.blocks.length) := by
  have hmod : v.current_size_bits % W = 0 := by
    rw [halign]; exact Nat.mul_mod_right W _
  simp only [copy_to_back]
  rw [if_neg hne, if_neg (show ¬ v.current_size_bits % W ≠ 0 from
    fun hcon => hcon hmod),
    if_neg (show ¬ false = true from Bool.false_ne_true)]

theorem copy_to_back_aligned_length (v other : SimpleBitVector) (hW : 0 < W)
    (halign : v.current_size_bits = W * v.blocks.length)
    (hne : other.blocks.length ≠ 0)
    (hofit : other.current_size_bits ≤ W * other.blocks.length)
    (hmin : W * (other.blocks.length - 1) < other.current_size_bits) :
    (copy_to_back W C false v other).blocks.length =
      v.blocks.length + other.blocks.length := by
  rw [copy_to_back_aligned_blocks W C v other hW halign hne, List.length_append,
    List.length_take]
  have hopos : 0 < other.current_size_bits :=
    Nat.lt_of_le_of_lt (Nat.zero_le _) hmin
  have h1 : (other.current_size_bits - 1) / W = other.blocks.length - 1 := by
    apply Nat.div_eq_of_lt_le
    · have := hmin
      have hc : (other.blocks.length - 1) * W = W * (other.blocks.length - 1) :=
        Nat.mul_comm _ _
      omega
    · have hol : 0 < other.blocks.length := Nat.pos_of_ne_zero hne
      have hc : (other.blocks.length - 1 + 1) * W = W * other.blocks.length := by
        have he : other.blocks.length - 1 + 1 = other.blocks.length := by omega
        rw [he, Nat.mul_comm]
      omega
  have hreq : get_required_blocks W
      (v.current_size_bits + other.current_size_bits) =
      v.blocks.length + other.blocks.length := by
    simp only [get_required_blocks]
    rw [halign]
    have he : W * v.blocks.length + other.current_size_bits - 1 =
        W * v.blocks.length + (other.current_size_bits - 1) := by omega
    rw [he, Nat.mul_add_div hW, h1]
    have hol : 0 < other.blocks.length := Nat.pos_of_ne_zero hne
    omega
  rw [hreq]
  omega

theorem copy_to_back_get (v other : SimpleBitVector) (t : ℕ) (hW : 0 < W)
    (halign : v.current_size_bits = W * v.blocks.length)
    (hne : other.blocks.length ≠ 0)
    (ht : t < v.current_size_bits + other.current_size_bits) :
    get W (copy_to_back W C false v other) t =
      if t < v.current_size_bits then get W v t
      else get W other (t - v.current_size_bits) := by
  simp only [get, access_bit]
  rw [copy_to_back_aligned_blocks W C v other hW halign hne]
  by_cases hcase : t < v.current_size_bits
  · rw [if_pos hcase]
    have hdiv : t / W < v.blocks.length := by
      rw [halign] at hcase
      exact (Nat.div_lt_iff_lt_mul hW).mpr (by rw [Nat.mul_comm]; exact hcase)
    rw [List.getD_append _ _ _ _ hdiv]
  · rw [if_neg hcase]
    rw [halign] at hcase ht ⊢
    have hle : W * v.blocks.length ≤ t := by omega
    have hge : v.blocks.length ≤ t / W :=
      (Nat.le_div_iff_mul_le hW).mpr (by rw [Nat.mul_comm] at hle ⊢; omega)
    rw [List.getD_append_right _ _ _ _ hge]
    have hrepr : t = W * v.blocks.length + (t - W * v.blocks.length) := by omega
    have h2 : (W * v.blocks.length + (t - W * v.blocks.length)) / W =
        v.blocks.length + (t - W * v.blocks.length) / W := Nat.mul_add_div hW _ _
    have h3 : (W * v.blocks.length + (t - W * v.blocks.length)) % W =
        (t - W * v.blocks.length) % W := Nat.mul_add_mod _ _ _
    rw [← hrepr] at h2 h3
    rw [h3, show t / W - v.blocks.length = (t - W * v.blocks.length) / W by omega]
    have hu : t - W * v.blocks.length < other.current_size_bits := by omega
    have hopos : 0 < other.current_size_bits := by omega
    have h5 : (W * v.blocks.length + (other.current_size_bits - 1)) / W =
        v.blocks.length + (other.current_size_bits - 1) / W := Nat.mul_add_div hW _ _
    have h6 : (t - W * v.blocks.length) / W ≤ (other.current_size_bits - 1) / W :=
      Nat.div_le_div_right (by omega)
    have hlt : (t - W * v.blocks.length) / W <
        get_required_blocks W (W * v.blocks.length + other.current_size_bits) -
          v.blocks.length := by
      simp only [get_required_blocks]
      have he : W * v.blocks.length + other.current_size_bits - 1 =
          W * v.blocks.length + (other.current_size_bits - 1) := by omega
      rw [he, h5]
      omega
    rw [List.getD_eq_getElem?_getD, List.getElem?_take_of_lt hlt,
      ← List.getD_eq_getElem?_getD]

theorem toBits_copy_to_back (v other : SimpleBitVector) (hW : 0 < W)
    (halign : v.current_size_bits = W * v.blocks.length)
    (hne : other.blocks.length ≠ 0) :
    toBits W (copy_to_back W C false v other) = toBits W v ++ toBits W other := by
  refine list_ext_getD _ _ ?_ ?_
  · rw [toBits_length, copy_to_back_size W C v other false hne, List.length_append,
      toBits_length, toBits_length]
  · intro t ht
    rw [toBits_length, copy_to_back_size W C v other false hne] at ht
    rw [toBits_getD W _ (by rw [copy_to_back_size W C v other false hne]; exact ht),
      copy_to_back_get W C v other t hW halign hne ht]
    by_cases hcase : t < v.current_size_bits
    · rw [if_pos hcase, List.getD_append _ _ _ _ (by rw [toBits_length]; exact hcase),
        toBits_getD W v hcase]
    · rw [if_neg hcase,
        List.getD_append_right _ _ _ _ (by rw [toBits_length]; omega),
        toBits_length, toBits_getD W other (by omega)]

theorem eraseIdx_last_append (l r : List Bool) (n : ℕ) (hn : n + 1 = l.length) :
    l.eraseIdx n ++ l.getD n false :: r = l ++ r := by
  rw [List.eraseIdx_eq_take_drop_succ, List.drop_eq_nil_of_le (by omega),
    List.append_nil, List.getD_eq_getElem l false (by omega)]
  rw [List.append_cons, List.take_concat_get' l n (by omega),
    List.take_of_length_le (show l.length ≤ n + 1 by omega)]

end CopySpec

end SimpleBitVector

namespace DynamicBitVector

section DeleteTwoLeaf

variable (W MinB MaxB : ℕ)

/-- The deleted right leaf of the minimum-size scenario: one bit removed
from a leaf of exactly MinB blocks and MinB * W bits. -/
theorem steal_target_blocks (rlf : SimpleBitVector) (j : ℕ) (hW : 2 ≤ W)
    (hrsize : rlf.current_size_bits = MinB * W)
    (hrlen : rlf.blocks.length = MinB) :
    (SimpleBitVector.delete_element W 1 false rlf j).blocks.length = MinB ∧
    (SimpleBitVector.delete_element W 1 false rlf j).current_size_bits =
      MinB * W - 1 := by
  constructor
  · rw [SimpleBitVector.delete_blocks_length, hrlen]
    rw [hrsize, if_neg]
    intro hcon
    rcases hcon with ⟨h1, h2⟩
    have hM1 : 1 ≤ MinB := Nat.pos_of_ne_zero h1
    have hc : W * (MinB - 1) + W = W * MinB := by
      have he : MinB - 1 + 1 = MinB := by omega
      calc W * (MinB - 1) + W = W * (MinB - 1 + 1) := by rw [Nat.mul_succ]
        _ = W * MinB := by rw [he]
    have hcomm : MinB * W = W * MinB := Nat.mul_comm _ _
    omega
  · rw [SimpleBitVector.delete_size, hrsize]

end DeleteTwoLeaf

end DynamicBitVector

namespace DynamicBitVector

section DeleteTwoLeafSteal

variable (W MinB MaxB : ℕ)

theorem delete_two_leaf_steal (c : Color) (oil ones i : ℕ)
    (llf rlf : SimpleBitVector)
    (hW : 2 ≤ W) (hMinB : 0 < MinB) (hMM : MinB < MaxB)
    (hrsize : rlf.current_size_bits = MinB * W)
    (hrlen : rlf.blocks.length = MinB)
    (hsteal : MinB < llf.blocks.length)
    (hi1 : llf.current_size_bits ≤ i) :
    delete_at_node W MinB MaxB true
        (.node c llf.current_size_bits oil (.leaf llf) (.leaf rlf)) i
        (llf.current_size_bits + MinB * W) ones true =
      some (.node c (llf.current_size_bits - 1)
          (if SimpleBitVector.get W llf (llf.current_size_bits - 1) = true then
            oil - 1 else oil)
          (.leaf (SimpleBitVector.delete_element W 1 false llf
            (llf.current_size_bits - 1)))
          (.leaf (SimpleBitVector.insert W 1 false
            (SimpleBitVector.delete_element W 1 false rlf
              (i - llf.current_size_bits)) 0
            (SimpleBitVector.get W llf (llf.current_size_bits - 1)))),
        if SimpleBitVector.get W rlf (i - llf.current_size_bits) = true then
          LeafDeletion.DELETED_ONE else LeafDeletion.DELETED_ZERO) := by
  have hins : ∀ b : Bool,
      (SimpleBitVector.insert W 1 false
        (SimpleBitVector.delete_element W 1 false rlf
          (i - llf.current_size_bits)) 0 b).blocks.length = MinB := by
    intro b
    have hst := steal_target_blocks W MinB rlf (i - llf.current_size_bits) hW
      hrsize hrlen
    have hnc : ¬ ((SimpleBitVector.delete_element W 1 false rlf
        (i - llf.current_size_bits)).current_size_bits =
        W * (SimpleBitVector.delete_element W 1 false rlf
          (i - llf.current_size_bits)).blocks.length) := by
      rw [hst.2, hst.1]
      have hcomm : MinB * W = W * MinB := Nat.mul_comm _ _
      have hA : 2 ≤ MinB * W :=
        le_trans hW (Nat.le_mul_of_pos_left W hMinB)
      omega
    rw [SimpleBitVector.insert_blocks_length, if_neg hnc, hst.1]
  have hialn : ∀ (lf : SimpleBitVector) (j : ℕ) (b : Bool),
      (SimpleBitVector.insert W 1 false lf j b).blocks.length < MaxB →
      insert_at_node W MaxB (.leaf lf) j b =
        (.leaf (SimpleBitVector.insert W 1 false lf j b), InsFix.noSplit) := by
    intro lf j b h
    simp only [insert_at_node]
    rw [if_neg (by omega)]
  simp only [delete_at_node]
  rw [if_pos hi1,
    if_neg (show ¬(¬True ∧ ¬false = true ∧ rlf.blocks.length ≤ MinB) from
      fun hcon => hcon.1 trivial),
    if_neg (show ¬(¬false = true ∧ ¬false = true ∧ llf.blocks.length ≤ MinB) from
      fun hcon => absurd hcon.2.2 (by omega))]
  cases hrg : SimpleBitVector.get W rlf (i - llf.current_size_bits) <;>
    cases hlg : SimpleBitVector.get W llf (llf.current_size_bits - 1)
  · simp only [Bool.false_eq_true, eq_self_iff_true, if_true, if_false, reduceIte]
    rw [if_pos (show llf.current_size_bits + MinB * W - llf.current_size_bits =
      MinB * W by omega)]
    rw [hialn _ 0 false (by rw [hins]; omega)]
    simp only [Bool.false_eq_true, eq_self_iff_true, if_true, if_false, reduceIte]
    rfl
  · simp only [Bool.false_eq_true, eq_self_iff_true, if_true, if_false, reduceIte]
    rw [if_pos (show llf.current_size_bits + MinB * W - llf.current_size_bits =
      MinB * W by omega)]
    rw [hialn _ 0 true (by rw [hins]; omega)]
    simp only [Bool.false_eq_true, eq_self_iff_true, if_true, if_false, reduceIte]
    rfl
  · simp only [Bool.false_eq_true, eq_self_iff_true, if_true, if_false, reduceIte]
    rw [if_pos (show llf.current_size_bits + MinB * W - llf.current_size_bits =
      MinB * W by omega)]
    rw [hialn _ 0 false (by rw [hins]; omega)]
    simp only [Bool.false_eq_true, eq_self_iff_true, if_true, if_false, reduceIte]
    rfl
  · simp only [Bool.false_eq_true, eq_self_iff_true, if_true, if_false, reduceIte]
    rw [if_pos (show llf.current_size_bits + MinB * W - llf.current_size_bits =
      MinB * W by omega)]
    rw [hialn _ 0 true (by rw [hins]; omega)]
    simp only [Bool.false_eq_true, eq_self_iff_true, if_true, if_false, reduceIte]
    rfl

theorem delete_two_leaf_merge (c : Color) (oil ones i : ℕ)
    (llf rlf : SimpleBitVector)
    (hW : 2 ≤ W) (hMinB : 0 < MinB)
    (hrsize : rlf.current_size_bits = MinB * W)
    (hrlen : rlf.blocks.length = MinB)
    (hmerge : llf.blocks.length ≤ MinB)
    (hi1 : llf.current_size_bits ≤ i) :
    delete_at_node W MinB MaxB true
        (.node c llf.current_size_bits oil (.leaf llf) (.leaf rlf)) i
        (llf.current_size_bits + MinB * W) ones true =
      some (.leaf (SimpleBitVector.copy_to_back W 1 false llf
          (SimpleBitVector.delete_element W 1 false rlf
            (i - llf.current_size_bits))),
        if SimpleBitVector.get W rlf (i - llf.current_size_bits) = true then
          LeafDeletion.DELETED_ONE else LeafDeletion.DELETED_ZERO) := by
  simp only [delete_at_node]
  rw [if_pos hi1,
    if_neg (show ¬(¬True ∧ ¬false = true ∧ rlf.blocks.length ≤ MinB) from
      fun hcon => hcon.1 trivial),
    if_pos (show ¬false = true ∧ ¬false = true ∧ llf.blocks.length ≤ MinB from
      ⟨Bool.false_ne_true, Bool.false_ne_true, hmerge⟩)]
  cases hrg : SimpleBitVector.get W rlf (i - llf.current_size_bits)
  · simp only [Bool.false_eq_true, eq_self_iff_true, if_true, if_false, reduceIte]
    rw [if_pos (show llf.current_size_bits + MinB * W - llf.current_size_bits =
      MinB * W by omega)]
    simp only [move_to_leaf, paint, Bool.false_eq_true, eq_self_iff_true,
      if_true, if_false]
    rfl
  · simp only [Bool.false_eq_true, eq_self_iff_true, if_true, if_false, reduceIte]
    rw [if_pos (show llf.current_size_bits + MinB * W - llf.current_size_bits =
      MinB * W by omega)]
    simp only [move_to_leaf, paint, Bool.false_eq_true, eq_self_iff_true,
      if_true, if_false]
    rfl

end DeleteTwoLeafSteal

end DynamicBitVector

namespace DynamicBitVector

section ClaimFive

/-- C5: deleting inside a right leaf of exactly MinB blocks and MinB * W
bits, under a root joining it to a block-aligned left sibling leaf.  When
the sibling can spare a bit the tree steals it (the sibling loses its last
bit, which reappears in front of the deficient leaf); otherwise the two
leaves merge through copy_to_back and the internal node disappears.  On
both paths the stored sequence is the original one with exactly the
requested bit removed, and the surviving leaves hold between MinB and
MaxB blocks. -/
theorem c5 (W MinB MaxB : ℕ) (c : Color) (oil ones i : ℕ)
    (llf rlf : SimpleBitVector)
    (hW : 2 ≤ W) (hW64 : W ≤ 64) (hMinB : 0 < MinB) (hMM : 2 * MinB ≤ MaxB)
    (hlb : ∀ x ∈ llf.blocks, x < 2 ^ W) (hrb : ∀ x ∈ rlf.blocks, x < 2 ^ W)
    (hlsize : llf.current_size_bits = W * llf.blocks.length)
    (hllen : llf.blocks.length ≤ MaxB)
    (hrsize : rlf.current_size_bits = MinB * W)
    (hrlen : rlf.blocks.length = MinB)
    (hi1 : llf.current_size_bits ≤ i)
    (hi2 : i < llf.current_size_bits + MinB * W) :
    ∃ t del,
      delete_at_node W MinB MaxB true
          (.node c llf.current_size_bits oil (.leaf llf) (.leaf rlf)) i
          (llf.current_size_bits + MinB * W) ones true = some (t, del) ∧
      dnodeBits W t =
        (dnodeBits W (DNode.node c llf.current_size_bits oil
          (.leaf llf) (.leaf rlf))).eraseIdx i ∧
      (if MinB < llf.blocks.length then
          ∃ la ra : SimpleBitVector, ∃ c2 : Color, ∃ n2 o2 : ℕ,
            t = DNode.node c2 n2 o2 (.leaf la) (.leaf ra) ∧
            MinB ≤ la.blocks.length ∧ la.blocks.length ≤ MaxB ∧
            MinB ≤ ra.blocks.length ∧ ra.blocks.length ≤ MaxB
        else ∃ m : SimpleBitVector, t = DNode.leaf m ∧
            MinB ≤ m.blocks.length ∧ m.blocks.length ≤ MaxB) := by
  have hW0 : 0 < W := by omega
  have hMM1 : MinB < MaxB := by omega
  have hcomm : MinB * W = W * MinB := Nat.mul_comm _ _
  have hrWsize : rlf.current_size_bits ≤ W * rlf.blocks.length := by
    rw [hrsize, hrlen]; omega
  have hst := steal_target_blocks W MinB rlf (i - llf.current_size_bits) hW
    hrsize hrlen
  have hrdb : ∀ x ∈ (SimpleBitVector.delete_element W 1 false rlf
      (i - llf.current_size_bits)).blocks, x < 2 ^ W :=
    SimpleBitVector.delete_blocks_bound W 1 false rlf _ hW0 hrb
  have hrdsize : (SimpleBitVector.delete_element W 1 false rlf
      (i - llf.current_size_bits)).current_size_bits ≤
      W * (SimpleBitVector.delete_element W 1 false rlf
        (i - llf.current_size_bits)).blocks.length := by
    rw [hst.1, hst.2]; omega
  have hrbits : SimpleBitVector.toBits W (SimpleBitVector.delete_element W 1
      false rlf (i - llf.current_size_bits)) =
      (SimpleBitVector.toBits W rlf).eraseIdx (i - llf.current_size_bits) :=
    SimpleBitVector.toBits_delete W 1 false rlf _ hW0 hW64 hrb hrWsize
      (by rw [hrsize]; omega)
  have htarget : (dnodeBits W (DNode.node c llf.current_size_bits oil
      (.leaf llf) (.leaf rlf))).eraseIdx i =
      SimpleBitVector.toBits W llf ++
        (SimpleBitVector.toBits W rlf).eraseIdx (i - llf.current_size_bits) := by
    simp only [dnodeBits]
    rw [List.eraseIdx_append_of_length_le
      (by rw [SimpleBitVector.toBits_length]; exact hi1),
      SimpleBitVector.toBits_length]
  by_cases hcase : MinB < llf.blocks.length
  · -- steal path
    have hsz : W ≤ llf.current_size_bits := by
      rw [hlsize]
      calc W = W * 1 := (Nat.mul_one W).symm
        _ ≤ W * llf.blocks.length := Nat.mul_le_mul_left W (by omega)
    have hins : ∀ b : Bool,
        (SimpleBitVector.insert W 1 false
          (SimpleBitVector.delete_element W 1 false rlf
            (i - llf.current_size_bits)) 0 b).blocks.length = MinB := by
      intro b
      have hnc : ¬ ((SimpleBitVector.delete_element W 1 false rlf
          (i - llf.current_size_bits)).current_size_bits =
          W * (SimpleBitVector.delete_element W 1 false rlf
            (i - llf.current_size_bits)).blocks.length) := by
        rw [hst.2, hst.1]
        have hA : 2 ≤ MinB * W :=
          le_trans hW (Nat.le_mul_of_pos_left W hMinB)
        omega
      rw [SimpleBitVector.insert_blocks_length, if_neg hnc, hst.1]
    refine ⟨_, _, delete_two_leaf_steal W MinB MaxB c oil ones i llf rlf hW
      hMinB hMM1 hrsize hrlen hcase hi1, ?_, ?_⟩
    · rw [htarget]
      simp only [dnodeBits]
      rw [SimpleBitVector.toBits_delete W 1 false llf _ hW0 hW64 hlb
          (le_of_eq hlsize) (by omega),
        SimpleBitVector.toBits_insert W 1 false _ 0 _ hW0 hW64 hrdsize
          (Nat.zero_le _),
        List.insertIdx_zero, hrbits,
        ← SimpleBitVector.toBits_getD W llf
          (show llf.current_size_bits - 1 < llf.current_size_bits by omega)]
      exact SimpleBitVector.eraseIdx_last_append _ _ _
        (by rw [SimpleBitVector.toBits_length]; omega)
    · rw [if_pos hcase]
      refine ⟨_, _, _, _, _, rfl, ?_, ?_, ?_, ?_⟩
      · rw [SimpleBitVector.delete_blocks_length]
        split <;> omega
      · rw [SimpleBitVector.delete_blocks_length]
        split <;> omega
      · rw [hins]
      · rw [hins]; omega
  · -- merge path
    have hmerge : llf.blocks.length ≤ MinB := by omega
    have hne : (SimpleBitVector.delete_element W 1 false rlf
        (i - llf.current_size_bits)).blocks.length ≠ 0 := by
      rw [hst.1]; omega
    refine ⟨_, _, delete_two_leaf_merge W MinB MaxB c oil ones i llf rlf hW
      hMinB hrsize hrlen hmerge hi1, ?_, ?_⟩
    · rw [htarget]
      simp only [dnodeBits]
      rw [SimpleBitVector.toBits_copy_to_back W 1 llf _ hW0 hlsize hne, hrbits]
    · rw [if_neg hcase]
      refine ⟨_, rfl, ?_, ?_⟩
      · rw [SimpleBitVector.copy_to_back_aligned_length W 1 llf _ hW0 hlsize hne
          hrdsize (by rw [hst.1, hst.2]
                      have hc : W * (MinB - 1) + W = W * MinB := by
                        have he : MinB - 1 + 1 = MinB := by omega
                        calc W * (MinB - 1) + W = W * (MinB - 1 + 1) := by
                              rw [Nat.mul_succ]
                          _ = W * MinB := by rw [he]
                      omega), hst.1]
        omega
      · rw [SimpleBitVector.copy_to_back_aligned_length W 1 llf _ hW0 hlsize hne
          hrdsize (by rw [hst.1, hst.2]
                      have hc : W * (MinB - 1) + W = W * MinB := by
                        have he : MinB - 1 + 1 = MinB := by omega
                        calc W * (MinB - 1) + W = W * (MinB - 1 + 1) := by
                              rw [Nat.mul_succ]
                          _ = W * MinB := by rw [he]
                      omega), hst.1]
        omega

/-- C5 at a concrete pair of leaves (steal path): deleting bit 20 under a
root with a two-block left leaf and a one-block right leaf of 8 bits. -/
theorem c5_witness :
    ∃ t del,
      delete_at_node 8 1 4 true
          (.node Color.BLACK 16 5 (.leaf ⟨16, [171, 92], []⟩)
            (.leaf ⟨8, [92], []⟩)) 20 (16 + 1 * 8) 9 true = some (t, del) ∧
      dnodeBits 8 t =
        (dnodeBits 8 (DNode.node Color.BLACK 16 5 (.leaf ⟨16, [171, 92], []⟩)
          (.leaf ⟨8, [92], []⟩))).eraseIdx 20 ∧
      (if 1 < (⟨16, [171, 92], []⟩ : SimpleBitVector).blocks.length then
          ∃ la ra : SimpleBitVector, ∃ c2 : Color, ∃ n2 o2 : ℕ,
            t = DNode.node c2 n2 o2 (.leaf la) (.leaf ra) ∧
            1 ≤ la.blocks.length ∧ la.blocks.length ≤ 4 ∧
            1 ≤ ra.blocks.length ∧ ra.blocks.length ≤ 4
        else ∃ m : SimpleBitVector, t = DNode.leaf m ∧
            1 ≤ m.blocks.length ∧ m.blocks.length ≤ 4) :=
  c5 8 1 4 Color.BLACK 5 9 20 ⟨16, [171, 92], []⟩ ⟨8, [92], []⟩
    (by decide) (by decide) (by decide) (by decide) (by decide) (by decide)
    (by decide) (by decide) (by decide) (by decide) (by decide) (by decide)

end ClaimFive

end DynamicBitVector
